import Mathlib

/-!
Shallow embedding of the line-balancing engine of `src/app.py`
(class `LineaProduccion` and its helper class `Estacion`).

Modelling conventions:
* Python floats are modelled as `ℚ` (exact arithmetic); Python non-negative
  integer parameters (`unidades_a_producir`, `num_empleados_disponibles`)
  are modelled as `ℕ`, matching the constructor's validation.
* Python `str.lower()` is modelled by `pyLower` (ASCII lowercasing).
* Raised `ValueError`s are modelled by `Except BuildError`.
* In-place mutation of the shared `Estacion` objects is modelled by
  explicit list-state passing: each loop iteration reads the current list
  and writes one position back with `List.set`.
* The early-exit `break` of the two relaxation loops in `calcular_cpm`
  (src/app.py:132-133 and 157-158) only skips passes in which no field
  changed; such a pass is a fixpoint, so the phases are modelled as the
  full `n` passes.
-/

/-- Python `str.lower()` on a single character (ASCII range). -/
def pyLowerChar (c : Char) : Char :=
  if 65 ≤ c.toNat ∧ c.toNat ≤ 90 then Char.ofNat (c.toNat + 32) else c

/-- Python `str.lower()` (src/app.py:92-94 uses it on station names). -/
def pyLower (s : String) : String := ⟨s.data.map pyLowerChar⟩

/-- Python `max(xs, default=0.0)` over rationals (src/app.py:135, 208). -/
def listMaxQ : List ℚ → ℚ
  | [] => 0
  | x :: r => r.foldl (fun a b => if a < b then b else a) x

/-- Python `min(xs, default=d)` over rationals (src/app.py:148). -/
def listMinQ (d : ℚ) : List ℚ → ℚ
  | [] => d
  | x :: r => r.foldl (fun a b => if b < a then b else a) x

/-- Python `int(q)` on a float: truncation toward zero (src/app.py:251). -/
def pyTrunc (q : ℚ) : ℤ := if q < 0 then ⌈q⌉ else ⌊q⌋

/-- One raw station record as received by `_procesar_estaciones_data`
(src/app.py:85-88): `data.get("nombre")`, `data.get("tiempo")`,
`data.get("predecesora", "")`.  A missing or non-numeric `tiempo` is
modelled as `none`; a missing name as `""`. -/
structure EstacionData where
  nombre : String
  tiempo : Option ℚ
  predecesora : String
deriving Repr, DecidableEq

/-- The `Estacion` class (src/app.py:22-45) with its CPM result fields. -/
structure Estacion where
  nombre : String
  tiempo : ℚ
  predecesora_nombre : String
  es : ℚ
  ef : ℚ
  ls : ℚ
  lf : ℚ
  holgura : ℚ
  es_critica : Bool
deriving Repr, DecidableEq

/-- The `ValueError`s raised during construction (src/app.py:31-32, 78-79,
90-93, 98-99, 104-106). -/
inductive BuildError where
  | emptyList : BuildError
  | missingName : ℕ → BuildError
  | duplicateName : String → BuildError
  | invalidTiempo : String → BuildError
  | unknownPredecesora : String → String → BuildError
deriving Repr, DecidableEq

/-- `Estacion.__init__` (src/app.py:28-40): rejects a missing/non-numeric
or non-positive `tiempo`, otherwise builds the station with zeroed CPM
fields. -/
def mkEstacion (nombre : String) (tiempo : Option ℚ) (predecesora : String) :
    Except BuildError Estacion :=
  match tiempo with
  | none => .error (.invalidTiempo nombre)
  | some t =>
    if t ≤ 0 then .error (.invalidTiempo nombre)
    else .ok ⟨nombre, t, predecesora, 0, 0, 0, 0, 0, false⟩

/-- The validation loop of `_procesar_estaciones_data` (src/app.py:85-102):
checks non-empty name, case-insensitive uniqueness against the names seen
so far, then builds the station. -/
def procesarLoop : List EstacionData → ℕ → List String → List Estacion →
    Except BuildError (List Estacion)
  | [], _, _, acc => .ok acc.reverse
  | d :: rest, i, vistos, acc =>
    if d.nombre = "" then .error (.missingName (i + 1))
    else if pyLower d.nombre ∈ vistos then .error (.duplicateName d.nombre)
    else
      match mkEstacion d.nombre d.tiempo d.predecesora with
      | .error e => .error e
      | .ok est => procesarLoop rest (i + 1) (pyLower d.nombre :: vistos) (est :: acc)

/-- `self.estaciones_dict.get(...)`: name-indexed lookup (src/app.py:121).
The dict maps each name to the station carrying it; after validation names
are unique, so the first match is the dict entry. -/
def lookupEst (l : List Estacion) (nm : String) : Option Estacion :=
  l.find? (fun e => e.nombre == nm)

/-- The predecessor-existence check (src/app.py:104-106): the first station
whose non-empty predecessor name is not a defined station name aborts
construction. -/
def checkPredecesoras (l : List Estacion) : Except BuildError (List Estacion) :=
  match l.find? (fun e => (e.predecesora_nombre != "") && (lookupEst l e.predecesora_nombre).isNone) with
  | some e => .error (.unknownPredecesora e.predecesora_nombre e.nombre)
  | none => .ok l

/-- `_procesar_estaciones_data` (src/app.py:77-106). -/
def procesarEstacionesData (datas : List EstacionData) : Except BuildError (List Estacion) :=
  match datas with
  | [] => .error .emptyList
  | _ :: _ =>
    match procesarLoop datas 0 [] [] with
    | .error e => .error e
    | .ok l => checkPredecesoras l

/-- The candidate new earliest start of a station in the forward pass
(src/app.py:119-123): its predecessor's current EF, or 0. -/
def nuevoEs (l : List Estacion) (est : Estacion) : ℚ :=
  if est.predecesora_nombre = "" then 0
  else
    match lookupEst l est.predecesora_nombre with
    | some pred => pred.ef
    | none => 0

/-- One station update of the forward pass (src/app.py:118-131): raise ES
if the candidate is larger, then recompute EF = ES + tiempo. -/
def forwardUpdate (l : List Estacion) (i : ℕ) : List Estacion :=
  match l[i]? with
  | none => l
  | some est =>
    let n := nuevoEs l est
    let es2 := if est.es < n then n else est.es
    l.set i { est with es := es2, ef := es2 + est.tiempo }

/-- One full forward pass over the stations in input order (src/app.py:116-131). -/
def forwardPass (l : List Estacion) : List Estacion :=
  (List.range l.length).foldl forwardUpdate l

/-- The forward phase (src/app.py:111-133): ES := 0, EF := tiempo, then
`len(estaciones)` passes. -/
def forwardPhase (l : List Estacion) : List Estacion :=
  forwardPass^[l.length] (l.map fun e => { e with es := 0, ef := e.tiempo })

/-- The successor scan (src/app.py:145): all stations naming `nm` as their
predecessor. -/
def sucesoresDe (l : List Estacion) (nm : String) : List Estacion :=
  l.filter (fun s => s.predecesora_nombre == nm)

/-- The candidate new latest finish of a station in the backward pass
(src/app.py:145-148): the minimum LS over its successors, or the project
time if it has none. -/
def nuevoLf (cp : ℚ) (l : List Estacion) (est : Estacion) : ℚ :=
  match sucesoresDe l est.nombre with
  | [] => cp
  | s :: rest => listMinQ cp ((s :: rest).map (fun x => x.ls))

/-- One station update of the backward pass (src/app.py:144-156): lower LF
if the candidate is smaller, then recompute LS = LF - tiempo. -/
def backwardUpdate (cp : ℚ) (l : List Estacion) (i : ℕ) : List Estacion :=
  match l[i]? with
  | none => l
  | some est =>
    let n := nuevoLf cp l est
    let lf2 := if n < est.lf then n else est.lf
    l.set i { est with lf := lf2, ls := lf2 - est.tiempo }

/-- One full backward pass, reverse input order (src/app.py:141-156). -/
def backwardPass (cp : ℚ) (l : List Estacion) : List Estacion :=
  ((List.range l.length).reverse).foldl (backwardUpdate cp) l

/-- The backward phase (src/app.py:137-158): LF := project time,
LS := LF - tiempo, then `len(estaciones)` passes in reverse input order. -/
def backwardPhase (cp : ℚ) (l : List Estacion) : List Estacion :=
  (backwardPass cp)^[l.length] (l.map fun e => { e with lf := cp, ls := cp - e.tiempo })

/-- Python `max(lista, key=lambda e: e.tiempo)` (src/app.py:171): the first
station with maximal processing time. -/
def primeroMayor : List Estacion → Option Estacion
  | [] => none
  | e :: r => some (r.foldl (fun best x => if best.tiempo < x.tiempo then x else best) e)

/-- The slack tolerance `epsilon = 1e-6` (src/app.py:161). -/
def epsilonCritica : ℚ := 1 / 1000000

/-- The slack / critical-flag loop (src/app.py:160-168). -/
def marcarHolgura (l : List Estacion) : List Estacion :=
  l.map fun est =>
    let h := est.ls - est.es
    { est with holgura := h, es_critica := decide (|h| < epsilonCritica) }

/-- The aggregate results written by `calcular_cpm`. -/
structure CPMState where
  estaciones : List Estacion
  tiempo_total_camino_critico : ℚ
  camino_critico_nombres : List String
  cuello_nombre : String
  cuello_tiempo : ℚ
deriving Repr, DecidableEq

/-- `calcular_cpm` (src/app.py:108-178).  With no stations it returns the
constructor defaults (src/app.py:109 returns early; `cuello_botella_info`
then has no `tiempo_proceso_individual` key, read back as 0). -/
def calcularCpm (l : List Estacion) : CPMState :=
  match l with
  | [] => ⟨[], 0, [], "", 0⟩
  | _ :: _ =>
    let f := forwardPhase l
    let cp := listMaxQ (f.map fun e => e.ef)
    let b := backwardPhase cp f
    let final := marcarHolgura b
    let camino := (final.filter fun e => e.es_critica).map fun e => e.nombre
    match primeroMayor final with
    | some cb => ⟨final, cp, camino, cb.nombre, cb.tiempo⟩
    | none => ⟨final, cp, camino, "", 0⟩

/-- The metric fields written by `calcular_metricas_produccion`. -/
structure Metricas where
  tiempo_ciclo_calculado : ℚ
  tiempo_produccion_total_estimado : ℚ
  eficiencia_linea : ℚ
  efectividad_linea : ℚ
deriving Repr, DecidableEq

/-- `calcular_metricas_produccion` (src/app.py:180-220), taking the values
`calcular_cpm` left on the object: the station list, the critical-path time
and the bottleneck's individual time. -/
def calcularMetricasProduccion (lista : List Estacion) (cp cuelloT : ℚ)
    (unidades empleados : ℕ) : Metricas :=
  match lista with
  | [] => ⟨0, 0, 0, 0⟩
  | _ :: _ =>
    let tc : ℚ :=
      if 0 < unidades ∧ 0 < cp then cp / (unidades : ℚ)
      else if 0 < cuelloT then cuelloT
      else 0
    let tp : ℚ :=
      if 0 < unidades then
        if 0 < cuelloT then
          if 1 < unidades then cp + ((unidades : ℚ) - 1) * cuelloT else cp
        else cp
      else cp
    let sumT : ℚ := (lista.map fun e => e.tiempo).sum
    let cbReal : ℚ := if cuelloT = 0 then listMaxQ (lista.map fun e => e.tiempo) else cuelloT
    let ef0 : ℚ :=
      if 0 < empleados ∧ 0 < cbReal then
        if 0 < (empleados : ℚ) * cbReal then sumT / ((empleados : ℚ) * cbReal) * 100
        else if 0 < sumT then 0 else 100
      else if 0 < sumT then 0 else 100
    let efc1 : ℚ := if ef0 < 0 then 0 else ef0
    let efc2 : ℚ := if 100 < efc1 then 100 else efc1
    ⟨tc, tp, efc2, efc2⟩

/-- One entry of `empleados_asignados_por_estacion` (src/app.py:226). -/
structure Asignacion where
  nombre : String
  empleados : ℤ
deriving Repr, DecidableEq

/-- One entry of `asignaciones_temp` (src/app.py:248-253). -/
structure AsigTemp where
  nombre : String
  ideal : ℚ
  asignados_base : ℤ
  fraccion : ℚ
deriving Repr, DecidableEq

/-- `+= 1` on entry `i` in the reconciliation loop (src/app.py:285). -/
def incAt (l : List Asignacion) (i : ℕ) : List Asignacion :=
  match l[i]? with
  | none => l
  | some a => l.set i { a with empleados := a.empleados + 1 }

/-- `-= 1` on entry `i` in the reconciliation loop (src/app.py:289). -/
def decAt (l : List Asignacion) (i : ℕ) : List Asignacion :=
  match l[i]? with
  | none => l
  | some a => l.set i { a with empleados := a.empleados - 1 }

/-- The safety-bounded reconciliation `while` loop (src/app.py:282-292),
fuelled by `max_iters_safety`. -/
def ajusteLoop : ℕ → ℤ → ℕ → List Asignacion → List Asignacion
  | 0, _, _, l => l
  | fuel + 1, dif, idx, l =>
    if dif = 0 ∨ l.isEmpty then l
    else
      let i := idx % l.length
      if 0 < dif then ajusteLoop fuel (dif - 1) (idx + 1) (incAt l i)
      else
        match l[i]? with
        | some a =>
          if 0 < a.empleados then ajusteLoop fuel (dif + 1) (idx + 1) (decAt l i)
          else ajusteLoop fuel dif (idx + 1) l
        | none => ajusteLoop fuel dif (idx + 1) l

/-- `original_order_map` (src/app.py:297): dict comprehension keeps the
last index of each name; a name not in the map reads as `float('inf')`,
modelled as `lista.length`, which likewise sorts after every real index. -/
def origenIdx (lista : List Estacion) (nm : String) : ℕ :=
  match (lista.enum.reverse).find? (fun p => p.2.nombre == nm) with
  | some p => p.1
  | none => lista.length

/-- `map_nombre_a_asignacion.get(nombre, 0)` (src/app.py:264-269): a dict
built from a list keeps the last entry per name. -/
def dictBase (l : List AsigTemp) (nm : String) : Option ℤ :=
  (l.reverse.find? (fun a => a.nombre == nm)).map (fun a => a.asignados_base)

/-- `asignar_empleados` (src/app.py:222-298).  Python's `list.sort` is a
stable sort, modelled by `List.mergeSort`; `sort(reverse=True)` flips the
comparison, not the result. -/
def asignarEmpleados (lista : List Estacion) (numEmp : ℕ) : List Asignacion :=
  if lista.isEmpty ∨ numEmp = 0 then lista.map (fun e => ⟨e.nombre, 0⟩)
  else
    let total : ℚ := (lista.map fun e => e.tiempo).sum
    if total = 0 then
      let activas := (lista.filter fun e => 0 ≤ e.tiempo).length
      let porEst : ℕ := if 0 < activas then numEmp / activas else 0
      let resto : ℕ := if 0 < activas then numEmp % activas else numEmp
      lista.enum.map (fun p =>
        let asignados : ℤ := (porEst : ℤ) + (if p.1 < resto then 1 else 0)
        ⟨p.2.nombre, if 0 ≤ p.2.tiempo then asignados else 0⟩)
    else
      let temp : List AsigTemp := lista.map (fun est =>
        let prop : ℚ := if 0 < total then est.tiempo / total else 1 / (lista.length : ℚ)
        let ideal : ℚ := prop * (numEmp : ℚ)
        ⟨est.nombre, ideal, pyTrunc ideal, ideal - (pyTrunc ideal : ℚ)⟩)
      let sumBase : ℤ := (temp.map fun a => a.asignados_base).sum
      let restantes : ℤ := (numEmp : ℤ) - sumBase
      let ordenado := temp.mergeSort (fun a b => decide (b.fraccion ≤ a.fraccion))
      let conExtras := ordenado.enum.map (fun p =>
        if (p.1 : ℤ) < restantes then { p.2 with asignados_base := p.2.asignados_base + 1 } else p.2)
      let porNombre : List Asignacion := lista.map (fun est =>
        ⟨est.nombre, (dictBase conExtras est.nombre).getD 0⟩)
      let sumaFinal : ℤ := (porNombre.map fun a => a.empleados).sum
      let dif : ℤ := (numEmp : ℤ) - sumaFinal
      let preordenado :=
        if dif = 0 then porNombre
        else if dif < 0 then porNombre.mergeSort (fun a b => decide (b.empleados ≤ a.empleados))
        else porNombre.mergeSort (fun a b => decide (a.empleados ≤ b.empleados))
      let ajustado := ajusteLoop (porNombre.length * dif.natAbs + porNombre.length + 1) dif 0 preordenado
      ajustado.mergeSort (fun a b => decide (origenIdx lista a.nombre ≤ origenIdx lista b.nombre))

/-- Every field of the line object exposed after the full pipeline
(src/app.py:595-598 and 629-646). -/
structure LineaResultados where
  estaciones : List Estacion
  tiempo_total_camino_critico : ℚ
  camino_critico_nombres : List String
  cuello_nombre : String
  cuello_tiempo : ℚ
  tiempo_ciclo_calculado : ℚ
  tiempo_produccion_total_estimado : ℚ
  eficiencia_linea : ℚ
  efectividad_linea : ℚ
  empleados_asignados_por_estacion : List Asignacion
deriving Repr, DecidableEq

/-- The full request pipeline (src/app.py:595-598): construction,
`calcular_cpm`, `calcular_metricas_produccion`, `asignar_empleados`, in
that order, on a fresh object. -/
def runPipeline (datas : List EstacionData) (unidades empleados : ℕ) :
    Except BuildError LineaResultados :=
  match procesarEstacionesData datas with
  | .error e => .error e
  | .ok l =>
    let c := calcularCpm l
    let m := calcularMetricasProduccion c.estaciones c.tiempo_total_camino_critico
      c.cuello_tiempo unidades empleados
    let asig := asignarEmpleados c.estaciones empleados
    .ok ⟨c.estaciones, c.tiempo_total_camino_critico, c.camino_critico_nombres,
      c.cuello_nombre, c.cuello_tiempo, m.tiempo_ciclo_calculado,
      m.tiempo_produccion_total_estimado, m.eficiencia_linea, m.efectividad_linea, asig⟩

/-! ### Helper lemmas: Python `max` / `min` folds -/

theorem foldlMax_ge_acc (r : List ℚ) (a : ℚ) :
    a ≤ r.foldl (fun x b => if x < b then b else x) a := by
  induction r generalizing a with
  | nil => exact le_refl a
  | cons y r ih =>
    refine le_trans ?_ (ih (if a < y then y else a))
    by_cases h : a < y
    · simp [h, le_of_lt h]
    · simp [h]

theorem foldlMax_ge_mem (r : List ℚ) (a x : ℚ) (hx : x ∈ r) :
    x ≤ r.foldl (fun x b => if x < b then b else x) a := by
  induction r generalizing a with
  | nil => cases hx
  | cons y r ih =>
    rcases List.mem_cons.mp hx with rfl | hx
    · refine le_trans ?_ (foldlMax_ge_acc r (if a < x then x else a))
      by_cases h : a < x
      · simp [h]
      · simpa [h] using le_of_not_lt h
    · exact ih (if a < y then y else a) hx

theorem foldlMax_mem (r : List ℚ) (a : ℚ) :
    r.foldl (fun x b => if x < b then b else x) a = a ∨
      r.foldl (fun x b => if x < b then b else x) a ∈ r := by
  induction r generalizing a with
  | nil => exact Or.inl rfl
  | cons y r ih =>
    rcases ih (if a < y then y else a) with h | h
    · rw [List.foldl_cons, h]
      by_cases hy : a < y
      · simp [hy]
      · simp [hy]
    · exact Or.inr (List.mem_cons_of_mem _ h)

theorem le_listMaxQ {xs : List ℚ} {x : ℚ} (hx : x ∈ xs) : x ≤ listMaxQ xs := by
  cases xs with
  | nil => cases hx
  | cons y r =>
    rcases List.mem_cons.mp hx with rfl | hx
    · exact foldlMax_ge_acc r x
    · exact foldlMax_ge_mem r y x hx

theorem listMaxQ_mem {xs : List ℚ} (hne : xs ≠ []) : listMaxQ xs ∈ xs := by
  cases xs with
  | nil => exact absurd rfl hne
  | cons y r =>
    rcases foldlMax_mem r y with h | h
    · rw [listMaxQ, h]; exact List.mem_cons_self y r
    · exact List.mem_cons_of_mem _ h

theorem foldlMin_le_acc (r : List ℚ) (a : ℚ) :
    r.foldl (fun x b => if b < x then b else x) a ≤ a := by
  induction r generalizing a with
  | nil => exact le_refl a
  | cons y r ih =>
    refine le_trans (ih (if y < a then y else a)) ?_
    by_cases h : y < a
    · simp [h, le_of_lt h]
    · simp [h]

theorem foldlMin_le_mem (r : List ℚ) (a x : ℚ) (hx : x ∈ r) :
    r.foldl (fun x b => if b < x then b else x) a ≤ x := by
  induction r generalizing a with
  | nil => cases hx
  | cons y r ih =>
    rcases List.mem_cons.mp hx with rfl | hx
    · refine le_trans (foldlMin_le_acc r (if x < a then x else a)) ?_
      by_cases h : x < a
      · simp [h]
      · simpa [h] using le_of_not_lt h
    · exact ih (if y < a then y else a) hx

theorem foldlMin_ge (r : List ℚ) (a v : ℚ) (ha : v ≤ a) (hr : ∀ x ∈ r, v ≤ x) :
    v ≤ r.foldl (fun x b => if b < x then b else x) a := by
  induction r generalizing a with
  | nil => exact ha
  | cons y r ih =>
    refine ih (if y < a then y else a) ?_ (fun x hx => hr x (List.mem_cons_of_mem _ hx))
    by_cases h : y < a
    · simpa [h] using hr y (List.mem_cons_self y r)
    · simpa [h] using ha

theorem listMinQ_le {d : ℚ} {xs : List ℚ} {x : ℚ} (hx : x ∈ xs) : listMinQ d xs ≤ x := by
  cases xs with
  | nil => cases hx
  | cons y r =>
    rcases List.mem_cons.mp hx with rfl | hx
    · exact foldlMin_le_acc r x
    · exact foldlMin_le_mem r y x hx

theorem le_listMinQ {d : ℚ} {xs : List ℚ} {v : ℚ} (hne : xs ≠ [])
    (h : ∀ x ∈ xs, v ≤ x) : v ≤ listMinQ d xs := by
  cases xs with
  | nil => exact absurd rfl hne
  | cons y r =>
    exact foldlMin_ge r y v (h y (List.mem_cons_self y r))
      (fun x hx => h x (List.mem_cons_of_mem _ hx))

/-! ### Builder extraction lemmas -/

theorem checkPredecesoras_ok {l l' : List Estacion}
    (h : checkPredecesoras l = .ok l') : l' = l := by
  unfold checkPredecesoras at h
  split at h
  · cases h
  · cases h; rfl

theorem procesarLoop_ok (datas : List EstacionData) :
    ∀ (i : ℕ) (vistos : List String) (acc l : List Estacion),
      procesarLoop datas i vistos acc = .ok l →
      l.length = acc.length + datas.length ∧
      (∀ e ∈ l, e ∈ acc ∨ (0 < e.tiempo ∧ e.nombre ≠ "")) ∧
      (((acc.map fun e => pyLower e.nombre).Nodup) →
        (∀ a ∈ acc, pyLower a.nombre ∈ vistos) →
        ((l.map fun e => pyLower e.nombre).Nodup)) := by
  induction datas with
  | nil =>
    intro i vistos acc l h
    rw [procesarLoop] at h
    cases h
    refine ⟨by simp, fun e he => Or.inl (List.mem_reverse.mp he), fun hnd _ => ?_⟩
    rw [List.map_reverse]
    exact List.nodup_reverse.mpr hnd
  | cons d rest ih =>
    intro i vistos acc l h
    rw [procesarLoop] at h
    by_cases h1 : d.nombre = ""
    · rw [if_pos h1] at h; cases h
    rw [if_neg h1] at h
    by_cases h2 : pyLower d.nombre ∈ vistos
    · rw [if_pos h2] at h; cases h
    rw [if_neg h2] at h
    cases ht : d.tiempo with
    | none =>
      rw [ht] at h
      simp only [mkEstacion] at h
      exact Except.noConfusion h
    | some t =>
      rw [ht] at h
      simp only [mkEstacion] at h
      by_cases h3 : t ≤ 0
      · rw [if_pos h3] at h
        exact Except.noConfusion h
      rw [if_neg h3] at h
      have h' : procesarLoop rest (i + 1) (pyLower d.nombre :: vistos)
          (⟨d.nombre, t, d.predecesora, 0, 0, 0, 0, 0, false⟩ :: acc) = .ok l := h
      obtain ⟨hlen, hmem, hnd⟩ := ih (i + 1) (pyLower d.nombre :: vistos)
        (⟨d.nombre, t, d.predecesora, 0, 0, 0, 0, 0, false⟩ :: acc) l h'
      refine ⟨by simp only [hlen, List.length_cons]; omega, ?_, ?_⟩
      · intro e he
        rcases hmem e he with hacc | hgood
        · rcases List.mem_cons.mp hacc with rfl | hacc
          · exact Or.inr ⟨lt_of_not_le h3, h1⟩
          · exact Or.inl hacc
        · exact Or.inr hgood
      · intro hnacc hvis
        refine hnd ?_ ?_
        · refine List.nodup_cons.mpr ⟨?_, hnacc⟩
          intro hcon
          rcases List.mem_map.mp hcon with ⟨a, ha, hea⟩
          have hea' : pyLower a.nombre = pyLower d.nombre := hea
          exact h2 (hea' ▸ hvis a ha)
        · intro a ha
          rcases List.mem_cons.mp ha with rfl | ha
          · exact List.mem_cons_self _ _
          · exact List.mem_cons_of_mem _ (hvis a ha)

theorem procesar_ok {datas : List EstacionData} {l : List Estacion}
    (h : procesarEstacionesData datas = .ok l) :
    l ≠ [] ∧ (∀ e ∈ l, 0 < e.tiempo ∧ e.nombre ≠ "") ∧
      ((l.map fun e => pyLower e.nombre).Nodup) := by
  unfold procesarEstacionesData at h
  cases datas with
  | nil => cases h
  | cons d rest =>
    cases hl : procesarLoop (d :: rest) 0 [] [] with
    | error e => rw [hl] at h; cases h
    | ok l0 =>
      rw [hl] at h
      obtain rfl : l = l0 := checkPredecesoras_ok h
      obtain ⟨hlen, hmem, hnd⟩ := procesarLoop_ok (d :: rest) 0 [] [] l hl
      refine ⟨?_, ?_, hnd (by simp) (by simp)⟩
      · intro hcon
        rw [hcon] at hlen
        simp at hlen
      · intro e he
        rcases hmem e he with habs | hgood
        · cases habs
        · exact hgood

theorem procesar_ok_nodup_nombres {datas : List EstacionData} {l : List Estacion}
    (h : procesarEstacionesData datas = .ok l) :
    ((l.map fun e => e.nombre).Nodup) := by
  have hnd := (procesar_ok h).2.2
  have : (l.map fun e => pyLower e.nombre) = (l.map fun e => e.nombre).map pyLower := by
    rw [List.map_map]; rfl
  rw [this] at hnd
  exact List.Nodup.of_map pyLower hnd

/-! ### Signature machinery: the CPM passes never change name, duration or
predecessor of a station, only the schedule fields. -/

/-- The identity-relevant fields of a station. -/
def sigE (e : Estacion) : String × ℚ × String := (e.nombre, e.tiempo, e.predecesora_nombre)

theorem sigE_fields {a b : Estacion} (h : sigE a = sigE b) :
    a.nombre = b.nombre ∧ a.tiempo = b.tiempo ∧ a.predecesora_nombre = b.predecesora_nombre := by
  simpa [sigE, Prod.ext_iff] using h

theorem mem_sig {s t : List Estacion} (hsig : s.map sigE = t.map sigE) {e : Estacion}
    (he : e ∈ s) : ∃ b ∈ t, sigE b = sigE e := by
  have : sigE e ∈ t.map sigE := hsig ▸ List.mem_map_of_mem sigE he
  rcases List.mem_map.mp this with ⟨b, hb, hbe⟩
  exact ⟨b, hb, hbe⟩

theorem nombres_of_sig {s t : List Estacion} (hsig : s.map sigE = t.map sigE) :
    s.map (fun e => e.nombre) = t.map (fun e => e.nombre) := by
  have h1 : (s.map sigE).map (fun p => p.1) = (t.map sigE).map (fun p => p.1) := by rw [hsig]
  rw [List.map_map, List.map_map] at h1
  exact h1

theorem length_of_sig {s t : List Estacion} (hsig : s.map sigE = t.map sigE) :
    s.length = t.length := by
  have := congrArg List.length hsig
  simpa using this

/-- Name lookups on signature-equal lists find entries at the same
position, with equal signatures. -/
theorem lookup_sig {s base : List Estacion} (hsig : s.map sigE = base.map sigE)
    (nm : String) :
    (lookupEst s nm = none ∧ lookupEst base nm = none) ∨
      ∃ (j : ℕ) (p q : Estacion), lookupEst s nm = some p ∧ lookupEst base nm = some q ∧
        s[j]? = some p ∧ base[j]? = some q ∧ sigE p = sigE q := by
  induction s generalizing base with
  | nil =>
    cases base with
    | nil => exact Or.inl ⟨rfl, rfl⟩
    | cons b bs => simp at hsig
  | cons a s ih =>
    cases base with
    | nil => simp at hsig
    | cons b bs =>
      simp only [List.map_cons, List.cons.injEq] at hsig
      obtain ⟨hab, hs⟩ := hsig
      by_cases hnm : a.nombre = nm
      · have hbnm : b.nombre = nm := (sigE_fields hab).1 ▸ hnm
        refine Or.inr ⟨0, a, b, ?_, ?_, List.getElem?_cons_zero, List.getElem?_cons_zero, hab⟩
        · exact List.find?_cons_of_pos _ (by simpa using hnm)
        · exact List.find?_cons_of_pos _ (by simpa using hbnm)
      · have hbnm : ¬ b.nombre = nm := (sigE_fields hab).1 ▸ hnm
        rw [lookupEst, List.find?_cons_of_neg _ (by simpa using hnm)]
        rw [lookupEst, List.find?_cons_of_neg _ (by simpa using hbnm)]
        rcases ih hs with ⟨h1, h2⟩ | ⟨j, p, q, h1, h2, h3, h4, h5⟩
        · exact Or.inl ⟨h1, h2⟩
        · refine Or.inr ⟨j + 1, p, q, h1, h2, ?_, ?_, h5⟩
          · rw [List.getElem?_cons_succ]; exact h3
          · rw [List.getElem?_cons_succ]; exact h4

/-! ### Acyclicity of the predecessor references -/

/-- Checks that the looked-up predecessor of `e`, if any, has strictly
smaller rank. -/
def predRankOkB (l : List Estacion) (rank : String → ℕ) (e : Estacion) : Bool :=
  match lookupEst l e.predecesora_nombre with
  | some p => decide (rank p.nombre < rank e.nombre)
  | none => true

/-- A rank certificate: station ranks are bounded by the station count and
strictly decrease along non-empty predecessor references. -/
def RankOk (l : List Estacion) (rank : String → ℕ) : Prop :=
  ∀ e ∈ l, rank e.nombre < l.length ∧
    (e.predecesora_nombre ≠ "" → predRankOkB l rank e = true)

/-- The predecessor references of the station list contain no cycle:
exactly then a bounded rank certificate exists (e.g. the ancestor count). -/
def Acyclic (l : List Estacion) : Prop := ∃ rank, RankOk l rank

theorem rank_lt_of_lookup {l : List Estacion} {rank : String → ℕ}
    (hR : RankOk l rank) {e p : Estacion} (he : e ∈ l)
    (hp : e.predecesora_nombre ≠ "")
    (hl : lookupEst l e.predecesora_nombre = some p) :
    rank p.nombre < rank e.nombre := by
  have hb := (hR e he).2 hp
  rw [predRankOkB, hl] at hb
  exact of_decide_eq_true hb

theorem rankOk_of_sig {s base : List Estacion} (hsig : s.map sigE = base.map sigE)
    {rank : String → ℕ} (hR : RankOk base rank) : RankOk s rank := by
  intro e he
  obtain ⟨b, hb, hbe⟩ := mem_sig hsig he
  obtain ⟨hn, ht, hp⟩ := sigE_fields hbe
  constructor
  · rw [← hn, length_of_sig hsig]
    exact (hR b hb).1
  · intro hpe
    have hpb : b.predecesora_nombre ≠ "" := hp ▸ hpe
    have hb2 := (hR b hb).2 hpb
    rw [predRankOkB]
    rcases lookup_sig hsig e.predecesora_nombre with ⟨h1, _⟩ | ⟨j, p, q, h1, h2, _, _, h5⟩
    · rw [h1]
    · rw [h1]
      rw [predRankOkB, hp, h2] at hb2
      have hqb : rank q.nombre < rank b.nombre := of_decide_eq_true hb2
      show decide (rank p.nombre < rank e.nombre) = true
      refine decide_eq_true ?_
      rw [(sigE_fields h5).1, ← hn]
      exact hqb

/-! ### The exact earliest-start values on an acyclic list -/

/-- Fuel-bounded unfolding of the earliest-start recurrence: the ES of a
station is its predecessor's ES plus the predecessor's duration. -/
def chainES (l : List Estacion) : ℕ → Estacion → ℚ
  | 0, _ => 0
  | n + 1, e =>
    if e.predecesora_nombre = "" then 0
    else
      match lookupEst l e.predecesora_nombre with
      | none => 0
      | some p => chainES l n p + p.tiempo

/-- The fixpoint earliest start of a station (fuel `l.length` suffices on
an acyclic list). -/
def trueES (l : List Estacion) (e : Estacion) : ℚ := chainES l l.length e

theorem chainES_pred_empty {l : List Estacion} {e : Estacion}
    (hp : e.predecesora_nombre = "") (m : ℕ) : chainES l m e = 0 := by
  cases m with
  | zero => rfl
  | succ n => rw [chainES, if_pos hp]

theorem chainES_lookup_none {l : List Estacion} {e : Estacion}
    (hl : lookupEst l e.predecesora_nombre = none) (m : ℕ) : chainES l m e = 0 := by
  cases m with
  | zero => rfl
  | succ n =>
    by_cases hp : e.predecesora_nombre = ""
    · rw [chainES, if_pos hp]
    · rw [chainES, if_neg hp, hl]

theorem chainES_succ_some {l : List Estacion} {e p : Estacion}
    (hp : e.predecesora_nombre ≠ "")
    (hl : lookupEst l e.predecesora_nombre = some p) (m : ℕ) :
    chainES l (m + 1) e = chainES l m p + p.tiempo := by
  rw [chainES, if_neg hp, hl]

theorem chainES_nonneg {l : List Estacion} (hpos : ∀ x ∈ l, 0 ≤ x.tiempo) :
    ∀ (m : ℕ) (e : Estacion), 0 ≤ chainES l m e := by
  intro m
  induction m with
  | zero => intro e; exact le_refl 0
  | succ n ih =>
    intro e
    by_cases hp : e.predecesora_nombre = ""
    · rw [chainES_pred_empty hp]
    cases hl : lookupEst l e.predecesora_nombre with
    | none => rw [chainES_lookup_none hl]
    | some p =>
      rw [chainES_succ_some hp hl]
      have hpl : p ∈ l := List.mem_of_find?_eq_some hl
      exact add_nonneg (ih p) (hpos p hpl)

theorem trueES_nonneg {l : List Estacion} (hpos : ∀ x ∈ l, 0 ≤ x.tiempo)
    (e : Estacion) : 0 ≤ trueES l e := chainES_nonneg hpos _ e

theorem chainES_stab {l : List Estacion} {rank : String → ℕ} (hR : RankOk l rank) :
    ∀ k, ∀ e ∈ l, rank e.nombre ≤ k →
      ∀ m, rank e.nombre ≤ m → chainES l m e = chainES l (rank e.nombre) e := by
  intro k
  induction k using Nat.strong_induction_on with
  | _ k ih =>
    intro e he hek m hem
    by_cases hp : e.predecesora_nombre = ""
    · rw [chainES_pred_empty hp, chainES_pred_empty hp]
    cases hl : lookupEst l e.predecesora_nombre with
    | none => rw [chainES_lookup_none hl, chainES_lookup_none hl]
    | some p =>
      have hpl : p ∈ l := List.mem_of_find?_eq_some hl
      have hrp : rank p.nombre < rank e.nombre := rank_lt_of_lookup hR he hp hl
      obtain ⟨m', rfl⟩ : ∃ m', m = m' + 1 := ⟨m - 1, by omega⟩
      obtain ⟨r', hre⟩ : ∃ r', rank e.nombre = r' + 1 := ⟨rank e.nombre - 1, by omega⟩
      rw [hre, chainES_succ_some hp hl, chainES_succ_some hp hl]
      have h1 : chainES l m' p = chainES l (rank p.nombre) p :=
        ih (rank p.nombre) (by omega) p hpl (le_refl _) m' (by omega)
      have h2 : chainES l r' p = chainES l (rank p.nombre) p :=
        ih (rank p.nombre) (by omega) p hpl (le_refl _) r' (by omega)
      rw [h1, h2]

theorem trueES_pred_empty {l : List Estacion} {e : Estacion}
    (hp : e.predecesora_nombre = "") : trueES l e = 0 := chainES_pred_empty hp _

theorem trueES_lookup_none {l : List Estacion} {e : Estacion}
    (hl : lookupEst l e.predecesora_nombre = none) : trueES l e = 0 :=
  chainES_lookup_none hl _

theorem trueES_step {l : List Estacion} {rank : String → ℕ} (hR : RankOk l rank)
    {e p : Estacion} (he : e ∈ l) (hp : e.predecesora_nombre ≠ "")
    (hl : lookupEst l e.predecesora_nombre = some p) :
    trueES l e = trueES l p + p.tiempo := by
  have hpl : p ∈ l := List.mem_of_find?_eq_some hl
  have hre : rank e.nombre < l.length := (hR e he).1
  have hrp : rank p.nombre < rank e.nombre := rank_lt_of_lookup hR he hp hl
  obtain ⟨n', hn⟩ : ∃ n', l.length = n' + 1 := ⟨l.length - 1, by omega⟩
  rw [trueES, hn, chainES_succ_some hp hl]
  have h1 : chainES l n' p = chainES l (rank p.nombre) p :=
    chainES_stab hR (rank p.nombre) p hpl (le_refl _) n' (by omega)
  have h2 : chainES l (n' + 1) p = chainES l (rank p.nombre) p :=
    chainES_stab hR (rank p.nombre) p hpl (le_refl _) (n' + 1) (by omega)
  rw [trueES, hn, h1, h2]


/-! ### Forward-phase invariants and convergence -/

theorem set_same {α : Type} {l : List α} {i : ℕ} {v : α} (h : l[i]? = some v) :
    l.set i v = l := by
  obtain ⟨hlt, hv⟩ := List.getElem?_eq_some_iff.mp h
  apply List.ext_getElem?
  intro n
  rw [List.getElem?_set]
  by_cases hin : i = n
  · subst hin
    rw [if_pos rfl, if_pos hlt, h]
  · rw [if_neg hin]

theorem sig_at {s base : List Estacion} (hsig : s.map sigE = base.map sigE) (i : ℕ) :
    (s[i]?).map sigE = (base[i]?).map sigE := by
  have h := congrArg (fun l => l[i]?) hsig
  simpa [List.getElem?_map] using h

theorem sig_at_some {s base : List Estacion} (hsig : s.map sigE = base.map sigE)
    {i : ℕ} {a : Estacion} (ha : s[i]? = some a) :
    ∃ b, base[i]? = some b ∧ sigE a = sigE b := by
  have h := sig_at hsig i
  rw [ha] at h
  cases hb : base[i]? with
  | none => rw [hb] at h; simp at h
  | some b =>
    rw [hb] at h
    simp only [Option.map_some'] at h
    refine ⟨b, rfl, ?_⟩
    injection h

theorem forwardUpdate_none {s : List Estacion} {i : ℕ} (h : s[i]? = none) :
    forwardUpdate s i = s := by
  simp [forwardUpdate, h]

theorem forwardUpdate_some {s : List Estacion} {i : ℕ} {a : Estacion}
    (h : s[i]? = some a) :
    ∃ a2 : Estacion, forwardUpdate s i = s.set i a2 ∧ sigE a2 = sigE a ∧
      a2.es = (if a.es < nuevoEs s a then nuevoEs s a else a.es) ∧
      a2.ef = a2.es + a2.tiempo := by
  refine ⟨{ a with
      es := if a.es < nuevoEs s a then nuevoEs s a else a.es,
      ef := (if a.es < nuevoEs s a then nuevoEs s a else a.es) + a.tiempo },
    ?_, rfl, rfl, rfl⟩
  simp [forwardUpdate, h]

/-- Invariant of the forward phase relative to the initialized list
`base`: signatures unchanged, `EF = ES + tiempo` always holds, `ES` is
non-negative and never overshoots the fixpoint value. -/
structure FwdInv (base s : List Estacion) : Prop where
  sigmap : s.map sigE = base.map sigE
  efes : ∀ a ∈ s, a.ef = a.es + a.tiempo
  esnn : ∀ a ∈ s, 0 ≤ a.es
  esub : ∀ (i : ℕ) (a b : Estacion), s[i]? = some a → base[i]? = some b →
    a.es ≤ trueES base b

theorem nuevoEs_le {base s : List Estacion} {rank : String → ℕ}
    (hR : RankOk base rank) (hpos : ∀ x ∈ base, 0 ≤ x.tiempo)
    (inv : FwdInv base s) {i : ℕ} {a b : Estacion}
    (ha : s[i]? = some a) (hb : base[i]? = some b) :
    nuevoEs s a ≤ trueES base b := by
  obtain ⟨b', hb', hsab⟩ := sig_at_some inv.sigmap ha
  rw [hb] at hb'
  obtain rfl : b = b' := by injection hb'
  obtain ⟨hn, ht, hp⟩ := sigE_fields hsab
  rw [nuevoEs]
  by_cases hpe : a.predecesora_nombre = ""
  · rw [if_pos hpe]; exact trueES_nonneg hpos b
  rw [if_neg hpe]
  rcases lookup_sig inv.sigmap a.predecesora_nombre with ⟨h1, h2⟩ | ⟨j, p, q, h1, h2, h3, h4, h5⟩
  · rw [h1]
    exact trueES_nonneg hpos b
  · rw [h1]
    show p.ef ≤ trueES base b
    rw [hp] at h2 hpe
    have hbmem : b ∈ base := List.mem_iff_getElem?.mpr ⟨i, hb⟩
    have hstep : trueES base b = trueES base q + q.tiempo := trueES_step hR hbmem hpe h2
    have hpmem : p ∈ s := List.mem_iff_getElem?.mpr ⟨j, h3⟩
    have hef : p.ef = p.es + p.tiempo := inv.efes p hpmem
    have hub : p.es ≤ trueES base q := inv.esub j p q h3 h4
    have htp : p.tiempo = q.tiempo := (sigE_fields h5).2.1
    rw [hef, hstep, htp]
    exact add_le_add_right hub _

theorem forwardUpdate_inv {base s : List Estacion} {rank : String → ℕ}
    (hR : RankOk base rank) (hpos : ∀ x ∈ base, 0 ≤ x.tiempo)
    (inv : FwdInv base s) (i : ℕ) : FwdInv base (forwardUpdate s i) := by
  cases ha : s[i]? with
  | none => rw [forwardUpdate_none ha]; exact inv
  | some a =>
    obtain ⟨a2, heq, hsig2, hes2, hef2⟩ := forwardUpdate_some ha
    rw [heq]
    have hamem : a ∈ s := List.mem_iff_getElem?.mpr ⟨i, ha⟩
    have hann : 0 ≤ a.es := inv.esnn a hamem
    have ha2nn : 0 ≤ a2.es := by
      rw [hes2]
      by_cases hl : a.es < nuevoEs s a
      · rw [if_pos hl]; exact le_of_lt (lt_of_le_of_lt hann hl)
      · rw [if_neg hl]; exact hann
    refine ⟨?_, ?_, ?_, ?_⟩
    · rw [List.map_set, hsig2]
      have hsa : (s.map sigE)[i]? = some (sigE a) := by
        rw [List.getElem?_map, ha, Option.map_some']
      rw [set_same hsa]
      exact inv.sigmap
    · intro x hx
      rcases List.mem_or_eq_of_mem_set hx with hxs | rfl
      · exact inv.efes x hxs
      · exact hef2
    · intro x hx
      rcases List.mem_or_eq_of_mem_set hx with hxs | rfl
      · exact inv.esnn x hxs
      · exact ha2nn
    · intro j x y hx hy
      rw [List.getElem?_set] at hx
      by_cases hij : i = j
      · rw [if_pos hij] at hx
        subst hij
        obtain ⟨hlt, _⟩ := List.getElem?_eq_some_iff.mp ha
        rw [if_pos hlt] at hx
        obtain rfl : a2 = x := by injection hx
        rw [hes2]
        by_cases hl : a.es < nuevoEs s a
        · rw [if_pos hl]; exact nuevoEs_le hR hpos inv ha hy
        · rw [if_neg hl]; exact inv.esub i a y ha hy
      · rw [if_neg hij] at hx
        exact inv.esub j x y hx hy

/-- Station `i` of the state already carries its fixpoint ES value. -/
def GoodAt (base s : List Estacion) (i : ℕ) : Prop :=
  ∀ (a b : Estacion), s[i]? = some a → base[i]? = some b → a.es = trueES base b

theorem forwardUpdate_goodAt {base s : List Estacion} {rank : String → ℕ}
    (hR : RankOk base rank) (hpos : ∀ x ∈ base, 0 ≤ x.tiempo)
    (inv : FwdInv base s) {j : ℕ} (hg : GoodAt base s j) (i : ℕ) :
    GoodAt base (forwardUpdate s i) j := by
  cases ha : s[i]? with
  | none => rw [forwardUpdate_none ha]; exact hg
  | some a =>
    obtain ⟨a2, heq, hsig2, hes2, hef2⟩ := forwardUpdate_some ha
    rw [heq]
    intro x y hx hy
    rw [List.getElem?_set] at hx
    by_cases hij : i = j
    · rw [if_pos hij] at hx
      subst hij
      obtain ⟨hlt, _⟩ := List.getElem?_eq_some_iff.mp ha
      rw [if_pos hlt] at hx
      obtain rfl : a2 = x := by injection hx
      have hges : a.es = trueES base y := hg a y ha hy
      rw [hes2]
      by_cases hl : a.es < nuevoEs s a
      · rw [if_pos hl]
        exact le_antisymm (nuevoEs_le hR hpos inv ha hy) (hges ▸ le_of_lt hl)
      · rw [if_neg hl]; exact hges
    · rw [if_neg hij] at hx
      exact hg x y hx hy

theorem forwardUpdate_estab {base s : List Estacion} {rank : String → ℕ}
    (hR : RankOk base rank) (hpos : ∀ x ∈ base, 0 ≤ x.tiempo)
    (inv : FwdInv base s) {k : ℕ}
    (hbelow : ∀ (j : ℕ) (b : Estacion), base[j]? = some b → rank b.nombre < k →
      GoodAt base s j)
    {i : ℕ} {b : Estacion} (hb : base[i]? = some b) (hrk : rank b.nombre ≤ k) :
    GoodAt base (forwardUpdate s i) i := by
  have hlen : s.length = base.length := length_of_sig inv.sigmap
  have hilt : i < s.length := by
    rw [hlen]; exact (List.getElem?_eq_some_iff.mp hb).1
  obtain ⟨a, ha⟩ : ∃ a, s[i]? = some a := by
    cases hsi : s[i]? with
    | none => rw [List.getElem?_eq_none_iff] at hsi; omega
    | some a => exact ⟨a, rfl⟩
  obtain ⟨b', hb', hsab⟩ := sig_at_some inv.sigmap ha
  rw [hb] at hb'
  obtain rfl : b = b' := by injection hb'
  obtain ⟨hn, ht, hp⟩ := sigE_fields hsab
  obtain ⟨a2, heq, hsig2, hes2, hef2⟩ := forwardUpdate_some ha
  rw [heq]
  intro x y hx hy
  rw [List.getElem?_set, if_pos rfl, if_pos hilt] at hx
  obtain rfl : a2 = x := by injection hx
  rw [hb] at hy
  obtain rfl : b = y := by injection hy
  have hub : a.es ≤ trueES base b := inv.esub i a b ha hb
  have hnle : nuevoEs s a ≤ trueES base b := nuevoEs_le hR hpos inv ha hb
  have hbmem : b ∈ base := List.mem_iff_getElem?.mpr ⟨i, hb⟩
  have hknows : nuevoEs s a = trueES base b ∨ a.es = trueES base b := by
    rw [nuevoEs]
    by_cases hpe : a.predecesora_nombre = ""
    · left
      rw [if_pos hpe, trueES_pred_empty (hp ▸ hpe)]
    rw [if_neg hpe]
    rcases lookup_sig inv.sigmap a.predecesora_nombre with ⟨h1, h2⟩ | ⟨j, p, q, h1, h2, h3, h4, h5⟩
    · left
      rw [h1]
      rw [hp] at h2
      rw [trueES_lookup_none h2]
    · left
      rw [h1]
      show p.ef = trueES base b
      rw [hp] at h2 hpe
      have hrq : rank q.nombre < rank b.nombre := rank_lt_of_lookup hR hbmem hpe h2
      have hgj : GoodAt base s j := hbelow j q h4 (by omega)
      have hpes : p.es = trueES base q := hgj p q h3 h4
      have hef : p.ef = p.es + p.tiempo := inv.efes p (List.mem_iff_getElem?.mpr ⟨j, h3⟩)
      have htp : p.tiempo = q.tiempo := (sigE_fields h5).2.1
      rw [hef, hpes, htp, ← trueES_step hR hbmem hpe h2]
  rw [hes2]
  rcases hknows with hte | hte
  · by_cases hl : a.es < nuevoEs s a
    · rw [if_pos hl]; exact hte
    · rw [if_neg hl]
      exact le_antisymm hub (hte ▸ le_of_not_lt hl)
  · by_cases hl : a.es < nuevoEs s a
    · rw [if_pos hl]
      exact le_antisymm hnle (hte ▸ le_of_lt hl)
    · rw [if_neg hl]; exact hte

theorem foldl_forwardUpdate_inv {base : List Estacion} {rank : String → ℕ}
    (hR : RankOk base rank) (hpos : ∀ x ∈ base, 0 ≤ x.tiempo) :
    ∀ (J : List ℕ) (s : List Estacion), FwdInv base s →
      FwdInv base (J.foldl forwardUpdate s)
  | [], s, inv => inv
  | i :: J, s, inv =>
    foldl_forwardUpdate_inv hR hpos J (forwardUpdate s i) (forwardUpdate_inv hR hpos inv i)

theorem foldl_forwardUpdate_goodAt {base : List Estacion} {rank : String → ℕ}
    (hR : RankOk base rank) (hpos : ∀ x ∈ base, 0 ≤ x.tiempo) :
    ∀ (J : List ℕ) (s : List Estacion), FwdInv base s → ∀ (j : ℕ), GoodAt base s j →
      GoodAt base (J.foldl forwardUpdate s) j
  | [], s, _, _, hg => hg
  | i :: J, s, inv, j, hg =>
    foldl_forwardUpdate_goodAt hR hpos J (forwardUpdate s i)
      (forwardUpdate_inv hR hpos inv i) j (forwardUpdate_goodAt hR hpos inv hg i)

theorem foldl_forwardUpdate_main {base : List Estacion} {rank : String → ℕ}
    (hR : RankOk base rank) (hpos : ∀ x ∈ base, 0 ≤ x.tiempo) {k : ℕ} :
    ∀ (J : List ℕ) (s : List Estacion), FwdInv base s →
      (∀ (j : ℕ) (b : Estacion), base[j]? = some b → rank b.nombre < k → GoodAt base s j) →
      FwdInv base (J.foldl forwardUpdate s) ∧
      (∀ (j : ℕ) (b : Estacion), base[j]? = some b → rank b.nombre < k →
        GoodAt base (J.foldl forwardUpdate s) j) ∧
      (∀ i ∈ J, ∀ (b : Estacion), base[i]? = some b → rank b.nombre ≤ k →
        GoodAt base (J.foldl forwardUpdate s) i) := by
  intro J
  induction J with
  | nil =>
    intro s inv hbelow
    exact ⟨inv, hbelow, fun i hi => absurd hi (List.not_mem_nil i)⟩
  | cons i J ih =>
    intro s inv hbelow
    have inv1 : FwdInv base (forwardUpdate s i) := forwardUpdate_inv hR hpos inv i
    have hbelow1 : ∀ (j : ℕ) (b : Estacion), base[j]? = some b → rank b.nombre < k →
        GoodAt base (forwardUpdate s i) j :=
      fun j b hb hr => forwardUpdate_goodAt hR hpos inv (hbelow j b hb hr) i
    obtain ⟨invF, belowF, mainF⟩ := ih (forwardUpdate s i) inv1 hbelow1
    refine ⟨invF, belowF, ?_⟩
    intro m hm b hb hr
    rcases List.mem_cons.mp hm with rfl | hm
    · have hgi : GoodAt base (forwardUpdate s m) m :=
        forwardUpdate_estab hR hpos inv hbelow hb hr
      exact foldl_forwardUpdate_goodAt hR hpos J (forwardUpdate s m) inv1 m hgi
    · exact mainF m hm b hb hr

theorem forwardPass_progress {base : List Estacion} {rank : String → ℕ}
    (hR : RankOk base rank) (hpos : ∀ x ∈ base, 0 ≤ x.tiempo) {k : ℕ}
    {s : List Estacion} (inv : FwdInv base s)
    (hbelow : ∀ (j : ℕ) (b : Estacion), base[j]? = some b → rank b.nombre < k →
      GoodAt base s j) :
    FwdInv base (forwardPass s) ∧
      (∀ (j : ℕ) (b : Estacion), base[j]? = some b → rank b.nombre < k + 1 →
        GoodAt base (forwardPass s) j) := by
  obtain ⟨invF, belowF, mainF⟩ :=
    foldl_forwardUpdate_main hR hpos (List.range s.length) s inv hbelow
  refine ⟨invF, ?_⟩
  intro j b hb hr
  by_cases hjk : rank b.nombre < k
  · exact belowF j b hb hjk
  · have hjlt : j < s.length := by
      rw [length_of_sig inv.sigmap]
      exact (List.getElem?_eq_some_iff.mp hb).1
    exact mainF j (List.mem_range.mpr hjlt) b hb (by omega)

theorem forwardPass_iterate {base : List Estacion} {rank : String → ℕ}
    (hR : RankOk base rank) (hpos : ∀ x ∈ base, 0 ≤ x.tiempo)
    {s : List Estacion} (inv : FwdInv base s) :
    ∀ (m : ℕ), FwdInv base (forwardPass^[m] s) ∧
      (∀ (j : ℕ) (b : Estacion), base[j]? = some b → rank b.nombre < m →
        GoodAt base (forwardPass^[m] s) j) := by
  intro m
  induction m with
  | zero => exact ⟨inv, fun j b _ hr => absurd hr (by omega)⟩
  | succ m ih =>
    obtain ⟨invm, goodm⟩ := ih
    rw [Function.iterate_succ_apply']
    exact forwardPass_progress hR hpos invm goodm

/-- After the full forward phase, every station carries its fixpoint
earliest-start value (relative to the initialized list `base`). -/
theorem forwardPhase_spec {l : List Estacion} {rank : String → ℕ}
    (hRl : RankOk l rank) (hposl : ∀ x ∈ l, 0 ≤ x.tiempo) :
    FwdInv (l.map fun e => { e with es := 0, ef := e.tiempo }) (forwardPhase l) ∧
      (∀ (j : ℕ) (a b : Estacion), (forwardPhase l)[j]? = some a →
        (l.map fun e => { e with es := 0, ef := e.tiempo })[j]? = some b →
        a.es = trueES (l.map fun e => { e with es := 0, ef := e.tiempo }) b ∧
        a.ef = trueES (l.map fun e => { e with es := 0, ef := e.tiempo }) b + b.tiempo) := by
  set base := l.map fun e => { e with es := 0, ef := e.tiempo } with hbase
  have hsigbl : base.map sigE = l.map sigE := by
    rw [hbase, List.map_map]
    exact List.map_congr_left (fun e _ => rfl)
  have hR : RankOk base rank := rankOk_of_sig hsigbl hRl
  have hpos : ∀ x ∈ base, 0 ≤ x.tiempo := by
    intro x hx
    obtain ⟨e, he, hex⟩ := mem_sig hsigbl hx
    rw [← (sigE_fields hex).2.1]
    exact hposl e he
  have inv0 : FwdInv base base := by
    refine ⟨rfl, ?_, ?_, ?_⟩
    · intro a ha
      rw [hbase] at ha
      rcases List.mem_map.mp ha with ⟨e, _, rfl⟩
      show e.tiempo = 0 + e.tiempo
      rw [zero_add]
    · intro a ha
      rw [hbase] at ha
      rcases List.mem_map.mp ha with ⟨e, _, rfl⟩
      exact le_refl 0
    · intro i a b ha hb
      rw [ha] at hb
      obtain rfl : a = b := by injection hb
      have : a.es = 0 := by
        have hamem : a ∈ base := List.mem_iff_getElem?.mpr ⟨i, ha⟩
        rw [hbase] at hamem
        rcases List.mem_map.mp hamem with ⟨e, _, rfl⟩
        rfl
      rw [this]
      exact trueES_nonneg hpos a
  have hlen : l.length = base.length := by rw [hbase, List.length_map]
  obtain ⟨invF, goodF⟩ := forwardPass_iterate hR hpos inv0 l.length
  have hfwd : forwardPhase l = forwardPass^[l.length] base := rfl
  refine ⟨hfwd ▸ invF, ?_⟩
  intro j a b ha hb
  have hjrank : rank b.nombre < l.length := by
    rw [hlen]
    exact (hR b (List.mem_iff_getElem?.mpr ⟨j, hb⟩)).1
  have hga : a.es = trueES base b := by
    have := goodF j b hb hjrank
    rw [hfwd] at ha
    exact this a b ha hb
  refine ⟨hga, ?_⟩
  have hef : a.ef = a.es + a.tiempo := by
    refine invF.efes a ?_
    rw [hfwd] at ha
    exact List.mem_iff_getElem?.mpr ⟨j, ha⟩
  have hts : a.tiempo = b.tiempo := by
    rw [hfwd] at ha
    obtain ⟨b', hb', hsab⟩ := sig_at_some invF.sigmap ha
    rw [hb] at hb'
    obtain rfl : b = b' := by injection hb'
    exact (sigE_fields hsab).2.1
  rw [hef, hga, hts]

/-! ### The exact latest-finish values on an acyclic list -/

/-- Fuel-bounded unfolding of the latest-finish recurrence: the LF of a
station is the minimum over its successors of their LS, or the project
time when it has no successor. -/
def chainLF (l : List Estacion) (cp : ℚ) : ℕ → Estacion → ℚ
  | 0, _ => cp
  | n + 1, e =>
    match sucesoresDe l e.nombre with
    | [] => cp
    | y :: rest => listMinQ cp ((y :: rest).map (fun x => chainLF l cp n x - x.tiempo))

/-- The fixpoint latest finish of a station (fuel `l.length` suffices on an
acyclic list). -/
def trueLF (cp : ℚ) (l : List Estacion) (e : Estacion) : ℚ := chainLF l cp l.length e

theorem mem_sucesoresDe {l : List Estacion} {nm : String} {x : Estacion} :
    x ∈ sucesoresDe l nm ↔ x ∈ l ∧ x.predecesora_nombre = nm := by
  rw [sucesoresDe, List.mem_filter]
  simp

theorem lookup_of_mem {l : List Estacion} {e : Estacion} (he : e ∈ l) :
    ∃ q, lookupEst l e.nombre = some q ∧ q.nombre = e.nombre := by
  have hs : (l.find? (fun x => x.nombre == e.nombre)).isSome :=
    List.find?_isSome.mpr ⟨e, he, by simp⟩
  cases hq : l.find? (fun x => x.nombre == e.nombre) with
  | none => rw [hq] at hs; cases hs
  | some q =>
    refine ⟨q, hq, ?_⟩
    have := List.find?_some hq
    simpa using this

theorem lookup_self {l : List Estacion} (hnd : (l.map fun e => e.nombre).Nodup)
    {e : Estacion} (he : e ∈ l) : lookupEst l e.nombre = some e := by
  obtain ⟨q, hq, hqn⟩ := lookup_of_mem he
  have hqm : q ∈ l := List.mem_of_find?_eq_some hq
  have : q = e := List.inj_on_of_nodup_map hnd hqm he hqn
  rw [hq, this]

theorem rank_lt_of_sucesor {l : List Estacion} {rank : String → ℕ}
    (hR : RankOk l rank) {e x : Estacion} (he : e ∈ l)
    (hnm : e.nombre ≠ "") (hx : x ∈ sucesoresDe l e.nombre) :
    rank e.nombre < rank x.nombre := by
  obtain ⟨hxl, hxp⟩ := mem_sucesoresDe.mp hx
  obtain ⟨q, hq, hqn⟩ := lookup_of_mem he
  have hxq : lookupEst l x.predecesora_nombre = some q := by rw [hxp]; exact hq
  have := rank_lt_of_lookup hR hxl (by rw [hxp]; exact hnm) hxq
  rw [hqn] at this
  exact this

theorem chainLF_no_succ {l : List Estacion} {cp : ℚ} {e : Estacion}
    (h : sucesoresDe l e.nombre = []) (m : ℕ) : chainLF l cp m e = cp := by
  cases m with
  | zero => rfl
  | succ n => rw [chainLF, h]

theorem chainLF_succ_cons {l : List Estacion} {cp : ℚ} {e y : Estacion}
    {rest : List Estacion} (h : sucesoresDe l e.nombre = y :: rest) (m : ℕ) :
    chainLF l cp (m + 1) e =
      listMinQ cp ((y :: rest).map (fun x => chainLF l cp m x - x.tiempo)) := by
  rw [chainLF, h]

theorem chainLF_le_cp {l : List Estacion} {cp : ℚ}
    (hpos : ∀ x ∈ l, 0 ≤ x.tiempo) : ∀ (m : ℕ) (e : Estacion), chainLF l cp m e ≤ cp := by
  intro m
  induction m with
  | zero => intro e; exact le_refl cp
  | succ n ih =>
    intro e
    cases hs : sucesoresDe l e.nombre with
    | nil => rw [chainLF_no_succ hs]
    | cons y rest =>
      rw [chainLF_succ_cons hs]
      refine le_trans (listMinQ_le (List.mem_map_of_mem _ (List.mem_cons_self y rest))) ?_
      have hyl : y ∈ l := (mem_sucesoresDe.mp (hs ▸ List.mem_cons_self y rest)).1
      have := hpos y hyl
      have := ih y
      linarith

theorem trueLF_le_cp {l : List Estacion} {cp : ℚ}
    (hpos : ∀ x ∈ l, 0 ≤ x.tiempo) (e : Estacion) : trueLF cp l e ≤ cp :=
  chainLF_le_cp hpos _ e

theorem chainLF_stab {l : List Estacion} {cp : ℚ} {rank : String → ℕ}
    (hR : RankOk l rank) (hnm : ∀ x ∈ l, x.nombre ≠ "") :
    ∀ c, ∀ e ∈ l, l.length - rank e.nombre ≤ c →
      ∀ m₁ m₂, l.length - 1 - rank e.nombre ≤ m₁ → l.length - 1 - rank e.nombre ≤ m₂ →
        chainLF l cp m₁ e = chainLF l cp m₂ e := by
  intro c
  induction c using Nat.strong_induction_on with
  | _ c ih =>
    intro e he hc m₁ m₂ hm₁ hm₂
    cases hs : sucesoresDe l e.nombre with
    | nil => rw [chainLF_no_succ hs, chainLF_no_succ hs]
    | cons y rest =>
      have hrane : rank e.nombre < l.length := (hR e he).1
      have hymem : y ∈ sucesoresDe l e.nombre := hs ▸ List.mem_cons_self y rest
      have hyl : y ∈ l := (mem_sucesoresDe.mp hymem).1
      have hry : rank e.nombre < rank y.nombre :=
        rank_lt_of_sucesor hR he (hnm e he) hymem
      have hrany : rank y.nombre < l.length := (hR y hyl).1
      -- hence the threshold for e is at least 1
      have hτe : 1 ≤ l.length - 1 - rank e.nombre := by omega
      obtain ⟨m₁', rfl⟩ : ∃ m', m₁ = m' + 1 := ⟨m₁ - 1, by omega⟩
      obtain ⟨m₂', rfl⟩ : ∃ m', m₂ = m' + 1 := ⟨m₂ - 1, by omega⟩
      rw [chainLF_succ_cons hs, chainLF_succ_cons hs]
      have hmapeq : (y :: rest).map (fun x => chainLF l cp m₁' x - x.tiempo) =
          (y :: rest).map (fun x => chainLF l cp m₂' x - x.tiempo) := by
        refine List.map_congr_left ?_
        intro x hxm
        have hxs : x ∈ sucesoresDe l e.nombre := hs ▸ hxm
        have hxl : x ∈ l := (mem_sucesoresDe.mp hxs).1
        have hrx : rank e.nombre < rank x.nombre :=
          rank_lt_of_sucesor hR he (hnm e he) hxs
        have hranx : rank x.nombre < l.length := (hR x hxl).1
        have hstab : chainLF l cp m₁' x = chainLF l cp m₂' x :=
          ih (c - 1) (by omega) x hxl (by omega) m₁' m₂' (by omega) (by omega)
        rw [hstab]
      rw [hmapeq]

theorem trueLF_no_succ {l : List Estacion} {cp : ℚ} {e : Estacion}
    (h : sucesoresDe l e.nombre = []) : trueLF cp l e = cp := chainLF_no_succ h _

theorem trueLF_succ {l : List Estacion} {cp : ℚ} {rank : String → ℕ}
    (hR : RankOk l rank) (hnm : ∀ x ∈ l, x.nombre ≠ "")
    {e y : Estacion} {rest : List Estacion} (he : e ∈ l)
    (hs : sucesoresDe l e.nombre = y :: rest) :
    trueLF cp l e = listMinQ cp ((y :: rest).map (fun x => trueLF cp l x - x.tiempo)) := by
  have hlen1 : 1 ≤ l.length := by
    cases l with
    | nil => cases he
    | cons a r => simp
  obtain ⟨n', hn⟩ : ∃ n', l.length = n' + 1 := ⟨l.length - 1, by omega⟩
  rw [trueLF, hn, chainLF_succ_cons hs]
  refine congrArg (listMinQ cp) (List.map_congr_left ?_)
  intro x hxm
  have hxs : x ∈ sucesoresDe l e.nombre := hs ▸ hxm
  have hxl : x ∈ l := (mem_sucesoresDe.mp hxs).1
  have hranx : rank x.nombre < l.length := (hR x hxl).1
  have hstab : chainLF l cp n' x = chainLF l cp l.length x :=
    chainLF_stab hR hnm (l.length - rank x.nombre) x hxl (le_refl _) n' l.length
      (by omega) (by omega)
  rw [hstab, trueLF]

/-- On an acyclic list whose project time dominates every station's
earliest finish, the fixpoint latest finish of a station is no smaller
than its earliest finish. -/
theorem trueLF_ge_ef {l : List Estacion} {cp : ℚ} {rank : String → ℕ}
    (hR : RankOk l rank) (hpos : ∀ x ∈ l, 0 < x.tiempo)
    (hnm : ∀ x ∈ l, x.nombre ≠ "") (hnd : (l.map fun e => e.nombre).Nodup)
    (hcp : ∀ x ∈ l, trueES l x + x.tiempo ≤ cp) :
    ∀ e ∈ l, trueES l e + e.tiempo ≤ trueLF cp l e := by
  suffices h : ∀ c, ∀ e ∈ l, l.length - rank e.nombre ≤ c →
      trueES l e + e.tiempo ≤ trueLF cp l e by
    intro e he
    exact h (l.length - rank e.nombre) e he (le_refl _)
  intro c
  induction c using Nat.strong_induction_on with
  | _ c ih =>
    intro e he hc
    cases hs : sucesoresDe l e.nombre with
    | nil => rw [trueLF_no_succ hs]; exact hcp e he
    | cons y rest =>
      rw [trueLF_succ hR hnm he hs]
      refine le_listMinQ (by simp) ?_
      intro v hv
      rcases List.mem_map.mp hv with ⟨x, hxm, rfl⟩
      have hxs : x ∈ sucesoresDe l e.nombre := hs ▸ hxm
      obtain ⟨hxl, hxp⟩ := mem_sucesoresDe.mp hxs
      have hrane : rank e.nombre < l.length := (hR e he).1
      have hrx : rank e.nombre < rank x.nombre :=
        rank_lt_of_sucesor hR he (hnm e he) hxs
      have hranx : rank x.nombre < l.length := (hR x hxl).1
      have hxtes : trueES l x = trueES l e + e.tiempo := by
        have hxe : lookupEst l x.predecesora_nombre = some e := by
          rw [hxp]; exact lookup_self hnd he
        have hxne : x.predecesora_nombre ≠ "" := by rw [hxp]; exact hnm e he
        rw [trueES_step hR hxl hxne hxe]
      have hihx : trueES l x + x.tiempo ≤ trueLF cp l x :=
        ih (c - 1) (by omega) x hxl (by omega)
      rw [← hxtes]
      linarith

/-! ### Backward-phase invariants -/

theorem forall₂_of_pointwise {R : Estacion → Estacion → Prop} :
    ∀ {s t : List Estacion}, s.length = t.length →
      (∀ (i : ℕ) (a b : Estacion), s[i]? = some a → t[i]? = some b → R a b) →
      List.Forall₂ R s t
  | [], [], _, _ => List.Forall₂.nil
  | [], b :: t, hlen, _ => by simp at hlen
  | a :: s, [], hlen, _ => by simp at hlen
  | a :: s, b :: t, hlen, h => by
    refine List.Forall₂.cons (h 0 a b List.getElem?_cons_zero List.getElem?_cons_zero) ?_
    refine forall₂_of_pointwise (by simpa using hlen) ?_
    intro i x y hx hy
    exact h (i + 1) x y (by simpa using hx) (by simpa using hy)

theorem forall₂_filter_est {R : Estacion → Estacion → Prop} {p q : Estacion → Bool}
    (hpq : ∀ x y, R x y → p x = q y) :
    ∀ {s t : List Estacion}, List.Forall₂ R s t →
      List.Forall₂ R (s.filter p) (t.filter q) := by
  intro s t h
  induction h with
  | nil => exact List.Forall₂.nil
  | @cons x y s t hxy htail ih =>
    by_cases hp : p x
    · have hq : q y = true := hpq x y hxy ▸ hp
      rw [List.filter_cons_of_pos hp, List.filter_cons_of_pos hq]
      exact List.Forall₂.cons hxy ih
    · have hq : ¬ q y = true := (hpq x y hxy) ▸ hp
      rw [List.filter_cons_of_neg hp, List.filter_cons_of_neg hq]
      exact ih

theorem forall₂_mem_left {R : Estacion → Estacion → Prop} :
    ∀ {s t : List Estacion}, List.Forall₂ R s t → ∀ {x : Estacion}, x ∈ s →
      ∃ y ∈ t, R x y := by
  intro s t h
  induction h with
  | nil => intro x hx; cases hx
  | @cons a b s t hab htail ih =>
    intro x hx
    rcases List.mem_cons.mp hx with rfl | hx
    · exact ⟨b, List.mem_cons_self b t, hab⟩
    · obtain ⟨y, hy, hxy⟩ := ih hx
      exact ⟨y, List.mem_cons_of_mem _ hy, hxy⟩

theorem forall₂_nil_left {R : Estacion → Estacion → Prop} {t : List Estacion}
    (h : List.Forall₂ R [] t) : t = [] := by
  cases h
  rfl

theorem backwardUpdate_none {cp : ℚ} {s : List Estacion} {i : ℕ} (h : s[i]? = none) :
    backwardUpdate cp s i = s := by
  simp [backwardUpdate, h]

theorem backwardUpdate_some {cp : ℚ} {s : List Estacion} {i : ℕ} {a : Estacion}
    (h : s[i]? = some a) :
    ∃ a2 : Estacion, backwardUpdate cp s i = s.set i a2 ∧ sigE a2 = sigE a ∧
      a2.es = a.es ∧
      a2.lf = (if nuevoLf cp s a < a.lf then nuevoLf cp s a else a.lf) ∧
      a2.ls = a2.lf - a2.tiempo := by
  refine ⟨{ a with
      lf := if nuevoLf cp s a < a.lf then nuevoLf cp s a else a.lf,
      ls := (if nuevoLf cp s a < a.lf then nuevoLf cp s a else a.lf) - a.tiempo },
    ?_, rfl, rfl, rfl, rfl⟩
  simp [backwardUpdate, h]

/-- Invariant of the backward phase: signatures unchanged, ES values are
those left by the forward phase `f`, `LS = LF - tiempo` always holds, and
`LF` stays between the fixpoint latest finish and the project time. -/
structure BwdInv (cp : ℚ) (base f s : List Estacion) : Prop where
  sigmap : s.map sigE = base.map sigE
  eseq : ∀ (i : ℕ) (a a0 : Estacion), s[i]? = some a → f[i]? = some a0 → a.es = a0.es
  lsdef : ∀ a ∈ s, a.ls = a.lf - a.tiempo
  lfub : ∀ a ∈ s, a.lf ≤ cp
  lflb : ∀ (i : ℕ) (a b : Estacion), s[i]? = some a → base[i]? = some b →
    trueLF cp base b ≤ a.lf

theorem nuevoLf_ge {cp : ℚ} {base f s : List Estacion} {rank : String → ℕ}
    (hR : RankOk base rank) (hnm : ∀ x ∈ base, x.nombre ≠ "")
    (inv : BwdInv cp base f s) {i : ℕ} {a b : Estacion}
    (ha : s[i]? = some a) (hb : base[i]? = some b) :
    trueLF cp base b ≤ nuevoLf cp s a := by
  obtain ⟨b', hb', hsab⟩ := sig_at_some inv.sigmap ha
  rw [hb] at hb'
  obtain rfl : b = b' := by injection hb'
  obtain ⟨hn, ht, hp⟩ := sigE_fields hsab
  have hbmem : b ∈ base := List.mem_iff_getElem?.mpr ⟨i, hb⟩
  have hfa : List.Forall₂
      (fun x y => sigE x = sigE y ∧ trueLF cp base y ≤ x.lf ∧ x.ls = x.lf - x.tiempo)
      s base := by
    refine forall₂_of_pointwise (length_of_sig inv.sigmap) ?_
    intro j x y hx hy
    obtain ⟨y', hy', hsxy⟩ := sig_at_some inv.sigmap hx
    rw [hy] at hy'
    obtain rfl : y = y' := by injection hy'
    exact ⟨hsxy, inv.lflb j x y hx hy, inv.lsdef x (List.mem_iff_getElem?.mpr ⟨j, hx⟩)⟩
  have hfilt : List.Forall₂
      (fun x y => sigE x = sigE y ∧ trueLF cp base y ≤ x.lf ∧ x.ls = x.lf - x.tiempo)
      (sucesoresDe s a.nombre) (sucesoresDe base b.nombre) := by
    refine forall₂_filter_est ?_ hfa
    intro x y hxy
    have hpxy : x.predecesora_nombre = y.predecesora_nombre := (sigE_fields hxy.1).2.2
    show (x.predecesora_nombre == a.nombre) = (y.predecesora_nombre == b.nombre)
    rw [hpxy, hn]
  rw [nuevoLf]
  cases hss : sucesoresDe s a.nombre with
  | nil =>
    have hbs : sucesoresDe base b.nombre = [] := by
      rw [hss] at hfilt
      exact forall₂_nil_left hfilt
    rw [trueLF_no_succ hbs]
  | cons y rest =>
    rw [hss] at hfilt
    cases hbs : sucesoresDe base b.nombre with
    | nil =>
      rw [hbs] at hfilt
      cases hfilt
    | cons z rest' =>
      rw [hbs] at hfilt
      refine le_listMinQ (by simp) ?_
      intro v hv
      rcases List.mem_map.mp hv with ⟨x, hxm, rfl⟩
      obtain ⟨y', hy', hxy'⟩ := forall₂_mem_left hfilt hxm
      obtain ⟨hsig', hlf', hls'⟩ := hxy'
      have htx : x.tiempo = y'.tiempo := (sigE_fields hsig').2.1
      have helem : trueLF cp base y' - y'.tiempo ∈
          ((z :: rest').map (fun x => trueLF cp base x - x.tiempo)) :=
        List.mem_map_of_mem _ hy'
      have hminle : trueLF cp base b ≤ trueLF cp base y' - y'.tiempo := by
        rw [trueLF_succ hR hnm hbmem hbs]
        exact listMinQ_le helem
      rw [hls', htx]
      linarith

theorem backwardUpdate_inv {cp : ℚ} {base f s : List Estacion} {rank : String → ℕ}
    (hR : RankOk base rank) (hnm : ∀ x ∈ base, x.nombre ≠ "")
    (inv : BwdInv cp base f s) (i : ℕ) : BwdInv cp base f (backwardUpdate cp s i) := by
  cases ha : s[i]? with
  | none => rw [backwardUpdate_none ha]; exact inv
  | some a =>
    obtain ⟨a2, heq, hsig2, hes2, hlf2, hls2⟩ := backwardUpdate_some ha
    rw [heq]
    have hamem : a ∈ s := List.mem_iff_getElem?.mpr ⟨i, ha⟩
    refine ⟨?_, ?_, ?_, ?_, ?_⟩
    · rw [List.map_set, hsig2]
      have hsa : (s.map sigE)[i]? = some (sigE a) := by
        rw [List.getElem?_map, ha, Option.map_some']
      rw [set_same hsa]
      exact inv.sigmap
    · intro j x y hx hy
      rw [List.getElem?_set] at hx
      by_cases hij : i = j
      · rw [if_pos hij] at hx
        subst hij
        obtain ⟨hlt, _⟩ := List.getElem?_eq_some_iff.mp ha
        rw [if_pos hlt] at hx
        obtain rfl : a2 = x := by injection hx
        rw [hes2]
        exact inv.eseq i a y ha hy
      · rw [if_neg hij] at hx
        exact inv.eseq j x y hx hy
    · intro x hx
      rcases List.mem_or_eq_of_mem_set hx with hxs | rfl
      · exact inv.lsdef x hxs
      · exact hls2
    · intro x hx
      rcases List.mem_or_eq_of_mem_set hx with hxs | rfl
      · exact inv.lfub x hxs
      · rw [hlf2]
        have half : a.lf ≤ cp := inv.lfub a hamem
        by_cases hl : nuevoLf cp s a < a.lf
        · rw [if_pos hl]; linarith
        · rw [if_neg hl]; exact half
    · intro j x y hx hy
      rw [List.getElem?_set] at hx
      by_cases hij : i = j
      · rw [if_pos hij] at hx
        subst hij
        obtain ⟨hlt, _⟩ := List.getElem?_eq_some_iff.mp ha
        rw [if_pos hlt] at hx
        obtain rfl : a2 = x := by injection hx
        rw [hlf2]
        by_cases hl : nuevoLf cp s a < a.lf
        · rw [if_pos hl]; exact nuevoLf_ge hR hnm inv ha hy
        · rw [if_neg hl]; exact inv.lflb i a y ha hy
      · rw [if_neg hij] at hx
        exact inv.lflb j x y hx hy

theorem foldl_backwardUpdate_inv {cp : ℚ} {base f : List Estacion} {rank : String → ℕ}
    (hR : RankOk base rank) (hnm : ∀ x ∈ base, x.nombre ≠ "") :
    ∀ (J : List ℕ) (s : List Estacion), BwdInv cp base f s →
      BwdInv cp base f (J.foldl (backwardUpdate cp) s)
  | [], _, inv => inv
  | i :: J, s, inv =>
    foldl_backwardUpdate_inv hR hnm J (backwardUpdate cp s i)
      (backwardUpdate_inv hR hnm inv i)

theorem backwardPhase_inv {cp : ℚ} {base f : List Estacion} {rank : String → ℕ}
    (hR : RankOk base rank) (hnm : ∀ x ∈ base, x.nombre ≠ "")
    (hsigf : f.map sigE = base.map sigE)
    (hposb : ∀ x ∈ base, 0 ≤ x.tiempo) :
    BwdInv cp base f (backwardPhase cp f) := by
  have inv0 : BwdInv cp base f (f.map fun e => { e with lf := cp, ls := cp - e.tiempo }) := by
    refine ⟨?_, ?_, ?_, ?_, ?_⟩
    · rw [List.map_map]
      rw [show ((fun e => sigE e) ∘ fun e => ({ e with lf := cp, ls := cp - e.tiempo} : Estacion))
          = sigE from rfl]
      exact hsigf
    · intro i x y hx hy
      rw [List.getElem?_map, hy, Option.map_some'] at hx
      obtain rfl : { y with lf := cp, ls := cp - y.tiempo } = x := by injection hx
      rfl
    · intro x hx
      rcases List.mem_map.mp hx with ⟨e, _, rfl⟩
      rfl
    · intro x hx
      rcases List.mem_map.mp hx with ⟨e, _, rfl⟩
      exact le_refl cp
    · intro i x y hx hy
      rw [List.getElem?_map] at hx
      cases hf : f[i]? with
      | none => rw [hf] at hx; cases hx
      | some a0 =>
        rw [hf, Option.map_some'] at hx
        obtain rfl : { a0 with lf := cp, ls := cp - a0.tiempo } = x := by injection hx
        show trueLF cp base y ≤ cp
        exact trueLF_le_cp hposb y
  have hiter : ∀ (m : ℕ) (s : List Estacion), BwdInv cp base f s →
      BwdInv cp base f ((backwardPass cp)^[m] s) := by
    intro m
    induction m with
    | zero => intro s inv; exact inv
    | succ m ih =>
      intro s inv
      rw [Function.iterate_succ_apply']
      exact foldl_backwardUpdate_inv hR hnm _ _ (ih s inv)
  exact hiter f.length _ inv0

/-! ### Signature and length preservation of the CPM passes (no acyclicity
needed) -/

theorem forwardUpdate_sig (s : List Estacion) (i : ℕ) :
    (forwardUpdate s i).map sigE = s.map sigE := by
  cases ha : s[i]? with
  | none => rw [forwardUpdate_none ha]
  | some a =>
    obtain ⟨a2, heq, hsig2, _, _⟩ := forwardUpdate_some ha
    rw [heq, List.map_set, hsig2]
    have hsa : (s.map sigE)[i]? = some (sigE a) := by
      rw [List.getElem?_map, ha, Option.map_some']
    rw [set_same hsa]

theorem backwardUpdate_sig (cp : ℚ) (s : List Estacion) (i : ℕ) :
    (backwardUpdate cp s i).map sigE = s.map sigE := by
  cases ha : s[i]? with
  | none => rw [backwardUpdate_none ha]
  | some a =>
    obtain ⟨a2, heq, hsig2, _, _, _⟩ := backwardUpdate_some ha
    rw [heq, List.map_set, hsig2]
    have hsa : (s.map sigE)[i]? = some (sigE a) := by
      rw [List.getElem?_map, ha, Option.map_some']
    rw [set_same hsa]

theorem foldl_forwardUpdate_sig (J : List ℕ) :
    ∀ (s : List Estacion), (J.foldl forwardUpdate s).map sigE = s.map sigE := by
  induction J with
  | nil => intro s; rfl
  | cons i J ih =>
    intro s
    rw [List.foldl_cons, ih (forwardUpdate s i), forwardUpdate_sig]

theorem foldl_backwardUpdate_sig (cp : ℚ) (J : List ℕ) :
    ∀ (s : List Estacion), (J.foldl (backwardUpdate cp) s).map sigE = s.map sigE := by
  induction J with
  | nil => intro s; rfl
  | cons i J ih =>
    intro s
    rw [List.foldl_cons, ih (backwardUpdate cp s i), backwardUpdate_sig]

theorem forwardPass_sig (s : List Estacion) : (forwardPass s).map sigE = s.map sigE :=
  foldl_forwardUpdate_sig _ s

theorem backwardPass_sig (cp : ℚ) (s : List Estacion) :
    (backwardPass cp s).map sigE = s.map sigE :=
  foldl_backwardUpdate_sig cp _ s

theorem iterate_forwardPass_sig (m : ℕ) :
    ∀ (s : List Estacion), (forwardPass^[m] s).map sigE = s.map sigE := by
  induction m with
  | zero => intro s; rfl
  | succ m ih =>
    intro s
    rw [Function.iterate_succ_apply', forwardPass_sig, ih]

theorem iterate_backwardPass_sig (cp : ℚ) (m : ℕ) :
    ∀ (s : List Estacion), ((backwardPass cp)^[m] s).map sigE = s.map sigE := by
  induction m with
  | zero => intro s; rfl
  | succ m ih =>
    intro s
    rw [Function.iterate_succ_apply', backwardPass_sig, ih]

theorem initF_sig (l : List Estacion) :
    ((l.map fun e => { e with es := 0, ef := e.tiempo }).map sigE) = l.map sigE := by
  rw [List.map_map]
  exact List.map_congr_left (fun e _ => rfl)

theorem forwardPhase_sig (l : List Estacion) : (forwardPhase l).map sigE = l.map sigE := by
  rw [forwardPhase, iterate_forwardPass_sig, initF_sig]

theorem backwardPhase_sig (cp : ℚ) (f : List Estacion) :
    (backwardPhase cp f).map sigE = f.map sigE := by
  rw [backwardPhase, iterate_backwardPass_sig]
  rw [List.map_map]
  exact List.map_congr_left (fun e _ => rfl)

theorem marcarHolgura_sig (l : List Estacion) : (marcarHolgura l).map sigE = l.map sigE := by
  rw [marcarHolgura, List.map_map]
  exact List.map_congr_left (fun e _ => rfl)

theorem marcarHolgura_holgura {l : List Estacion} {est : Estacion}
    (h : est ∈ marcarHolgura l) : ∃ x ∈ l, est.holgura = x.ls - x.es ∧
      est.es_critica = decide (|x.ls - x.es| < epsilonCritica) := by
  rw [marcarHolgura] at h
  rcases List.mem_map.mp h with ⟨x, hx, rfl⟩
  exact ⟨x, hx, rfl, rfl⟩

/-! ### The bottleneck station -/

theorem foldBest_mem :
    ∀ (r : List Estacion) (y : Estacion),
      r.foldl (fun best x => if best.tiempo < x.tiempo then x else best) y ∈ y :: r := by
  intro r
  induction r with
  | nil => intro y; exact List.mem_cons_self y []
  | cons x r ih =>
    intro y
    rw [List.foldl_cons]
    rcases List.mem_cons.mp (ih (if y.tiempo < x.tiempo then x else y)) with h | h
    · rw [h]
      by_cases hl : y.tiempo < x.tiempo
      · rw [if_pos hl]; exact List.mem_cons_of_mem _ (List.mem_cons_self x r)
      · rw [if_neg hl]; exact List.mem_cons_self y _
    · exact List.mem_cons_of_mem _ (List.mem_cons_of_mem _ h)

theorem foldBest_tiempo :
    ∀ (r : List Estacion) (y : Estacion),
      (r.foldl (fun best x => if best.tiempo < x.tiempo then x else best) y).tiempo =
        (r.map fun e => e.tiempo).foldl (fun a b => if a < b then b else a) y.tiempo := by
  intro r
  induction r with
  | nil => intro y; rfl
  | cons x r ih =>
    intro y
    rw [List.foldl_cons, List.map_cons, List.foldl_cons, ih]
    by_cases hl : y.tiempo < x.tiempo
    · rw [if_pos hl, if_pos hl]
    · rw [if_neg hl, if_neg hl]

theorem primeroMayor_spec {l : List Estacion} (hne : l ≠ []) :
    ∃ cb, primeroMayor l = some cb ∧ cb ∈ l ∧
      cb.tiempo = listMaxQ (l.map fun e => e.tiempo) := by
  cases l with
  | nil => exact absurd rfl hne
  | cons y r =>
    refine ⟨_, rfl, foldBest_mem r y, ?_⟩
    rw [foldBest_tiempo, List.map_cons, listMaxQ]

/-! ### Lengths -/

theorem forwardUpdate_length (s : List Estacion) (i : ℕ) :
    (forwardUpdate s i).length = s.length := by
  have := congrArg List.length (forwardUpdate_sig s i)
  simpa using this

theorem backwardUpdate_length (cp : ℚ) (s : List Estacion) (i : ℕ) :
    (backwardUpdate cp s i).length = s.length := by
  have := congrArg List.length (backwardUpdate_sig cp s i)
  simpa using this

theorem forwardPhase_length (l : List Estacion) : (forwardPhase l).length = l.length := by
  have := congrArg List.length (forwardPhase_sig l)
  simpa using this

theorem backwardPhase_length (cp : ℚ) (f : List Estacion) :
    (backwardPhase cp f).length = f.length := by
  have := congrArg List.length (backwardPhase_sig cp f)
  simpa using this

theorem marcarHolgura_length (l : List Estacion) :
    (marcarHolgura l).length = l.length := by
  rw [marcarHolgura, List.length_map]

/-! ### Accessors for `calcularCpm` on a non-empty list -/

theorem calcularCpm_estaciones {l : List Estacion} (hne : l ≠ []) :
    (calcularCpm l).estaciones =
      marcarHolgura (backwardPhase (listMaxQ ((forwardPhase l).map fun e => e.ef))
        (forwardPhase l)) := by
  cases l with
  | nil => exact absurd rfl hne
  | cons hd tl =>
    rw [calcularCpm]
    cases hpm : primeroMayor (marcarHolgura (backwardPhase
        (listMaxQ ((forwardPhase (hd :: tl)).map fun e => e.ef)) (forwardPhase (hd :: tl)))) with
    | none => simp [hpm]
    | some cb => simp [hpm]

theorem calcularCpm_cp {l : List Estacion} (hne : l ≠ []) :
    (calcularCpm l).tiempo_total_camino_critico =
      listMaxQ ((forwardPhase l).map fun e => e.ef) := by
  cases l with
  | nil => exact absurd rfl hne
  | cons hd tl =>
    rw [calcularCpm]
    cases hpm : primeroMayor (marcarHolgura (backwardPhase
        (listMaxQ ((forwardPhase (hd :: tl)).map fun e => e.ef)) (forwardPhase (hd :: tl)))) with
    | none => simp [hpm]
    | some cb => simp [hpm]

theorem calcularCpm_camino {l : List Estacion} (hne : l ≠ []) :
    (calcularCpm l).camino_critico_nombres =
      (((calcularCpm l).estaciones).filter fun e => e.es_critica).map fun e => e.nombre := by
  cases l with
  | nil => exact absurd rfl hne
  | cons hd tl =>
    rw [calcularCpm]
    cases hpm : primeroMayor (marcarHolgura (backwardPhase
        (listMaxQ ((forwardPhase (hd :: tl)).map fun e => e.ef)) (forwardPhase (hd :: tl)))) with
    | none => simp [hpm]
    | some cb => simp [hpm]

theorem calcularCpm_cuello {l : List Estacion} (hne : l ≠ []) :
    ∃ cb, primeroMayor ((calcularCpm l).estaciones) = some cb ∧
      (calcularCpm l).cuello_nombre = cb.nombre ∧
      (calcularCpm l).cuello_tiempo = cb.tiempo := by
  have hnee : (calcularCpm l).estaciones ≠ [] := by
    rw [calcularCpm_estaciones hne]
    intro hcon
    have := congrArg List.length hcon
    rw [marcarHolgura_length, backwardPhase_length, forwardPhase_length] at this
    cases l with
    | nil => exact absurd rfl hne
    | cons hd tl => simp at this
  obtain ⟨cb, hpm, hcbm, hcbt⟩ := primeroMayor_spec hnee
  refine ⟨cb, hpm, ?_, ?_⟩
  · cases l with
    | nil => exact absurd rfl hne
    | cons hd tl =>
      rw [calcularCpm_estaciones hne] at hpm
      rw [calcularCpm]
      simp [hpm]
  · cases l with
    | nil => exact absurd rfl hne
    | cons hd tl =>
      rw [calcularCpm_estaciones hne] at hpm
      rw [calcularCpm]
      simp [hpm]

/-! ### Basic forward facts without acyclicity (the project time is
positive on any validly built list, cyclic or not) -/

theorem tiempos_of_sig {s t : List Estacion} (hsig : s.map sigE = t.map sigE) :
    s.map (fun e => e.tiempo) = t.map (fun e => e.tiempo) := by
  have h1 : (s.map sigE).map (fun p => p.2.1) = (t.map sigE).map (fun p => p.2.1) := by
    rw [hsig]
  rw [List.map_map, List.map_map] at h1
  exact h1

/-- Weak invariant of the forward phase, needing no rank certificate. -/
structure FwdBasic (l s : List Estacion) : Prop where
  sigmap : s.map sigE = l.map sigE
  efes : ∀ a ∈ s, a.ef = a.es + a.tiempo
  esnn : ∀ a ∈ s, 0 ≤ a.es

theorem nuevoEs_nonneg {l s : List Estacion} (hpos : ∀ x ∈ l, 0 ≤ x.tiempo)
    (inv : FwdBasic l s) (a : Estacion) : 0 ≤ nuevoEs s a := by
  rw [nuevoEs]
  by_cases hpe : a.predecesora_nombre = ""
  · rw [if_pos hpe]
  rw [if_neg hpe]
  cases hl : lookupEst s a.predecesora_nombre with
  | none => exact le_refl 0
  | some p =>
    show 0 ≤ p.ef
    have hpm : p ∈ s := List.mem_of_find?_eq_some hl
    obtain ⟨e, he, hep⟩ := mem_sig inv.sigmap hpm
    have htp : 0 ≤ p.tiempo := by
      rw [← (sigE_fields hep).2.1]
      exact hpos e he
    rw [inv.efes p hpm]
    exact add_nonneg (inv.esnn p hpm) htp

theorem forwardUpdate_basic {l s : List Estacion} (hpos : ∀ x ∈ l, 0 ≤ x.tiempo)
    (inv : FwdBasic l s) (i : ℕ) : FwdBasic l (forwardUpdate s i) := by
  cases ha : s[i]? with
  | none => rw [forwardUpdate_none ha]; exact inv
  | some a =>
    obtain ⟨a2, heq, hsig2, hes2, hef2⟩ := forwardUpdate_some ha
    have hamem : a ∈ s := List.mem_iff_getElem?.mpr ⟨i, ha⟩
    refine ⟨?_, ?_, ?_⟩
    · rw [heq, List.map_set, hsig2]
      have hsa : (s.map sigE)[i]? = some (sigE a) := by
        rw [List.getElem?_map, ha, Option.map_some']
      rw [set_same hsa]
      exact inv.sigmap
    · intro x hx
      rw [heq] at hx
      rcases List.mem_or_eq_of_mem_set hx with hxs | rfl
      · exact inv.efes x hxs
      · exact hef2
    · intro x hx
      rw [heq] at hx
      rcases List.mem_or_eq_of_mem_set hx with hxs | rfl
      · exact inv.esnn x hxs
      · rw [hes2]
        by_cases hlt : a.es < nuevoEs s a
        · rw [if_pos hlt]; exact nuevoEs_nonneg hpos inv a
        · rw [if_neg hlt]; exact inv.esnn a hamem

theorem foldl_forwardUpdate_basic {l : List Estacion} (hpos : ∀ x ∈ l, 0 ≤ x.tiempo) :
    ∀ (J : List ℕ) (s : List Estacion), FwdBasic l s →
      FwdBasic l (J.foldl forwardUpdate s)
  | [], _, inv => inv
  | i :: J, s, inv =>
    foldl_forwardUpdate_basic hpos J (forwardUpdate s i) (forwardUpdate_basic hpos inv i)

theorem forwardPhase_basic {l : List Estacion} (hpos : ∀ x ∈ l, 0 ≤ x.tiempo) :
    FwdBasic l (forwardPhase l) := by
  have inv0 : FwdBasic l (l.map fun e => { e with es := 0, ef := e.tiempo }) := by
    refine ⟨initF_sig l, ?_, ?_⟩
    · intro a ha
      rcases List.mem_map.mp ha with ⟨e, _, rfl⟩
      show e.tiempo = 0 + e.tiempo
      rw [zero_add]
    · intro a ha
      rcases List.mem_map.mp ha with ⟨e, _, rfl⟩
      exact le_refl 0
  have hiter : ∀ (m : ℕ) (s : List Estacion), FwdBasic l s →
      FwdBasic l (forwardPass^[m] s) := by
    intro m
    induction m with
    | zero => intro s inv; exact inv
    | succ m ih =>
      intro s inv
      rw [Function.iterate_succ_apply']
      exact foldl_forwardUpdate_basic hpos _ _ (ih s inv)
  exact hiter l.length _ inv0

theorem cp_pos {l : List Estacion} (hpos : ∀ x ∈ l, 0 < x.tiempo) (hne : l ≠ []) :
    0 < listMaxQ ((forwardPhase l).map fun e => e.ef) := by
  have inv := forwardPhase_basic (fun x hx => le_of_lt (hpos x hx))
  have hFne : forwardPhase l ≠ [] := by
    intro hcon
    have := congrArg List.length hcon
    rw [forwardPhase_length] at this
    cases l with
    | nil => exact hne rfl
    | cons hd tl => simp at this
  obtain ⟨a, ha⟩ := List.exists_mem_of_ne_nil _ hFne
  obtain ⟨e, he, hea⟩ := mem_sig inv.sigmap ha
  have hta : 0 < a.tiempo := by
    rw [← (sigE_fields hea).2.1]
    exact hpos e he
  have hef : 0 < a.ef := by
    rw [inv.efes a ha]
    have := inv.esnn a ha
    linarith
  exact lt_of_lt_of_le hef (le_listMaxQ (List.mem_map_of_mem _ ha))

theorem calcularCpm_sig {l : List Estacion} (hne : l ≠ []) :
    ((calcularCpm l).estaciones).map sigE = l.map sigE := by
  rw [calcularCpm_estaciones hne, marcarHolgura_sig, backwardPhase_sig, forwardPhase_sig]

theorem calcularCpm_cp_pos {l : List Estacion} (hpos : ∀ x ∈ l, 0 < x.tiempo)
    (hne : l ≠ []) : 0 < (calcularCpm l).tiempo_total_camino_critico := by
  rw [calcularCpm_cp hne]
  exact cp_pos hpos hne

theorem calcularCpm_cuello_tiempo {l : List Estacion} (hne : l ≠ []) :
    (calcularCpm l).cuello_tiempo = listMaxQ (l.map fun e => e.tiempo) := by
  obtain ⟨cb, hpm, hnm2, hct⟩ := calcularCpm_cuello hne
  have hnee : (calcularCpm l).estaciones ≠ [] := by
    intro hcon
    have hlen := congrArg List.length hcon
    rw [calcularCpm_estaciones hne, marcarHolgura_length, backwardPhase_length,
      forwardPhase_length] at hlen
    cases l with
    | nil => exact hne rfl
    | cons hd tl => simp at hlen
  obtain ⟨cb', hpm', hcbm', hcbt'⟩ := primeroMayor_spec hnee
  rw [hpm] at hpm'
  obtain rfl : cb = cb' := by injection hpm'
  rw [hct, hcbt', tiempos_of_sig (calcularCpm_sig hne)]

/-- On an acyclic, validly built station list, after `calcular_cpm` every
slack is non-negative and some station has slack exactly zero. -/
theorem cpm_slack_core {l : List Estacion} {rank : String → ℕ}
    (hR : RankOk l rank) (hpos : ∀ x ∈ l, 0 < x.tiempo)
    (hnm : ∀ x ∈ l, x.nombre ≠ "") (hnd : (l.map fun e => e.nombre).Nodup)
    (hne : l ≠ []) :
    (∀ est ∈ (calcularCpm l).estaciones, 0 ≤ est.holgura) ∧
      (∃ est ∈ (calcularCpm l).estaciones, est.holgura = 0) := by
  set base := l.map fun e => { e with es := 0, ef := e.tiempo } with hbase
  have hsigbl : base.map sigE = l.map sigE := initF_sig l
  have hRb : RankOk base rank := rankOk_of_sig hsigbl hR
  have hposb : ∀ x ∈ base, 0 < x.tiempo := by
    intro x hx
    obtain ⟨e, he, hex⟩ := mem_sig hsigbl hx
    rw [← (sigE_fields hex).2.1]
    exact hpos e he
  have hnmb : ∀ x ∈ base, x.nombre ≠ "" := by
    intro x hx
    obtain ⟨e, he, hex⟩ := mem_sig hsigbl hx
    rw [← (sigE_fields hex).1]
    exact hnm e he
  have hndb : (base.map fun e => e.nombre).Nodup := by
    rw [nombres_of_sig hsigbl]; exact hnd
  have hposb0 : ∀ x ∈ base, 0 ≤ x.tiempo := fun x hx => le_of_lt (hposb x hx)
  have hpos0 : ∀ x ∈ l, 0 ≤ x.tiempo := fun x hx => le_of_lt (hpos x hx)
  obtain ⟨invF, goodF⟩ := forwardPhase_spec hR hpos0
  set F := forwardPhase l with hF
  set cp := listMaxQ (F.map fun e => e.ef) with hcp
  have hlenFb : F.length = base.length := by
    rw [hF, hbase, forwardPhase_length, List.length_map]
  have hmapef : F.map (fun e => e.ef) = base.map (fun b => trueES base b + b.tiempo) := by
    apply List.ext_getElem?
    intro j
    rw [List.getElem?_map, List.getElem?_map]
    cases hFj : F[j]? with
    | none =>
      have hj : base.length ≤ j := by
        rw [← hlenFb]
        exact List.getElem?_eq_none_iff.mp hFj
      rw [List.getElem?_eq_none_iff.mpr hj]
      rfl
    | some a =>
      obtain ⟨b, hb, hsab⟩ := sig_at_some invF.sigmap hFj
      rw [hb, Option.map_some', Option.map_some']
      rw [(goodF j a b hFj hb).2]
  have hcpval : ∀ x ∈ base, trueES base x + x.tiempo ≤ cp := by
    intro x hx
    rw [hcp, hmapef]
    exact le_listMaxQ (List.mem_map_of_mem _ hx)
  have hbne : base ≠ [] := by
    cases l with
    | nil => exact absurd rfl hne
    | cons hd tl => rw [hbase]; simp
  have hcpmem : ∃ b ∈ base, trueES base b + b.tiempo = cp := by
    rw [hcp, hmapef]
    have hmm : listMaxQ (base.map fun b => trueES base b + b.tiempo) ∈
        base.map fun b => trueES base b + b.tiempo := by
      refine listMaxQ_mem (fun hcon => hbne ?_)
      simpa using hcon
    rcases List.mem_map.mp hmm with ⟨b, hb, hbe⟩
    exact ⟨b, hb, hbe⟩
  set B := backwardPhase cp F with hB
  have invB : BwdInv cp base F B := by
    rw [hB]
    exact backwardPhase_inv hRb hnmb invF.sigmap hposb0
  have hlenBb : B.length = base.length := length_of_sig invB.sigmap
  have hSl : ∀ e ∈ base, trueES base e + e.tiempo ≤ trueLF cp base e :=
    trueLF_ge_ef hRb hposb hnmb hndb hcpval
  have key : ∀ (j : ℕ) (x b : Estacion), B[j]? = some x → base[j]? = some b →
      0 ≤ x.ls - x.es ∧ x.ls - x.es ≤ cp - (trueES base b + b.tiempo) := by
    intro j x b hx hb
    have hxm : x ∈ B := List.mem_iff_getElem?.mpr ⟨j, hx⟩
    have hbm : b ∈ base := List.mem_iff_getElem?.mpr ⟨j, hb⟩
    have hls : x.ls = x.lf - x.tiempo := invB.lsdef x hxm
    have hub : x.lf ≤ cp := invB.lfub x hxm
    have hlb : trueLF cp base b ≤ x.lf := invB.lflb j x b hx hb
    obtain ⟨b', hb', hsxb⟩ := sig_at_some invB.sigmap hx
    rw [hb] at hb'
    obtain rfl : b = b' := by injection hb'
    have htx : x.tiempo = b.tiempo := (sigE_fields hsxb).2.1
    obtain ⟨a0, ha0⟩ : ∃ a0, F[j]? = some a0 := by
      cases hFj : F[j]? with
      | none =>
        have h1 := List.getElem?_eq_none_iff.mp hFj
        have h2 := (List.getElem?_eq_some_iff.mp hb).1
        rw [hlenFb] at h1
        omega
      | some a0 => exact ⟨a0, rfl⟩
    have hes : x.es = a0.es := invB.eseq j x a0 hx ha0
    have hesT : a0.es = trueES base b := (goodF j a0 b ha0 hb).1
    have hge := hSl b hbm
    constructor
    · rw [hls, htx, hes, hesT]; linarith
    · rw [hls, htx, hes, hesT]; linarith
  have hest : (calcularCpm l).estaciones = marcarHolgura B := by
    rw [hB, hcp, hF]
    exact calcularCpm_estaciones hne
  constructor
  · intro est hest2
    rw [hest] at hest2
    obtain ⟨x, hx, hholg, _⟩ := marcarHolgura_holgura hest2
    obtain ⟨j, hxj⟩ := List.mem_iff_getElem?.mp hx
    obtain ⟨b, hbj, _⟩ := sig_at_some invB.sigmap hxj
    rw [hholg]
    exact (key j x b hxj hbj).1
  · obtain ⟨b, hbm, hbcp⟩ := hcpmem
    obtain ⟨i, hbi⟩ := List.mem_iff_getElem?.mp hbm
    obtain ⟨x, hxi⟩ : ∃ x, B[i]? = some x := by
      cases hxi : B[i]? with
      | none =>
        have h1 := List.getElem?_eq_none_iff.mp hxi
        have h2 := (List.getElem?_eq_some_iff.mp hbi).1
        rw [hlenBb] at h1
        omega
      | some x => exact ⟨x, rfl⟩
    have hkey := key i x b hxi hbi
    have hzero : x.ls - x.es = 0 := by
      have h2 := hkey.2
      rw [hbcp] at h2
      have h1 := hkey.1
      linarith
    refine ⟨{ x with
        holgura := x.ls - x.es,
        es_critica := decide (|x.ls - x.es| < epsilonCritica) }, ?_, hzero⟩
    rw [hest, marcarHolgura]
    exact List.mem_map_of_mem _ (List.mem_iff_getElem?.mpr ⟨i, hxi⟩)

/-! ### Metrics accessors -/

theorem metricas_tc {lista : List Estacion} {cp cuelloT : ℚ} {u emp : ℕ}
    (hne : lista ≠ []) :
    (calcularMetricasProduccion lista cp cuelloT u emp).tiempo_ciclo_calculado =
      if 0 < u ∧ 0 < cp then cp / (u : ℚ) else if 0 < cuelloT then cuelloT else 0 := by
  cases lista with
  | nil => exact absurd rfl hne
  | cons hd tl => rfl

theorem metricas_tp {lista : List Estacion} {cp cuelloT : ℚ} {u emp : ℕ}
    (hne : lista ≠ []) :
    (calcularMetricasProduccion lista cp cuelloT u emp).tiempo_produccion_total_estimado =
      if 0 < u then
        if 0 < cuelloT then
          if 1 < u then cp + ((u : ℚ) - 1) * cuelloT else cp
        else cp
      else cp := by
  cases lista with
  | nil => exact absurd rfl hne
  | cons hd tl => rfl

theorem metricas_ef {lista : List Estacion} {cp cuelloT : ℚ} {u emp : ℕ}
    (hne : lista ≠ []) :
    (calcularMetricasProduccion lista cp cuelloT u emp).eficiencia_linea =
      (fun ef0 => if 100 < (if ef0 < 0 then 0 else ef0) then 100 else (if ef0 < 0 then 0 else ef0))
        (if 0 < emp ∧ 0 < (if cuelloT = 0 then listMaxQ (lista.map fun e => e.tiempo) else cuelloT) then
          if 0 < (emp : ℚ) * (if cuelloT = 0 then listMaxQ (lista.map fun e => e.tiempo) else cuelloT) then
            ((lista.map fun e => e.tiempo).sum /
              ((emp : ℚ) * (if cuelloT = 0 then listMaxQ (lista.map fun e => e.tiempo) else cuelloT))) * 100
          else if 0 < (lista.map fun e => e.tiempo).sum then 0 else 100
        else if 0 < (lista.map fun e => e.tiempo).sum then 0 else 100) := by
  cases lista with
  | nil => exact absurd rfl hne
  | cons hd tl => rfl

theorem listMaxQ_pos {xs : List ℚ} (hne : xs ≠ []) (hpos : ∀ x ∈ xs, 0 < x) :
    0 < listMaxQ xs := by
  obtain ⟨x, hx⟩ := List.exists_mem_of_ne_nil _ hne
  exact lt_of_lt_of_le (hpos x hx) (le_listMaxQ hx)

theorem sum_tiempos_pos {l : List Estacion} (hne : l ≠ []) (hpos : ∀ x ∈ l, 0 < x.tiempo) :
    0 < (l.map fun e => e.tiempo).sum := by
  cases l with
  | nil => exact absurd rfl hne
  | cons hd tl =>
    rw [List.map_cons, List.sum_cons]
    have h1 : 0 < hd.tiempo := hpos hd (List.mem_cons_self hd tl)
    have h2 : 0 ≤ (tl.map fun e => e.tiempo).sum := by
      refine List.sum_nonneg ?_
      intro x hx
      rcases List.mem_map.mp hx with ⟨e, he, rfl⟩
      exact le_of_lt (hpos e (List.mem_cons_of_mem _ he))
    linarith

/-- Unfolding of the successful pipeline run. -/
theorem runPipeline_ok {datas : List EstacionData} {u emp : ℕ} {l : List Estacion}
    (h : procesarEstacionesData datas = .ok l) :
    runPipeline datas u emp = Except.ok
      ⟨(calcularCpm l).estaciones, (calcularCpm l).tiempo_total_camino_critico,
        (calcularCpm l).camino_critico_nombres, (calcularCpm l).cuello_nombre,
        (calcularCpm l).cuello_tiempo,
        (calcularMetricasProduccion (calcularCpm l).estaciones
          (calcularCpm l).tiempo_total_camino_critico (calcularCpm l).cuello_tiempo
          u emp).tiempo_ciclo_calculado,
        (calcularMetricasProduccion (calcularCpm l).estaciones
          (calcularCpm l).tiempo_total_camino_critico (calcularCpm l).cuello_tiempo
          u emp).tiempo_produccion_total_estimado,
        (calcularMetricasProduccion (calcularCpm l).estaciones
          (calcularCpm l).tiempo_total_camino_critico (calcularCpm l).cuello_tiempo
          u emp).eficiencia_linea,
        (calcularMetricasProduccion (calcularCpm l).estaciones
          (calcularCpm l).tiempo_total_camino_critico (calcularCpm l).cuello_tiempo
          u emp).efectividad_linea,
        asignarEmpleados ((calcularCpm l).estaciones) emp⟩ := by
  simp only [runPipeline, h]

/-- Derived facts about a validly built list, in the form used by the
claim theorems. -/
theorem procesar_ok_derived {datas : List EstacionData} {l : List Estacion}
    (h : procesarEstacionesData datas = .ok l) :
    l ≠ [] ∧ (∀ e ∈ l, 0 < e.tiempo) ∧ (∀ e ∈ l, e.nombre ≠ "") ∧
      ((l.map fun e => e.nombre).Nodup) := by
  obtain ⟨hne, hmem, _⟩ := procesar_ok h
  exact ⟨hne, fun e he => (hmem e he).1, fun e he => (hmem e he).2,
    procesar_ok_nodup_nombres h⟩

/-- The same facts transported to the station list after `calcular_cpm`. -/
theorem cpm_estaciones_derived {datas : List EstacionData} {l : List Estacion}
    (h : procesarEstacionesData datas = .ok l) :
    (calcularCpm l).estaciones ≠ [] ∧
      (∀ e ∈ (calcularCpm l).estaciones, 0 < e.tiempo) ∧
      (∀ e ∈ (calcularCpm l).estaciones, e.nombre ≠ "") ∧
      (((calcularCpm l).estaciones.map fun e => e.nombre).Nodup) ∧
      ((calcularCpm l).estaciones.map fun e => e.tiempo) = l.map (fun e => e.tiempo) := by
  obtain ⟨hne, hpos, hnm, hnd⟩ := procesar_ok_derived h
  have hsig := calcularCpm_sig hne
  refine ⟨?_, ?_, ?_, ?_, tiempos_of_sig hsig⟩
  · intro hcon
    rw [hcon] at hsig
    cases l with
    | nil => exact hne rfl
    | cons hd tl => simp at hsig
  · intro e he
    obtain ⟨b, hb, hbe⟩ := mem_sig hsig he
    rw [← (sigE_fields hbe).2.1]
    exact hpos b hb
  · intro e he
    obtain ⟨b, hb, hbe⟩ := mem_sig hsig he
    rw [← (sigE_fields hbe).1]
    exact hnm b hb
  · rw [nombres_of_sig hsig]
    exact hnd

/-! ### Allocator helper lemmas -/

theorem intCast_sum : ∀ (xs : List ℤ), ((xs.sum : ℤ) : ℚ) = (xs.map fun z => (Int.cast z : ℚ)).sum
  | [] => by simp
  | x :: xs => by
    rw [List.sum_cons, List.map_cons, List.sum_cons, Int.cast_add, intCast_sum xs]

theorem sum_map_sub {α : Type} (l : List α) (f g : α → ℚ) :
    (l.map fun x => f x - g x).sum = (l.map f).sum - (l.map g).sum := by
  induction l with
  | nil => simp
  | cons x l ih =>
    rw [List.map_cons, List.sum_cons, List.map_cons, List.sum_cons,
      List.map_cons, List.sum_cons, ih]
    ring

theorem sum_le_length : ∀ (xs : List ℚ), (∀ x ∈ xs, x ≤ 1) → xs.sum ≤ (xs.length : ℚ)
  | [], _ => by simp
  | x :: xs, h => by
    rw [List.sum_cons, List.length_cons]
    have h1 : x ≤ 1 := h x (List.mem_cons_self x xs)
    have h2 : xs.sum ≤ (xs.length : ℚ) :=
      sum_le_length xs (fun y hy => h y (List.mem_cons_of_mem _ hy))
    push_cast
    linarith

theorem sum_lt_length : ∀ (xs : List ℚ), xs ≠ [] → (∀ x ∈ xs, x < 1) →
    xs.sum < (xs.length : ℚ)
  | [], hne, _ => absurd rfl hne
  | x :: xs, _, h => by
    rw [List.sum_cons, List.length_cons]
    have h1 : x < 1 := h x (List.mem_cons_self x xs)
    have h2 : xs.sum ≤ (xs.length : ℚ) :=
      sum_le_length xs (fun y hy => le_of_lt (h y (List.mem_cons_of_mem _ hy)))
    push_cast
    linarith

theorem pyTrunc_floor {q : ℚ} (h : 0 ≤ q) : pyTrunc q = ⌊q⌋ := by
  rw [pyTrunc, if_neg (not_lt.mpr h)]

theorem dictBase_eq {l2 : List AsigTemp} (hnd2 : (l2.map fun a => a.nombre).Nodup)
    {x : AsigTemp} (hx : x ∈ l2) : dictBase l2 x.nombre = some x.asignados_base := by
  rw [dictBase]
  have hxr : x ∈ l2.reverse := List.mem_reverse.mpr hx
  have hs : (l2.reverse.find? (fun a => a.nombre == x.nombre)).isSome :=
    List.find?_isSome.mpr ⟨x, hxr, by simp⟩
  cases hq : l2.reverse.find? (fun a => a.nombre == x.nombre) with
  | none => rw [hq] at hs; cases hs
  | some q =>
    have hqm : q ∈ l2 := List.mem_reverse.mp (List.mem_of_find?_eq_some hq)
    have hqn : q.nombre = x.nombre := by simpa using List.find?_some hq
    have : q = x := List.inj_on_of_nodup_map hnd2 hqm hx hqn
    rw [this, Option.map_some']

theorem mapIdx_congr_fn {f g : ℕ → AsigTemp → AsigTemp} :
    ∀ (l : List AsigTemp), (∀ i a, f i a = g i a) → l.mapIdx f = l.mapIdx g := by
  intro l
  induction l generalizing f g with
  | nil => intro h; rfl
  | cons x l ih =>
    intro h
    rw [List.mapIdx_cons, List.mapIdx_cons, h 0 x, ih (fun i a => h (i + 1) a)]

theorem mapIdx_id_of_fn {f : ℕ → AsigTemp → AsigTemp} :
    ∀ (l : List AsigTemp), (∀ i a, f i a = a) → l.mapIdx f = l := by
  intro l
  induction l generalizing f with
  | nil => intro h; rfl
  | cons x l ih =>
    intro h
    rw [List.mapIdx_cons, h 0 x, ih (fun i a => h (i + 1) a)]

theorem mapIdx_map_nombre {f : ℕ → AsigTemp → AsigTemp} :
    ∀ (l : List AsigTemp), (∀ i a, (f i a).nombre = a.nombre) →
      (l.mapIdx f).map (fun a => a.nombre) = l.map (fun a => a.nombre) := by
  intro l
  induction l generalizing f with
  | nil => intro h; rfl
  | cons x l ih =>
    intro h
    rw [List.mapIdx_cons, List.map_cons, List.map_cons, h 0 x,
      ih (fun i a => h (i + 1) a)]

theorem sum_mapIdx_extras :
    ∀ (xs : List AsigTemp) (r : ℤ), 0 ≤ r → r ≤ (xs.length : ℤ) →
      ((xs.mapIdx (fun i a => if (i : ℤ) < r then
          { a with asignados_base := a.asignados_base + 1 } else a)).map
        fun a => a.asignados_base).sum
        = ((xs.map fun a => a.asignados_base).sum) + r := by
  intro xs
  induction xs with
  | nil =>
    intro r h0 hl
    simp at hl
    obtain rfl : r = 0 := le_antisymm hl h0
    simp
  | cons x xs ih =>
    intro r h0 hl
    rw [List.mapIdx_cons]
    by_cases hr : r = 0
    · subst hr
      rw [if_neg (by omega)]
      have hrest : (xs.mapIdx fun i a => if ((i + 1 : ℕ) : ℤ) < 0 then
          { a with asignados_base := a.asignados_base + 1 } else a) = xs := by
        refine mapIdx_id_of_fn xs ?_
        intro i a
        rw [if_neg (by push_cast; omega)]
      rw [hrest]
      simp
    · have hr1 : 0 < r := lt_of_le_of_ne h0 (Ne.symm hr)
      rw [if_pos (by omega)]
      have hrest : (xs.mapIdx fun i a => if ((i + 1 : ℕ) : ℤ) < r then
          { a with asignados_base := a.asignados_base + 1 } else a) =
          (xs.mapIdx fun i a => if (i : ℤ) < r - 1 then
          { a with asignados_base := a.asignados_base + 1 } else a) := by
        refine mapIdx_congr_fn xs ?_
        intro i a
        by_cases h : ((i : ℤ) + 1) < r
        · rw [if_pos (by push_cast; omega), if_pos (by omega)]
        · rw [if_neg (by push_cast; omega), if_neg (by omega)]
      rw [hrest]
      have := ih (r - 1) (by omega) (by rw [List.length_cons] at hl; push_cast at hl ⊢; omega)
      rw [List.map_cons, List.sum_cons, this, List.map_cons, List.sum_cons]
      show x.asignados_base + 1 + ((xs.map fun a => a.asignados_base).sum + (r - 1)) =
        x.asignados_base + (xs.map fun a => a.asignados_base).sum + r
      ring

/-! ### Named intermediate values of `asignar_empleados` (the Python local
variables `total_tiempo_tareas`, `asignaciones_temp`,
`empleados_restantes_por_asignar`, the sorted list, and the dict-projected
list), used to state the allocator lemmas -/

/-- `total_tiempo_tareas` (src/app.py:229). -/
def totalTiempoTareas (lista : List Estacion) : ℚ := (lista.map fun e => e.tiempo).sum

/-- `asignaciones_temp` (src/app.py:244-253). -/
def asignacionesTemp (lista : List Estacion) (numEmp : ℕ) : List AsigTemp :=
  lista.map (fun est =>
    let prop : ℚ := if 0 < totalTiempoTareas lista then est.tiempo / totalTiempoTareas lista
      else 1 / (lista.length : ℚ)
    let ideal : ℚ := prop * (numEmp : ℚ)
    ⟨est.nombre, ideal, pyTrunc ideal, ideal - (pyTrunc ideal : ℚ)⟩)

/-- `empleados_restantes_por_asignar` (src/app.py:255-256). -/
def restantesPorAsignar (lista : List Estacion) (numEmp : ℕ) : ℤ :=
  (numEmp : ℤ) - ((asignacionesTemp lista numEmp).map fun a => a.asignados_base).sum

/-- The list after the stable descending sort by fraction (src/app.py:258). -/
def ordenadoPorFraccion (lista : List Estacion) (numEmp : ℕ) : List AsigTemp :=
  (asignacionesTemp lista numEmp).mergeSort (fun a b => decide (b.fraccion ≤ a.fraccion))

/-- The list after awarding the leftover employees (src/app.py:260-262). -/
def conExtrasAsignadas (lista : List Estacion) (numEmp : ℕ) : List AsigTemp :=
  (ordenadoPorFraccion lista numEmp).enum.map (fun p =>
    if (p.1 : ℤ) < restantesPorAsignar lista numEmp then
      { p.2 with asignados_base := p.2.asignados_base + 1 } else p.2)

/-- Re-projection into input order through the name dict (src/app.py:264-270). -/
def porNombreAsignaciones (lista : List Estacion) (numEmp : ℕ) : List Asignacion :=
  lista.map (fun est =>
    ⟨est.nombre, (dictBase (conExtrasAsignadas lista numEmp) est.nombre).getD 0⟩)

theorem ajusteLoop_dif_zero : ∀ (fuel idx : ℕ) (l : List Asignacion),
    ajusteLoop fuel 0 idx l = l := by
  intro fuel idx l
  cases fuel with
  | zero => rfl
  | succ m => rw [ajusteLoop, if_pos (Or.inl rfl)]

theorem asignar_pos_unfold {lista : List Estacion} {numEmp : ℕ}
    (h1 : lista ≠ []) (h2 : numEmp ≠ 0) (h3 : totalTiempoTareas lista ≠ 0) :
    asignarEmpleados lista numEmp =
      (fun porNombre =>
        (fun dif =>
          ajusteLoop (porNombre.length * dif.natAbs + porNombre.length + 1) dif 0
            (if dif = 0 then porNombre
             else if dif < 0 then
               porNombre.mergeSort (fun a b => decide (b.empleados ≤ a.empleados))
             else porNombre.mergeSort (fun a b => decide (a.empleados ≤ b.empleados)))
          |>.mergeSort (fun a b => decide (origenIdx lista a.nombre ≤ origenIdx lista b.nombre)))
        ((numEmp : ℤ) - (porNombre.map fun a => a.empleados).sum))
      (porNombreAsignaciones lista numEmp) := by
  have hc1 : ¬(lista.isEmpty = true ∨ numEmp = 0) := by
    rw [List.isEmpty_iff]
    push_neg
    exact ⟨h1, h2⟩
  rw [asignarEmpleados, if_neg hc1]
  rw [if_neg (show ¬((lista.map fun e => e.tiempo).sum = 0) from h3)]
  rfl

theorem asignar_pos_eq_of_conserva {lista : List Estacion} {numEmp : ℕ}
    (h1 : lista ≠ []) (h2 : numEmp ≠ 0) (h3 : totalTiempoTareas lista ≠ 0)
    (hsum : ((porNombreAsignaciones lista numEmp).map fun a => a.empleados).sum
      = (numEmp : ℤ)) :
    asignarEmpleados lista numEmp =
      (porNombreAsignaciones lista numEmp).mergeSort
        (fun a b => decide (origenIdx lista a.nombre ≤ origenIdx lista b.nombre)) := by
  rw [asignar_pos_unfold h1 h2 h3]
  show (fun dif : ℤ =>
      ajusteLoop ((porNombreAsignaciones lista numEmp).length * dif.natAbs +
          (porNombreAsignaciones lista numEmp).length + 1) dif 0
        (if dif = 0 then porNombreAsignaciones lista numEmp
         else if dif < 0 then
           (porNombreAsignaciones lista numEmp).mergeSort
             (fun a b => decide (b.empleados ≤ a.empleados))
         else (porNombreAsignaciones lista numEmp).mergeSort
           (fun a b => decide (a.empleados ≤ b.empleados)))
        |>.mergeSort (fun a b => decide (origenIdx lista a.nombre ≤ origenIdx lista b.nombre)))
      ((numEmp : ℤ) - ((porNombreAsignaciones lista numEmp).map fun a => a.empleados).sum)
      = _
  rw [hsum, sub_self]
  beta_reduce
  rw [if_pos rfl, ajusteLoop_dif_zero]

theorem asignacionesTemp_nombres (lista : List Estacion) (numEmp : ℕ) :
    (asignacionesTemp lista numEmp).map (fun a => a.nombre) =
      lista.map (fun e => e.nombre) := by
  rw [asignacionesTemp, List.map_map]
  exact List.map_congr_left (fun e _ => rfl)

theorem asignacionesTemp_length (lista : List Estacion) (numEmp : ℕ) :
    (asignacionesTemp lista numEmp).length = lista.length := by
  rw [asignacionesTemp, List.length_map]

theorem asignacionesTemp_entry {lista : List Estacion} {numEmp : ℕ}
    (hpos : ∀ e ∈ lista, 0 < e.tiempo) (htot : 0 < totalTiempoTareas lista)
    (hE : numEmp ≠ 0) {x : AsigTemp} (hx : x ∈ asignacionesTemp lista numEmp) :
    ∃ est ∈ lista, x.nombre = est.nombre ∧
      x.ideal = est.tiempo / totalTiempoTareas lista * (numEmp : ℚ) ∧
      0 < x.ideal ∧
      x.asignados_base = ⌊x.ideal⌋ ∧
      x.fraccion = x.ideal - (⌊x.ideal⌋ : ℚ) := by
  rw [asignacionesTemp] at hx
  rcases List.mem_map.mp hx with ⟨est, hest, rfl⟩
  have hid : (if 0 < totalTiempoTareas lista then est.tiempo / totalTiempoTareas lista
      else 1 / (lista.length : ℚ)) * (numEmp : ℚ)
      = est.tiempo / totalTiempoTareas lista * (numEmp : ℚ) := by
    rw [if_pos htot]
  have hidpos : 0 < est.tiempo / totalTiempoTareas lista * (numEmp : ℚ) := by
    have h1 : 0 < est.tiempo := hpos est hest
    have h2 : (0 : ℚ) < (numEmp : ℚ) := by
      have : 0 < numEmp := Nat.pos_of_ne_zero hE
      exact_mod_cast this
    positivity
  refine ⟨est, hest, rfl, hid, ?_, ?_, ?_⟩
  · show 0 < (if 0 < totalTiempoTareas lista then est.tiempo / totalTiempoTareas lista
      else 1 / (lista.length : ℚ)) * (numEmp : ℚ)
    rw [hid]
    exact hidpos
  · show pyTrunc ((if 0 < totalTiempoTareas lista then est.tiempo / totalTiempoTareas lista
      else 1 / (lista.length : ℚ)) * (numEmp : ℚ)) = _
    rw [pyTrunc_floor (by rw [hid]; exact le_of_lt hidpos)]
  · show (if 0 < totalTiempoTareas lista then est.tiempo / totalTiempoTareas lista
        else 1 / (lista.length : ℚ)) * (numEmp : ℚ) -
      (pyTrunc ((if 0 < totalTiempoTareas lista then est.tiempo / totalTiempoTareas lista
        else 1 / (lista.length : ℚ)) * (numEmp : ℚ)) : ℚ) = _
    rw [pyTrunc_floor (by rw [hid]; exact le_of_lt hidpos)]

theorem asignacionesTemp_bounds {lista : List Estacion} {numEmp : ℕ}
    (hpos : ∀ e ∈ lista, 0 < e.tiempo) (htot : 0 < totalTiempoTareas lista)
    (hE : numEmp ≠ 0) {x : AsigTemp} (hx : x ∈ asignacionesTemp lista numEmp) :
    0 ≤ x.asignados_base ∧ (x.asignados_base : ℚ) ≤ x.ideal ∧
      x.ideal < (x.asignados_base : ℚ) + 1 ∧ 0 ≤ x.fraccion ∧ x.fraccion < 1 := by
  obtain ⟨est, hest, _, hideal, hidpos, hbase, hfrac⟩ :=
    asignacionesTemp_entry hpos htot hE hx
  have h1 : (⌊x.ideal⌋ : ℚ) ≤ x.ideal := Int.floor_le x.ideal
  have h2 : x.ideal < (⌊x.ideal⌋ : ℚ) + 1 := Int.lt_floor_add_one x.ideal
  refine ⟨?_, ?_, ?_, ?_, ?_⟩
  · rw [hbase]
    exact Int.floor_nonneg.mpr (le_of_lt hidpos)
  · rw [hbase]; exact h1
  · rw [hbase]; exact h2
  · rw [hfrac]; linarith
  · rw [hfrac]; linarith

theorem sum_ideales {lista : List Estacion} {numEmp : ℕ}
    (htot : 0 < totalTiempoTareas lista) :
    ((asignacionesTemp lista numEmp).map fun a => a.ideal).sum = (numEmp : ℚ) := by
  have hcg : ((asignacionesTemp lista numEmp).map fun a => a.ideal) =
      lista.map (fun est => est.tiempo * ((numEmp : ℚ) / totalTiempoTareas lista)) := by
    rw [asignacionesTemp, List.map_map]
    refine List.map_congr_left ?_
    intro est hm
    show (if 0 < totalTiempoTareas lista then est.tiempo / totalTiempoTareas lista
        else 1 / (lista.length : ℚ)) * (numEmp : ℚ)
      = est.tiempo * ((numEmp : ℚ) / totalTiempoTareas lista)
    rw [if_pos htot]
    ring
  rw [hcg]
  rw [List.sum_map_mul_right]
  rw [show (lista.map fun est => est.tiempo).sum = totalTiempoTareas lista from rfl]
  field_simp

theorem sum_bases_le {lista : List Estacion} {numEmp : ℕ}
    (hpos : ∀ e ∈ lista, 0 < e.tiempo) (htot : 0 < totalTiempoTareas lista)
    (hE : numEmp ≠ 0) :
    ((((asignacionesTemp lista numEmp).map fun a => a.asignados_base).sum : ℤ) : ℚ)
      ≤ (numEmp : ℚ) := by
  rw [intCast_sum, List.map_map]
  rw [← @sum_ideales lista numEmp htot]
  refine List.sum_le_sum ?_
  intro a ha
  exact (asignacionesTemp_bounds hpos htot hE ha).2.1

theorem restantes_nonneg {lista : List Estacion} {numEmp : ℕ}
    (hpos : ∀ e ∈ lista, 0 < e.tiempo) (htot : 0 < totalTiempoTareas lista)
    (hE : numEmp ≠ 0) : 0 ≤ restantesPorAsignar lista numEmp := by
  rw [restantesPorAsignar, sub_nonneg]
  have h := @sum_bases_le lista numEmp hpos htot hE
  exact_mod_cast h

theorem restantes_eq_sum_frac {lista : List Estacion} {numEmp : ℕ}
    (hpos : ∀ e ∈ lista, 0 < e.tiempo) (htot : 0 < totalTiempoTareas lista)
    (hE : numEmp ≠ 0) :
    ((restantesPorAsignar lista numEmp : ℤ) : ℚ)
      = ((asignacionesTemp lista numEmp).map fun a => a.fraccion).sum := by
  have h1 : ((asignacionesTemp lista numEmp).map fun a => a.fraccion)
      = (asignacionesTemp lista numEmp).map (fun a => a.ideal - (a.asignados_base : ℚ)) :=
    List.map_congr_left (fun a ha => by
      obtain ⟨est, _, _, _, _, hbase, hfrac⟩ := asignacionesTemp_entry hpos htot hE ha
      show a.fraccion = a.ideal - (a.asignados_base : ℚ)
      rw [hfrac, hbase])
  rw [h1, sum_map_sub, sum_ideales htot, restantesPorAsignar, Int.cast_sub,
    Int.cast_natCast, intCast_sum, List.map_map]
  rfl

theorem restantes_lt_length {lista : List Estacion} {numEmp : ℕ}
    (hpos : ∀ e ∈ lista, 0 < e.tiempo) (htot : 0 < totalTiempoTareas lista)
    (hE : numEmp ≠ 0) (hne : lista ≠ []) :
    restantesPorAsignar lista numEmp < (lista.length : ℤ) := by
  have hq : ((restantesPorAsignar lista numEmp : ℤ) : ℚ) < (lista.length : ℚ) := by
    rw [restantes_eq_sum_frac hpos htot hE]
    have hne2 : (asignacionesTemp lista numEmp).map (fun a => a.fraccion) ≠ [] := by
      intro hcon
      have := congrArg List.length hcon
      rw [List.length_map, asignacionesTemp_length] at this
      cases lista with
      | nil => exact hne rfl
      | cons hd tl => simp at this
    have := sum_lt_length _ hne2 (fun v hv => by
      rcases List.mem_map.mp hv with ⟨a, ha, rfl⟩
      exact (asignacionesTemp_bounds hpos htot hE ha).2.2.2.2)
    rw [List.length_map, asignacionesTemp_length] at this
    exact this
  exact_mod_cast hq

theorem ordenado_perm (lista : List Estacion) (numEmp : ℕ) :
    (ordenadoPorFraccion lista numEmp).Perm (asignacionesTemp lista numEmp) :=
  List.mergeSort_perm _ _

theorem ordenado_pairwise (lista : List Estacion) (numEmp : ℕ) :
    List.Pairwise (fun a b => b.fraccion ≤ a.fraccion) (ordenadoPorFraccion lista numEmp) := by
  have h := @List.sorted_mergeSort AsigTemp (fun a b : AsigTemp => decide (b.fraccion ≤ a.fraccion))
    (fun a b c hab hbc => by
      rw [decide_eq_true_iff] at hab hbc ⊢
      exact le_trans hbc hab)
    (fun a b => by
      rcases le_total b.fraccion a.fraccion with h | h
      · simp [h]
      · simp [h])
    (asignacionesTemp lista numEmp)
  exact h.imp (fun hab => of_decide_eq_true hab)

theorem ordenado_length (lista : List Estacion) (numEmp : ℕ) :
    (ordenadoPorFraccion lista numEmp).length = lista.length := by
  rw [ordenadoPorFraccion, List.length_mergeSort, asignacionesTemp_length]

theorem ordenado_frac_pos {lista : List Estacion} {numEmp : ℕ}
    (hpos : ∀ e ∈ lista, 0 < e.tiempo) (htot : 0 < totalTiempoTareas lista)
    (hE : numEmp ≠ 0) {i : ℕ} {a : AsigTemp}
    (hia : (ordenadoPorFraccion lista numEmp)[i]? = some a)
    (hi : (i : ℤ) < restantesPorAsignar lista numEmp) : 0 < a.fraccion := by
  by_contra hle
  push_neg at hle
  have ham : a ∈ ordenadoPorFraccion lista numEmp := List.mem_iff_getElem?.mpr ⟨i, hia⟩
  have hat : a ∈ asignacionesTemp lista numEmp := (ordenado_perm lista numEmp).mem_iff.mp ham
  have hfz : a.fraccion = 0 :=
    le_antisymm hle (asignacionesTemp_bounds hpos htot hE hat).2.2.2.1
  have hilen : i < (ordenadoPorFraccion lista numEmp).length :=
    (List.getElem?_eq_some_iff.mp hia).1
  -- the total of the fractions equals the leftover count
  have hsum : ((restantesPorAsignar lista numEmp : ℤ) : ℚ)
      = ((ordenadoPorFraccion lista numEmp).map fun x => x.fraccion).sum := by
    rw [restantes_eq_sum_frac hpos htot hE]
    exact (((ordenado_perm lista numEmp).map fun x => x.fraccion).sum_eq).symm
  -- split at position i
  have hsplit : ((ordenadoPorFraccion lista numEmp).map fun x => x.fraccion).sum
      = (((ordenadoPorFraccion lista numEmp).take i).map fun x => x.fraccion).sum
        + (((ordenadoPorFraccion lista numEmp).drop i).map fun x => x.fraccion).sum := by
    rw [← List.sum_append, ← List.map_append, List.take_append_drop]
  -- every entry from position i on has zero fraction
  have hdrop : ∀ v ∈ ((ordenadoPorFraccion lista numEmp).drop i).map fun x => x.fraccion,
      v = 0 := by
    intro v hv
    rcases List.mem_map.mp hv with ⟨x, hx, rfl⟩
    obtain ⟨j, hj⟩ := List.mem_iff_getElem?.mp hx
    rw [List.getElem?_drop] at hj
    have hxm : x ∈ ordenadoPorFraccion lista numEmp := List.mem_iff_getElem?.mpr ⟨i + j, hj⟩
    have hxt : x ∈ asignacionesTemp lista numEmp := (ordenado_perm lista numEmp).mem_iff.mp hxm
    have hxnn : 0 ≤ x.fraccion := (asignacionesTemp_bounds hpos htot hE hxt).2.2.2.1
    rcases Nat.eq_zero_or_pos j with rfl | hjpos
    · rw [Nat.add_zero] at hj
      rw [hia] at hj
      obtain rfl : a = x := by injection hj
      exact hfz
    · have hij : i < i + j := by omega
      obtain ⟨hjlt, hjget⟩ := List.getElem?_eq_some_iff.mp hj
      have hpw := List.pairwise_iff_getElem.mp (ordenado_pairwise lista numEmp)
        i (i + j) hilen hjlt hij
      obtain ⟨_, higet⟩ := List.getElem?_eq_some_iff.mp hia
      rw [higet, hjget] at hpw
      rw [hfz] at hpw
      exact le_antisymm hpw hxnn
  have hdropz : (((ordenadoPorFraccion lista numEmp).drop i).map fun x => x.fraccion).sum = 0 :=
    List.sum_eq_zero hdrop
  have htake : (((ordenadoPorFraccion lista numEmp).take i).map fun x => x.fraccion).sum
      ≤ (i : ℚ) := by
    have hb := sum_le_length (((ordenadoPorFraccion lista numEmp).take i).map fun x => x.fraccion)
      (fun v hv => by
        rcases List.mem_map.mp hv with ⟨x, hx, rfl⟩
        have hxm : x ∈ ordenadoPorFraccion lista numEmp := List.mem_of_mem_take hx
        have hxt : x ∈ asignacionesTemp lista numEmp :=
          (ordenado_perm lista numEmp).mem_iff.mp hxm
        exact le_of_lt (asignacionesTemp_bounds hpos htot hE hxt).2.2.2.2)
    refine le_trans hb ?_
    rw [List.length_map, List.length_take]
    have : i ⊓ (ordenadoPorFraccion lista numEmp).length ≤ i := inf_le_left
    exact_mod_cast this
  have hfinal : ((restantesPorAsignar lista numEmp : ℤ) : ℚ) ≤ (i : ℚ) := by
    rw [hsum, hsplit, hdropz, add_zero]
    exact htake
  have hc : ((i : ℤ) : ℚ) < ((restantesPorAsignar lista numEmp : ℤ) : ℚ) := by
    exact_mod_cast hi
  rw [show (((i : ℤ)) : ℚ) = (i : ℚ) from by push_cast; rfl] at hc
  linarith

theorem conExtras_eq_mapIdx (lista : List Estacion) (numEmp : ℕ) :
    conExtrasAsignadas lista numEmp =
      (ordenadoPorFraccion lista numEmp).mapIdx (fun i a =>
        if (i : ℤ) < restantesPorAsignar lista numEmp then
          { a with asignados_base := a.asignados_base + 1 } else a) := by
  rw [List.mapIdx_eq_enum_map]
  rfl

theorem conExtras_nombres (lista : List Estacion) (numEmp : ℕ) :
    (conExtrasAsignadas lista numEmp).map (fun a => a.nombre)
      = (ordenadoPorFraccion lista numEmp).map (fun a => a.nombre) := by
  rw [conExtras_eq_mapIdx]
  refine mapIdx_map_nombre _ ?_
  intro i a
  by_cases h : (i : ℤ) < restantesPorAsignar lista numEmp
  · rw [if_pos h]
  · rw [if_neg h]

theorem conExtras_sum {lista : List Estacion} {numEmp : ℕ}
    (hpos : ∀ e ∈ lista, 0 < e.tiempo) (htot : 0 < totalTiempoTareas lista)
    (hE : numEmp ≠ 0) (hne : lista ≠ []) :
    ((conExtrasAsignadas lista numEmp).map fun a => a.asignados_base).sum = (numEmp : ℤ) := by
  rw [conExtras_eq_mapIdx]
  rw [sum_mapIdx_extras _ _ (restantes_nonneg hpos htot hE)
    (by rw [ordenado_length]; exact le_of_lt (restantes_lt_length hpos htot hE hne))]
  have hperm : ((ordenadoPorFraccion lista numEmp).map fun a => a.asignados_base).sum
      = ((asignacionesTemp lista numEmp).map fun a => a.asignados_base).sum :=
    ((ordenado_perm lista numEmp).map fun a => a.asignados_base).sum_eq
  rw [hperm, restantesPorAsignar]
  ring

theorem conExtras_mem {lista : List Estacion} {numEmp : ℕ} {x2 : AsigTemp}
    (hx2 : x2 ∈ conExtrasAsignadas lista numEmp) :
    ∃ (i : ℕ) (a : AsigTemp), (ordenadoPorFraccion lista numEmp)[i]? = some a ∧
      (x2 = a ∨ (x2 = { a with asignados_base := a.asignados_base + 1 } ∧
        (i : ℤ) < restantesPorAsignar lista numEmp)) := by
  rw [conExtras_eq_mapIdx] at hx2
  rw [List.mem_mapIdx] at hx2
  obtain ⟨i, hlt, hf⟩ := hx2
  refine ⟨i, (ordenadoPorFraccion lista numEmp)[i], List.getElem?_eq_some_iff.mpr ⟨hlt, rfl⟩, ?_⟩
  by_cases h : (i : ℤ) < restantesPorAsignar lista numEmp
  · rw [if_pos h] at hf
    exact Or.inr ⟨hf.symm, h⟩
  · rw [if_neg h] at hf
    exact Or.inl hf.symm

theorem conExtras_nombres_nodup {lista : List Estacion} {numEmp : ℕ}
    (hnd : (lista.map fun e => e.nombre).Nodup) :
    ((conExtrasAsignadas lista numEmp).map fun a => a.nombre).Nodup := by
  rw [conExtras_nombres]
  have hperm : ((ordenadoPorFraccion lista numEmp).map fun a => a.nombre).Perm
      ((asignacionesTemp lista numEmp).map fun a => a.nombre) :=
    (ordenado_perm lista numEmp).map fun a => a.nombre
  rw [hperm.nodup_iff, asignacionesTemp_nombres]
  exact hnd

theorem lista_nombres_perm_conExtras (lista : List Estacion) (numEmp : ℕ) :
    (lista.map fun e => e.nombre).Perm
      ((conExtrasAsignadas lista numEmp).map fun a => a.nombre) := by
  rw [conExtras_nombres, ← asignacionesTemp_nombres lista numEmp]
  exact ((ordenado_perm lista numEmp).map fun a => a.nombre).symm

theorem porNombre_entry {lista : List Estacion} {numEmp : ℕ}
    (hnd : (lista.map fun e => e.nombre).Nodup) {est : Estacion} (hest : est ∈ lista) :
    ∃ x2 ∈ conExtrasAsignadas lista numEmp, x2.nombre = est.nombre ∧
      (dictBase (conExtrasAsignadas lista numEmp) est.nombre).getD 0 = x2.asignados_base := by
  have hmm : est.nombre ∈ (conExtrasAsignadas lista numEmp).map fun a => a.nombre :=
    (lista_nombres_perm_conExtras lista numEmp).mem_iff.mp (List.mem_map_of_mem _ hest)
  rcases List.mem_map.mp hmm with ⟨x2, hx2, hx2n⟩
  refine ⟨x2, hx2, hx2n, ?_⟩
  rw [← hx2n, dictBase_eq (conExtras_nombres_nodup hnd) hx2, Option.getD_some]

theorem porNombre_sum {lista : List Estacion} {numEmp : ℕ}
    (hpos : ∀ e ∈ lista, 0 < e.tiempo) (htot : 0 < totalTiempoTareas lista)
    (hE : numEmp ≠ 0) (hne : lista ≠ [])
    (hnd : (lista.map fun e => e.nombre).Nodup) :
    ((porNombreAsignaciones lista numEmp).map fun a => a.empleados).sum = (numEmp : ℤ) := by
  have h1 : (porNombreAsignaciones lista numEmp).map (fun a => a.empleados)
      = (lista.map fun e => e.nombre).map
        (fun nm => (dictBase (conExtrasAsignadas lista numEmp) nm).getD 0) := by
    rw [porNombreAsignaciones, List.map_map, List.map_map]
    exact List.map_congr_left (fun est _ => rfl)
  rw [h1]
  have h2 := ((lista_nombres_perm_conExtras lista numEmp).map
    (fun nm => (dictBase (conExtrasAsignadas lista numEmp) nm).getD 0)).sum_eq
  rw [h2, List.map_map]
  have h3 : ((conExtrasAsignadas lista numEmp).map
      ((fun nm => (dictBase (conExtrasAsignadas lista numEmp) nm).getD 0) ∘ fun a => a.nombre))
      = (conExtrasAsignadas lista numEmp).map fun a => a.asignados_base := by
    refine List.map_congr_left ?_
    intro x2 hx2
    show (dictBase (conExtrasAsignadas lista numEmp) x2.nombre).getD 0 = x2.asignados_base
    rw [dictBase_eq (conExtras_nombres_nodup hnd) hx2, Option.getD_some]
  rw [h3]
  exact conExtras_sum hpos htot hE hne

theorem conExtras_base_facts {lista : List Estacion} {numEmp : ℕ}
    (hpos : ∀ e ∈ lista, 0 < e.tiempo) (htot : 0 < totalTiempoTareas lista)
    (hE : numEmp ≠ 0) (hnd : (lista.map fun e => e.nombre).Nodup)
    {x2 : AsigTemp} (hx2 : x2 ∈ conExtrasAsignadas lista numEmp)
    {est : Estacion} (hest : est ∈ lista) (hn : x2.nombre = est.nombre) :
    0 ≤ x2.asignados_base ∧
      |(x2.asignados_base : ℚ) - est.tiempo / totalTiempoTareas lista * (numEmp : ℚ)| < 1 := by
  obtain ⟨i, a, hia, hcase⟩ := conExtras_mem hx2
  have ham : a ∈ ordenadoPorFraccion lista numEmp := List.mem_iff_getElem?.mpr ⟨i, hia⟩
  have hat : a ∈ asignacionesTemp lista numEmp := (ordenado_perm lista numEmp).mem_iff.mp ham
  obtain ⟨est', hest', hn', hideal, hidpos, hbase, hfrac⟩ :=
    asignacionesTemp_entry hpos htot hE hat
  have hxan : x2.nombre = a.nombre := by
    rcases hcase with rfl | ⟨rfl, _⟩
    · rfl
    · rfl
  have hee : est' = est := by
    refine List.inj_on_of_nodup_map hnd hest' hest ?_
    rw [← hn', ← hxan, hn]
  subst hee
  have hfl : (⌊a.ideal⌋ : ℚ) ≤ a.ideal := Int.floor_le a.ideal
  have hfu : a.ideal < (⌊a.ideal⌋ : ℚ) + 1 := Int.lt_floor_add_one a.ideal
  rcases hcase with rfl | ⟨rfl, hilt⟩
  · constructor
    · rw [hbase]
      exact Int.floor_nonneg.mpr (le_of_lt hidpos)
    · rw [hbase, ← hideal]
      rw [abs_sub_comm, abs_of_nonneg (by linarith)]
      linarith
  · have hfp : 0 < a.fraccion := ordenado_frac_pos hpos htot hE hia hilt
    rw [hfrac] at hfp
    constructor
    · show 0 ≤ a.asignados_base + 1
      rw [hbase]
      have := Int.floor_nonneg.mpr (le_of_lt hidpos)
      omega
    · rw [← hideal]
      show |((a.asignados_base + 1 : ℤ) : ℚ) - a.ideal| < 1
      rw [hbase]
      push_cast
      rw [abs_of_nonneg (by linarith)]
      linarith

/-- Main facts about `asignar_empleados` in the proportional branch:
conservation, non-negativity and largest-remainder fairness. -/
theorem asignar_spec_main {lista : List Estacion} {numEmp : ℕ}
    (hpos : ∀ e ∈ lista, 0 < e.tiempo) (hnd : (lista.map fun e => e.nombre).Nodup)
    (hne : lista ≠ []) (hE : numEmp ≠ 0) :
    (((asignarEmpleados lista numEmp).map fun a => a.empleados).sum = (numEmp : ℤ)) ∧
    (∀ a ∈ asignarEmpleados lista numEmp, 0 ≤ a.empleados) ∧
    (∀ a ∈ asignarEmpleados lista numEmp, ∀ e ∈ lista, a.nombre = e.nombre →
      |(a.empleados : ℚ) - e.tiempo / totalTiempoTareas lista * (numEmp : ℚ)| < 1) := by
  have htot : 0 < totalTiempoTareas lista := sum_tiempos_pos hne hpos
  have hsum := porNombre_sum hpos htot hE hne hnd
  have hres := asignar_pos_eq_of_conserva hne hE (ne_of_gt htot) hsum
  have hmem : ∀ a, a ∈ asignarEmpleados lista numEmp ↔
      a ∈ porNombreAsignaciones lista numEmp := by
    intro a
    rw [hres]
    exact List.mem_mergeSort
  have hperm : (asignarEmpleados lista numEmp).Perm (porNombreAsignaciones lista numEmp) := by
    rw [hres]
    exact List.mergeSort_perm _ _
  have hentry : ∀ a ∈ porNombreAsignaciones lista numEmp, ∃ est ∈ lista,
      a.nombre = est.nombre ∧
      ∃ x2 ∈ conExtrasAsignadas lista numEmp, x2.nombre = est.nombre ∧
        a.empleados = x2.asignados_base := by
    intro a ha
    rw [porNombreAsignaciones] at ha
    rcases List.mem_map.mp ha with ⟨est, hest, rfl⟩
    obtain ⟨x2, hx2, hx2n, hval⟩ := @porNombre_entry lista numEmp hnd est hest
    exact ⟨est, hest, rfl, x2, hx2, hx2n, hval⟩
  refine ⟨?_, ?_, ?_⟩
  · rw [(hperm.map fun a => a.empleados).sum_eq]
    exact hsum
  · intro a ha
    obtain ⟨est, hest, _, x2, hx2, hx2n, hval⟩ := hentry a ((hmem a).mp ha)
    rw [hval]
    exact (conExtras_base_facts hpos htot hE hnd hx2 hest hx2n).1
  · intro a ha e he hae
    obtain ⟨est, hest, han, x2, hx2, hx2n, hval⟩ := hentry a ((hmem a).mp ha)
    have hee : est = e := by
      refine List.inj_on_of_nodup_map hnd hest he ?_
      rw [← han, hae]
    subst hee
    rw [hval]
    exact (conExtras_base_facts hpos htot hE hnd hx2 hest hx2n).2

/-- The degenerate branch (src/app.py:224-227): with no stations or no
employees every allocation is zero. -/
theorem asignar_zero {lista : List Estacion} {numEmp : ℕ}
    (h : lista = [] ∨ numEmp = 0) :
    asignarEmpleados lista numEmp = lista.map (fun e => ⟨e.nombre, 0⟩) := by
  rw [asignarEmpleados, if_pos]
  rcases h with h | h
  · exact Or.inl (List.isEmpty_iff.mpr h)
  · exact Or.inr h

/-! ### Claim theorems -/

theorem procesarLoop_dup :
    ∀ (datas : List EstacionData) (i : ℕ) (vistos : List String) (acc : List Estacion),
      (∀ d ∈ datas, d.nombre ≠ "" ∧ ∃ t, d.tiempo = some t ∧ 0 < t) →
      ((¬ (datas.map fun d => pyLower d.nombre).Nodup) ∨
        ∃ d ∈ datas, pyLower d.nombre ∈ vistos) →
      ∃ nm, procesarLoop datas i vistos acc = Except.error (BuildError.duplicateName nm)
  | [], i, vistos, acc, hval, hdup => by
    rcases hdup with hnd | ⟨d, hd, _⟩
    · exact absurd List.nodup_nil hnd
    · exact absurd hd (List.not_mem_nil d)
  | d :: rest, i, vistos, acc, hval, hdup => by
    obtain ⟨hnm, t, ht, htpos⟩ := hval d (List.mem_cons_self d rest)
    by_cases hin : pyLower d.nombre ∈ vistos
    · refine ⟨d.nombre, ?_⟩
      simp only [procesarLoop]
      rw [if_neg hnm, if_pos hin]
    · have hrest : (¬ (rest.map fun x => pyLower x.nombre).Nodup) ∨
          ∃ x ∈ rest, pyLower x.nombre ∈ pyLower d.nombre :: vistos := by
        rcases hdup with hnd | ⟨d2, hd2, hd2v⟩
        · by_cases hmem : pyLower d.nombre ∈ rest.map fun x => pyLower x.nombre
          · rcases List.mem_map.mp hmem with ⟨x, hx, hxe⟩
            exact Or.inr ⟨x, hx, by rw [hxe]; exact List.mem_cons_self _ _⟩
          · refine Or.inl ?_
            intro hcon
            exact hnd (by rw [List.map_cons]; exact List.nodup_cons.mpr ⟨hmem, hcon⟩)
        · rcases List.mem_cons.mp hd2 with rfl | hd2r
          · exact absurd hd2v hin
          · exact Or.inr ⟨d2, hd2r, List.mem_cons_of_mem _ hd2v⟩
      obtain ⟨nm, hnm2⟩ := procesarLoop_dup rest (i + 1) (pyLower d.nombre :: vistos)
        (⟨d.nombre, t, d.predecesora, 0, 0, 0, 0, 0, false⟩ :: acc)
        (fun x hx => hval x (List.mem_cons_of_mem d hx)) hrest
      refine ⟨nm, ?_⟩
      simp only [procesarLoop]
      rw [if_neg hnm, if_neg hin, ht]
      simp only [mkEstacion]
      rw [if_neg (not_le.mpr htpos)]
      exact hnm2

/-- C8: construction fails with a `duplicateName` error whenever two input
records carry names equal after lowercasing, provided every record passes
the per-record checks (non-empty name, valid positive duration); in
particular an input containing both "Cut" and "cut" is rejected. -/
theorem C8_duplicate {datas : List EstacionData}
    (hval : ∀ d ∈ datas, d.nombre ≠ "" ∧ ∃ t, d.tiempo = some t ∧ 0 < t)
    (hdup : ¬ (datas.map fun d => pyLower d.nombre).Nodup) :
    ∃ nm, procesarEstacionesData datas = Except.error (BuildError.duplicateName nm) := by
  obtain ⟨nm, hnm⟩ := procesarLoop_dup datas 0 [] [] hval (Or.inl hdup)
  cases datas with
  | nil => exact absurd List.nodup_nil hdup
  | cons d rest =>
    refine ⟨nm, ?_⟩
    simp only [procesarEstacionesData]
    rw [hnm]

theorem C8_duplicate_witness :
    (∀ d ∈ ([⟨"Cut", some 1, ""⟩, ⟨"cut", some 2, ""⟩] : List EstacionData),
      d.nombre ≠ "" ∧ ∃ t, d.tiempo = some t ∧ 0 < t) ∧
    (¬ ((([⟨"Cut", some 1, ""⟩, ⟨"cut", some 2, ""⟩] : List EstacionData).map
      fun d => pyLower d.nombre).Nodup)) ∧
    ∃ nm, procesarEstacionesData [⟨"Cut", some 1, ""⟩, ⟨"cut", some 2, ""⟩] =
      Except.error (BuildError.duplicateName nm) := by
  have h1 : ∀ d ∈ ([⟨"Cut", some 1, ""⟩, ⟨"cut", some 2, ""⟩] : List EstacionData),
      d.nombre ≠ "" ∧ ∃ t, d.tiempo = some t ∧ 0 < t := by
    intro d hd
    rcases List.mem_cons.mp hd with rfl | hd
    · exact ⟨by decide, 1, rfl, by norm_num⟩
    · rcases List.mem_cons.mp hd with rfl | hd
      · exact ⟨by decide, 2, rfl, by norm_num⟩
      · exact absurd hd (List.not_mem_nil d)
  have h2 : ¬ ((([⟨"Cut", some 1, ""⟩, ⟨"cut", some 2, ""⟩] : List EstacionData).map
      fun d => pyLower d.nombre).Nodup) := by decide
  exact ⟨h1, h2, C8_duplicate h1 h2⟩

/-- C9: the pipeline is a pure function of its input — running it on equal
inputs yields equal results in every output field; no hidden mutable or
random state is modelled because the source touches none. -/
theorem C9_deterministic {datas1 datas2 : List EstacionData} {u1 u2 emp1 emp2 : ℕ}
    (hd : datas1 = datas2) (hu : u1 = u2) (he : emp1 = emp2) :
    runPipeline datas1 u1 emp1 = runPipeline datas2 u2 emp2 := by
  rw [hd, hu, he]

theorem C9_deterministic_witness :
    ([⟨"A", some 1, ""⟩] : List EstacionData) = [⟨"A", some 1, ""⟩] ∧
    (2 : ℕ) = 2 ∧ (3 : ℕ) = 3 ∧
    runPipeline [⟨"A", some 1, ""⟩] 2 3 = runPipeline [⟨"A", some 1, ""⟩] 2 3 :=
  ⟨rfl, rfl, rfl, C9_deterministic rfl rfl rfl⟩

/-- C10: an input whose predecessor references form a cycle (a station
naming itself as predecessor) is accepted by construction — predecessor
validation only checks that the referenced name exists — and `calcular_cpm`
still computes a result on it, its relaxation passes being bounded by the
station count. -/
theorem C10_cycle_accepted :
    procesarEstacionesData [⟨"A", some 1, "A"⟩] =
      Except.ok [⟨"A", 1, "A", 0, 0, 0, 0, 0, false⟩] ∧
    calcularCpm [⟨"A", 1, "A", 0, 0, 0, 0, 0, false⟩] =
      ⟨[⟨"A", 1, "A", 1, 2, 0, 1, -1, false⟩], 2, [], "A", 1⟩ := by
  constructor
  · norm_num +decide [procesarEstacionesData, procesarLoop, mkEstacion, checkPredecesoras,
      lookupEst, List.find?_cons, List.find?_nil, pyLower, pyLowerChar]
  · norm_num +decide [calcularCpm, forwardPhase, forwardPass, forwardUpdate, backwardPhase,
      backwardPass, backwardUpdate, nuevoEs, nuevoLf, sucesoresDe, lookupEst, List.find?_cons,
      List.find?_nil, marcarHolgura, listMaxQ, listMinQ, primeroMayor, List.range_succ,
      Function.iterate_succ_apply, Function.iterate_zero, epsilonCritica, List.filter_cons,
      List.filter_nil]


/-- C1: for a validly built line the computed cycle time is the critical
path time divided by the unit count whenever the unit count is positive,
and only falls back to the bottleneck station's individual duration when
the unit count is zero — not the bottleneck duration in general, as the
spec claims. -/
theorem C1_cycle_time {datas : List EstacionData} {l : List Estacion} {u emp : ℕ}
    {r : LineaResultados} (h : procesarEstacionesData datas = Except.ok l)
    (hr : runPipeline datas u emp = Except.ok r) :
    r.tiempo_ciclo_calculado =
      if 0 < u then r.tiempo_total_camino_critico / (u : ℚ)
      else listMaxQ (r.estaciones.map fun e => e.tiempo) := by
  obtain ⟨hne, hpos, hnm, hnd⟩ := procesar_ok_derived h
  obtain ⟨hneC, hposC, hnmC, hndC, htie⟩ := cpm_estaciones_derived h
  have hro := @runPipeline_ok datas u emp l h
  rw [hr] at hro
  injection hro with hreq
  have hTC : r.tiempo_ciclo_calculado =
      (calcularMetricasProduccion (calcularCpm l).estaciones
        (calcularCpm l).tiempo_total_camino_critico (calcularCpm l).cuello_tiempo
        u emp).tiempo_ciclo_calculado := by rw [hreq]
  have hCP : r.tiempo_total_camino_critico = (calcularCpm l).tiempo_total_camino_critico := by
    rw [hreq]
  have hES : r.estaciones = (calcularCpm l).estaciones := by rw [hreq]
  have hcp : 0 < (calcularCpm l).tiempo_total_camino_critico := calcularCpm_cp_pos hpos hne
  have hcb : (calcularCpm l).cuello_tiempo = listMaxQ (l.map fun e => e.tiempo) :=
    calcularCpm_cuello_tiempo hne
  have hmapne : (l.map fun e => e.tiempo) ≠ [] := by
    cases l with
    | nil => exact absurd rfl hne
    | cons a t => simp
  have hcbpos : 0 < (calcularCpm l).cuello_tiempo := by
    rw [hcb]
    refine listMaxQ_pos hmapne ?_
    intro x hx
    rcases List.mem_map.mp hx with ⟨e, he, rfl⟩
    exact hpos e he
  rw [hTC, hCP, hES, metricas_tc hneC]
  by_cases hu : 0 < u
  · rw [if_pos (⟨hu, hcp⟩ : 0 < u ∧ 0 < (calcularCpm l).tiempo_total_camino_critico),
      if_pos hu]
  · have hcond : ¬ (0 < u ∧ 0 < (calcularCpm l).tiempo_total_camino_critico) :=
      fun hc => hu hc.1
    rw [if_neg hcond, if_neg hu, if_pos hcbpos, hcb, htie]

theorem C1_counterexample :
    runPipeline [⟨"A", some 2, ""⟩] 10 1 = Except.ok
      ⟨[⟨"A", 2, "", 0, 2, 0, 2, 0, true⟩], 2, ["A"], "A", 2, 1/5, 20, 100, 100,
        [⟨"A", 1⟩]⟩ ∧
    ((1 : ℚ)/5 ≠
      listMaxQ (([⟨"A", 2, "", 0, 2, 0, 2, 0, true⟩] : List Estacion).map fun e => e.tiempo)) := by
  constructor
  · norm_num +decide [runPipeline, procesarEstacionesData, procesarLoop, mkEstacion, checkPredecesoras,
      lookupEst, List.find?_cons, List.find?_nil, calcularCpm, forwardPhase, forwardPass,
      forwardUpdate, backwardPhase, backwardPass, backwardUpdate, nuevoEs, nuevoLf,
      sucesoresDe, marcarHolgura, listMaxQ, listMinQ, primeroMayor, List.range_succ,
      Function.iterate_succ_apply, Function.iterate_zero, epsilonCritica, List.filter_cons,
      List.filter_nil, calcularMetricasProduccion, asignarEmpleados, pyTrunc, dictBase,
      origenIdx, ajusteLoop, incAt, decAt, List.mergeSort, List.merge, pyLower, pyLowerChar]
  · norm_num [listMaxQ]

theorem C1_cycle_time_witness :
    procesarEstacionesData [⟨"A", some 2, ""⟩, ⟨"B", some 3, "A"⟩] =
      Except.ok [⟨"A", 2, "", 0, 0, 0, 0, 0, false⟩, ⟨"B", 3, "A", 0, 0, 0, 0, 0, false⟩] ∧
    runPipeline [⟨"A", some 2, ""⟩, ⟨"B", some 3, "A"⟩] 4 2 = Except.ok
      ⟨[⟨"A", 2, "", 0, 2, 0, 2, 0, true⟩, ⟨"B", 3, "A", 2, 5, 2, 5, 0, true⟩], 5,
        ["A", "B"], "B", 3, 5/4, 14, 250/3, 250/3, [⟨"A", 1⟩, ⟨"B", 1⟩]⟩ ∧
    ((5 : ℚ)/4 = if 0 < (4 : ℕ) then (5 : ℚ) / ((4 : ℕ) : ℚ)
      else listMaxQ (([⟨"A", 2, "", 0, 2, 0, 2, 0, true⟩,
        ⟨"B", 3, "A", 2, 5, 2, 5, 0, true⟩] : List Estacion).map fun e => e.tiempo)) := by
  have h1 : procesarEstacionesData [⟨"A", some 2, ""⟩, ⟨"B", some 3, "A"⟩] =
      Except.ok [⟨"A", 2, "", 0, 0, 0, 0, 0, false⟩, ⟨"B", 3, "A", 0, 0, 0, 0, 0, false⟩] := by
    norm_num +decide [runPipeline, procesarEstacionesData, procesarLoop, mkEstacion, checkPredecesoras,
      lookupEst, List.find?_cons, List.find?_nil, calcularCpm, forwardPhase, forwardPass,
      forwardUpdate, backwardPhase, backwardPass, backwardUpdate, nuevoEs, nuevoLf,
      sucesoresDe, marcarHolgura, listMaxQ, listMinQ, primeroMayor, List.range_succ,
      Function.iterate_succ_apply, Function.iterate_zero, epsilonCritica, List.filter_cons,
      List.filter_nil, calcularMetricasProduccion, asignarEmpleados, pyTrunc, dictBase,
      origenIdx, ajusteLoop, incAt, decAt, List.mergeSort, List.merge, pyLower, pyLowerChar]
  have h2 : runPipeline [⟨"A", some 2, ""⟩, ⟨"B", some 3, "A"⟩] 4 2 = Except.ok
      ⟨[⟨"A", 2, "", 0, 2, 0, 2, 0, true⟩, ⟨"B", 3, "A", 2, 5, 2, 5, 0, true⟩], 5,
        ["A", "B"], "B", 3, 5/4, 14, 250/3, 250/3, [⟨"A", 1⟩, ⟨"B", 1⟩]⟩ := by
    norm_num +decide [runPipeline, procesarEstacionesData, procesarLoop, mkEstacion, checkPredecesoras,
      lookupEst, List.find?_cons, List.find?_nil, calcularCpm, forwardPhase, forwardPass,
      forwardUpdate, backwardPhase, backwardPass, backwardUpdate, nuevoEs, nuevoLf,
      sucesoresDe, marcarHolgura, listMaxQ, listMinQ, primeroMayor, List.range_succ,
      Function.iterate_succ_apply, Function.iterate_zero, epsilonCritica, List.filter_cons,
      List.filter_nil, calcularMetricasProduccion, asignarEmpleados, pyTrunc, dictBase,
      origenIdx, ajusteLoop, incAt, decAt, List.mergeSort, List.merge, pyLower, pyLowerChar]
  exact ⟨h1, h2, C1_cycle_time h1 h2⟩

/-- C2: for a validly built line and a positive employee count the
efficiency percentage is the duration sum divided by (employee count times
the bottleneck duration), times 100, clamped above at 100 — the divisor
uses the employee count, not the station count the spec names. -/
theorem C2_efficiency {datas : List EstacionData} {l : List Estacion} {u emp : ℕ}
    {r : LineaResultados} (h : procesarEstacionesData datas = Except.ok l)
    (hr : runPipeline datas u emp = Except.ok r) (hemp : 0 < emp) :
    r.cuello_tiempo = listMaxQ (r.estaciones.map fun e => e.tiempo) ∧
    r.eficiencia_linea =
      if 100 < ((r.estaciones.map fun e => e.tiempo).sum /
          ((emp : ℚ) * r.cuello_tiempo)) * 100
      then 100
      else ((r.estaciones.map fun e => e.tiempo).sum /
          ((emp : ℚ) * r.cuello_tiempo)) * 100 := by
  obtain ⟨hne, hpos, hnm, hnd⟩ := procesar_ok_derived h
  obtain ⟨hneC, hposC, hnmC, hndC, htie⟩ := cpm_estaciones_derived h
  have hro := @runPipeline_ok datas u emp l h
  rw [hr] at hro
  injection hro with hreq
  have hEF : r.eficiencia_linea =
      (calcularMetricasProduccion (calcularCpm l).estaciones
        (calcularCpm l).tiempo_total_camino_critico (calcularCpm l).cuello_tiempo
        u emp).eficiencia_linea := by rw [hreq]
  have hCB : r.cuello_tiempo = (calcularCpm l).cuello_tiempo := by rw [hreq]
  have hES : r.estaciones = (calcularCpm l).estaciones := by rw [hreq]
  have hcb : (calcularCpm l).cuello_tiempo = listMaxQ (l.map fun e => e.tiempo) :=
    calcularCpm_cuello_tiempo hne
  have hmapne : (l.map fun e => e.tiempo) ≠ [] := by
    cases l with
    | nil => exact absurd rfl hne
    | cons a t => simp
  have hcbpos : 0 < (calcularCpm l).cuello_tiempo := by
    rw [hcb]
    refine listMaxQ_pos hmapne ?_
    intro x hx
    rcases List.mem_map.mp hx with ⟨e, he, rfl⟩
    exact hpos e he
  refine ⟨by rw [hCB, hES, hcb, htie], ?_⟩
  rw [hEF, hCB, hES, metricas_ef hneC]
  beta_reduce
  rw [if_neg (ne_of_gt hcbpos)]
  rw [if_pos (⟨hemp, hcbpos⟩ : 0 < emp ∧ 0 < (calcularCpm l).cuello_tiempo)]
  have hprod : 0 < (emp : ℚ) * (calcularCpm l).cuello_tiempo :=
    mul_pos (by exact_mod_cast hemp) hcbpos
  rw [if_pos hprod]
  have hsum : 0 < ((calcularCpm l).estaciones.map fun e => e.tiempo).sum := by
    rw [htie]
    exact sum_tiempos_pos hne hpos
  have hef0 : 0 ≤ (((calcularCpm l).estaciones.map fun e => e.tiempo).sum /
      ((emp : ℚ) * (calcularCpm l).cuello_tiempo)) * 100 :=
    le_of_lt (mul_pos (div_pos hsum hprod) (by norm_num))
  rw [if_neg (not_lt.mpr hef0)]

theorem C2_counterexample :
    runPipeline [⟨"A", some 4, ""⟩, ⟨"B", some 4, "A"⟩] 1 3 = Except.ok
      ⟨[⟨"A", 4, "", 0, 4, 0, 4, 0, true⟩, ⟨"B", 4, "A", 4, 8, 4, 8, 0, true⟩], 8,
        ["A", "B"], "A", 4, 8, 8, 200/3, 200/3, [⟨"A", 2⟩, ⟨"B", 1⟩]⟩ ∧
    ((200 : ℚ)/3 ≠
      (([⟨"A", 4, "", 0, 4, 0, 4, 0, true⟩,
          ⟨"B", 4, "A", 4, 8, 4, 8, 0, true⟩] : List Estacion).map fun e => e.tiempo).sum /
        ((([⟨"A", 4, "", 0, 4, 0, 4, 0, true⟩,
          ⟨"B", 4, "A", 4, 8, 4, 8, 0, true⟩] : List Estacion).length : ℚ) *
          listMaxQ (([⟨"A", 4, "", 0, 4, 0, 4, 0, true⟩,
            ⟨"B", 4, "A", 4, 8, 4, 8, 0, true⟩] : List Estacion).map fun e => e.tiempo)) * 100) := by
  constructor
  · norm_num +decide [runPipeline, procesarEstacionesData, procesarLoop, mkEstacion, checkPredecesoras,
      lookupEst, List.find?_cons, List.find?_nil, calcularCpm, forwardPhase, forwardPass,
      forwardUpdate, backwardPhase, backwardPass, backwardUpdate, nuevoEs, nuevoLf,
      sucesoresDe, marcarHolgura, listMaxQ, listMinQ, primeroMayor, List.range_succ,
      Function.iterate_succ_apply, Function.iterate_zero, epsilonCritica, List.filter_cons,
      List.filter_nil, calcularMetricasProduccion, asignarEmpleados, pyTrunc, dictBase,
      origenIdx, ajusteLoop, incAt, decAt, List.mergeSort, List.merge, pyLower, pyLowerChar]
  · norm_num +decide [listMaxQ]

theorem C2_efficiency_witness :
    procesarEstacionesData [⟨"A", some 4, ""⟩, ⟨"B", some 4, "A"⟩] =
      Except.ok [⟨"A", 4, "", 0, 0, 0, 0, 0, false⟩, ⟨"B", 4, "A", 0, 0, 0, 0, 0, false⟩] ∧
    runPipeline [⟨"A", some 4, ""⟩, ⟨"B", some 4, "A"⟩] 1 3 = Except.ok
      ⟨[⟨"A", 4, "", 0, 4, 0, 4, 0, true⟩, ⟨"B", 4, "A", 4, 8, 4, 8, 0, true⟩], 8,
        ["A", "B"], "A", 4, 8, 8, 200/3, 200/3, [⟨"A", 2⟩, ⟨"B", 1⟩]⟩ ∧
    0 < (3 : ℕ) ∧
    ((4 : ℚ) = listMaxQ (([⟨"A", 4, "", 0, 4, 0, 4, 0, true⟩,
        ⟨"B", 4, "A", 4, 8, 4, 8, 0, true⟩] : List Estacion).map fun e => e.tiempo) ∧
      (200 : ℚ)/3 =
        if 100 < ((([⟨"A", 4, "", 0, 4, 0, 4, 0, true⟩,
            ⟨"B", 4, "A", 4, 8, 4, 8, 0, true⟩] : List Estacion).map fun e => e.tiempo).sum /
            (((3 : ℕ) : ℚ) * (4 : ℚ))) * 100
        then 100
        else ((([⟨"A", 4, "", 0, 4, 0, 4, 0, true⟩,
            ⟨"B", 4, "A", 4, 8, 4, 8, 0, true⟩] : List Estacion).map fun e => e.tiempo).sum /
            (((3 : ℕ) : ℚ) * (4 : ℚ))) * 100) := by
  have h1 : procesarEstacionesData [⟨"A", some 4, ""⟩, ⟨"B", some 4, "A"⟩] =
      Except.ok [⟨"A", 4, "", 0, 0, 0, 0, 0, false⟩, ⟨"B", 4, "A", 0, 0, 0, 0, 0, false⟩] := by
    norm_num +decide [runPipeline, procesarEstacionesData, procesarLoop, mkEstacion, checkPredecesoras,
      lookupEst, List.find?_cons, List.find?_nil, calcularCpm, forwardPhase, forwardPass,
      forwardUpdate, backwardPhase, backwardPass, backwardUpdate, nuevoEs, nuevoLf,
      sucesoresDe, marcarHolgura, listMaxQ, listMinQ, primeroMayor, List.range_succ,
      Function.iterate_succ_apply, Function.iterate_zero, epsilonCritica, List.filter_cons,
      List.filter_nil, calcularMetricasProduccion, asignarEmpleados, pyTrunc, dictBase,
      origenIdx, ajusteLoop, incAt, decAt, List.mergeSort, List.merge, pyLower, pyLowerChar]
  have h2 : runPipeline [⟨"A", some 4, ""⟩, ⟨"B", some 4, "A"⟩] 1 3 = Except.ok
      ⟨[⟨"A", 4, "", 0, 4, 0, 4, 0, true⟩, ⟨"B", 4, "A", 4, 8, 4, 8, 0, true⟩], 8,
        ["A", "B"], "A", 4, 8, 8, 200/3, 200/3, [⟨"A", 2⟩, ⟨"B", 1⟩]⟩ := by
    norm_num +decide [runPipeline, procesarEstacionesData, procesarLoop, mkEstacion, checkPredecesoras,
      lookupEst, List.find?_cons, List.find?_nil, calcularCpm, forwardPhase, forwardPass,
      forwardUpdate, backwardPhase, backwardPass, backwardUpdate, nuevoEs, nuevoLf,
      sucesoresDe, marcarHolgura, listMaxQ, listMinQ, primeroMayor, List.range_succ,
      Function.iterate_succ_apply, Function.iterate_zero, epsilonCritica, List.filter_cons,
      List.filter_nil, calcularMetricasProduccion, asignarEmpleados, pyTrunc, dictBase,
      origenIdx, ajusteLoop, incAt, decAt, List.mergeSort, List.merge, pyLower, pyLowerChar]
  exact ⟨h1, h2, by norm_num, C2_efficiency h1 h2 (by norm_num)⟩

/-- C5: for a validly built line the estimated total production time is
the critical path time plus (units minus one) cycle times when the unit
count and the bottleneck duration are positive, and the critical path time
otherwise, the cycle time being the bottleneck station's duration as the
spec defines it. -/
theorem C5_production_time {datas : List EstacionData} {l : List Estacion} {u emp : ℕ}
    {r : LineaResultados} (h : procesarEstacionesData datas = Except.ok l)
    (hr : runPipeline datas u emp = Except.ok r) :
    r.tiempo_produccion_total_estimado =
      if 0 < u ∧ 0 < r.cuello_tiempo then
        r.tiempo_total_camino_critico + ((u : ℚ) - 1) * r.cuello_tiempo
      else r.tiempo_total_camino_critico := by
  obtain ⟨hne, hpos, hnm, hnd⟩ := procesar_ok_derived h
  obtain ⟨hneC, hposC, hnmC, hndC, htie⟩ := cpm_estaciones_derived h
  have hro := @runPipeline_ok datas u emp l h
  rw [hr] at hro
  injection hro with hreq
  have hTP : r.tiempo_produccion_total_estimado =
      (calcularMetricasProduccion (calcularCpm l).estaciones
        (calcularCpm l).tiempo_total_camino_critico (calcularCpm l).cuello_tiempo
        u emp).tiempo_produccion_total_estimado := by rw [hreq]
  have hCP : r.tiempo_total_camino_critico = (calcularCpm l).tiempo_total_camino_critico := by
    rw [hreq]
  have hCB : r.cuello_tiempo = (calcularCpm l).cuello_tiempo := by rw [hreq]
  rw [hTP, hCP, hCB, metricas_tp hneC]
  by_cases hu : 0 < u
  · by_cases hct : 0 < (calcularCpm l).cuello_tiempo
    · rw [if_pos hu, if_pos hct,
        if_pos (⟨hu, hct⟩ : 0 < u ∧ 0 < (calcularCpm l).cuello_tiempo)]
      by_cases hu1 : 1 < u
      · rw [if_pos hu1]
      · have hu1e : u = 1 := by omega
        subst hu1e
        rw [if_neg hu1]
        push_cast
        ring
    · rw [if_pos hu, if_neg hct,
        if_neg (fun hc => hct hc.2 :
          ¬ (0 < u ∧ 0 < (calcularCpm l).cuello_tiempo))]
  · rw [if_neg hu,
      if_neg (fun hc => hu hc.1 :
        ¬ (0 < u ∧ 0 < (calcularCpm l).cuello_tiempo))]

theorem C5_production_time_witness :
    procesarEstacionesData [⟨"A", some 3, ""⟩, ⟨"B", some 5, "A"⟩] =
      Except.ok [⟨"A", 3, "", 0, 0, 0, 0, 0, false⟩, ⟨"B", 5, "A", 0, 0, 0, 0, 0, false⟩] ∧
    runPipeline [⟨"A", some 3, ""⟩, ⟨"B", some 5, "A"⟩] 3 1 = Except.ok
      ⟨[⟨"A", 3, "", 0, 3, 0, 3, 0, true⟩, ⟨"B", 5, "A", 3, 8, 3, 8, 0, true⟩], 8,
        ["A", "B"], "B", 5, 8/3, 18, 100, 100, [⟨"A", 0⟩, ⟨"B", 1⟩]⟩ ∧
    ((18 : ℚ) = if 0 < (3 : ℕ) ∧ 0 < (5 : ℚ) then (8 : ℚ) + (((3 : ℕ) : ℚ) - 1) * (5 : ℚ)
      else (8 : ℚ)) := by
  have h1 : procesarEstacionesData [⟨"A", some 3, ""⟩, ⟨"B", some 5, "A"⟩] =
      Except.ok [⟨"A", 3, "", 0, 0, 0, 0, 0, false⟩, ⟨"B", 5, "A", 0, 0, 0, 0, 0, false⟩] := by
    norm_num +decide [runPipeline, procesarEstacionesData, procesarLoop, mkEstacion, checkPredecesoras,
      lookupEst, List.find?_cons, List.find?_nil, calcularCpm, forwardPhase, forwardPass,
      forwardUpdate, backwardPhase, backwardPass, backwardUpdate, nuevoEs, nuevoLf,
      sucesoresDe, marcarHolgura, listMaxQ, listMinQ, primeroMayor, List.range_succ,
      Function.iterate_succ_apply, Function.iterate_zero, epsilonCritica, List.filter_cons,
      List.filter_nil, calcularMetricasProduccion, asignarEmpleados, pyTrunc, dictBase,
      origenIdx, ajusteLoop, incAt, decAt, List.mergeSort, List.merge, pyLower, pyLowerChar]
  have h2 : runPipeline [⟨"A", some 3, ""⟩, ⟨"B", some 5, "A"⟩] 3 1 = Except.ok
      ⟨[⟨"A", 3, "", 0, 3, 0, 3, 0, true⟩, ⟨"B", 5, "A", 3, 8, 3, 8, 0, true⟩], 8,
        ["A", "B"], "B", 5, 8/3, 18, 100, 100, [⟨"A", 0⟩, ⟨"B", 1⟩]⟩ := by
    norm_num +decide [runPipeline, procesarEstacionesData, procesarLoop, mkEstacion, checkPredecesoras,
      lookupEst, List.find?_cons, List.find?_nil, calcularCpm, forwardPhase, forwardPass,
      forwardUpdate, backwardPhase, backwardPass, backwardUpdate, nuevoEs, nuevoLf,
      sucesoresDe, marcarHolgura, listMaxQ, listMinQ, primeroMayor, List.range_succ,
      Function.iterate_succ_apply, Function.iterate_zero, epsilonCritica, List.filter_cons,
      List.filter_nil, calcularMetricasProduccion, asignarEmpleados, pyTrunc, dictBase,
      origenIdx, ajusteLoop, incAt, decAt, List.mergeSort, List.merge, pyLower, pyLowerChar]
  exact ⟨h1, h2, C5_production_time h1 h2⟩


/-- C3: for a validly built line and any employee count the allocated
per-station counts are non-negative integers summing exactly to the
available employee count. -/
theorem C3_conservation {datas : List EstacionData} {l : List Estacion} {u emp : ℕ}
    {r : LineaResultados} (h : procesarEstacionesData datas = Except.ok l)
    (hr : runPipeline datas u emp = Except.ok r) :
    ((r.empleados_asignados_por_estacion.map fun a => a.empleados).sum = (emp : ℤ)) ∧
    ∀ a ∈ r.empleados_asignados_por_estacion, 0 ≤ a.empleados := by
  obtain ⟨hneC, hposC, hnmC, hndC, htie⟩ := cpm_estaciones_derived h
  have hro := @runPipeline_ok datas u emp l h
  rw [hr] at hro
  injection hro with hreq
  have hA : r.empleados_asignados_por_estacion =
      asignarEmpleados ((calcularCpm l).estaciones) emp := by rw [hreq]
  rw [hA]
  by_cases hE : emp = 0
  · subst hE
    rw [asignar_zero (Or.inr rfl)]
    constructor
    · have hz : ∀ (xs : List Estacion),
          ((xs.map fun e => (⟨e.nombre, 0⟩ : Asignacion)).map fun a => a.empleados).sum = 0 := by
        intro xs
        induction xs with
        | nil => rfl
        | cons a t ih => simpa using ih
      rw [hz]
      norm_num
    · intro a ha
      rcases List.mem_map.mp ha with ⟨e, _, rfl⟩
      exact le_refl 0
  · obtain ⟨hsum, hnn, _⟩ := asignar_spec_main hposC hndC hneC hE
    exact ⟨hsum, hnn⟩

theorem C3_conservation_witness :
    procesarEstacionesData [⟨"A", some 1, ""⟩, ⟨"B", some 2, "A"⟩] =
      Except.ok [⟨"A", 1, "", 0, 0, 0, 0, 0, false⟩, ⟨"B", 2, "A", 0, 0, 0, 0, 0, false⟩] ∧
    runPipeline [⟨"A", some 1, ""⟩, ⟨"B", some 2, "A"⟩] 1 5 = Except.ok
      ⟨[⟨"A", 1, "", 0, 1, 0, 1, 0, true⟩, ⟨"B", 2, "A", 1, 3, 1, 3, 0, true⟩], 3,
        ["A", "B"], "B", 2, 3, 3, 30, 30, [⟨"A", 2⟩, ⟨"B", 3⟩]⟩ ∧
    (((([⟨"A", 2⟩, ⟨"B", 3⟩] : List Asignacion).map fun a => a.empleados).sum = ((5 : ℕ) : ℤ)) ∧
      ∀ a ∈ ([⟨"A", 2⟩, ⟨"B", 3⟩] : List Asignacion), 0 ≤ a.empleados) := by
  have h1 : procesarEstacionesData [⟨"A", some 1, ""⟩, ⟨"B", some 2, "A"⟩] =
      Except.ok [⟨"A", 1, "", 0, 0, 0, 0, 0, false⟩, ⟨"B", 2, "A", 0, 0, 0, 0, 0, false⟩] := by
    norm_num +decide [runPipeline, procesarEstacionesData, procesarLoop, mkEstacion, checkPredecesoras,
      lookupEst, List.find?_cons, List.find?_nil, calcularCpm, forwardPhase, forwardPass,
      forwardUpdate, backwardPhase, backwardPass, backwardUpdate, nuevoEs, nuevoLf,
      sucesoresDe, marcarHolgura, listMaxQ, listMinQ, primeroMayor, List.range_succ,
      Function.iterate_succ_apply, Function.iterate_zero, epsilonCritica, List.filter_cons,
      List.filter_nil, calcularMetricasProduccion, asignarEmpleados, pyTrunc, dictBase,
      origenIdx, ajusteLoop, incAt, decAt, List.mergeSort, List.merge, pyLower, pyLowerChar]
  have h2 : runPipeline [⟨"A", some 1, ""⟩, ⟨"B", some 2, "A"⟩] 1 5 = Except.ok
      ⟨[⟨"A", 1, "", 0, 1, 0, 1, 0, true⟩, ⟨"B", 2, "A", 1, 3, 1, 3, 0, true⟩], 3,
        ["A", "B"], "B", 2, 3, 3, 30, 30, [⟨"A", 2⟩, ⟨"B", 3⟩]⟩ := by
    norm_num +decide [runPipeline, procesarEstacionesData, procesarLoop, mkEstacion, checkPredecesoras,
      lookupEst, List.find?_cons, List.find?_nil, calcularCpm, forwardPhase, forwardPass,
      forwardUpdate, backwardPhase, backwardPass, backwardUpdate, nuevoEs, nuevoLf,
      sucesoresDe, marcarHolgura, listMaxQ, listMinQ, primeroMayor, List.range_succ,
      Function.iterate_succ_apply, Function.iterate_zero, epsilonCritica, List.filter_cons,
      List.filter_nil, calcularMetricasProduccion, asignarEmpleados, pyTrunc, dictBase,
      origenIdx, ajusteLoop, incAt, decAt, List.mergeSort, List.merge, pyLower, pyLowerChar]
  exact ⟨h1, h2, C3_conservation h1 h2⟩

/-- C6: for a validly built line and a positive employee count every
station's allocated count differs from its ideal share
(duration / total duration x employee count) by strictly less than one. -/
theorem C6_fairness {datas : List EstacionData} {l : List Estacion} {u emp : ℕ}
    {r : LineaResultados} (h : procesarEstacionesData datas = Except.ok l)
    (hr : runPipeline datas u emp = Except.ok r) (hE : emp ≠ 0) :
    ∀ a ∈ r.empleados_asignados_por_estacion, ∀ e ∈ r.estaciones, a.nombre = e.nombre →
      |(a.empleados : ℚ) -
        e.tiempo / ((r.estaciones.map fun x => x.tiempo).sum) * (emp : ℚ)| < 1 := by
  obtain ⟨hneC, hposC, hnmC, hndC, htie⟩ := cpm_estaciones_derived h
  have hro := @runPipeline_ok datas u emp l h
  rw [hr] at hro
  injection hro with hreq
  have hA : r.empleados_asignados_por_estacion =
      asignarEmpleados ((calcularCpm l).estaciones) emp := by rw [hreq]
  have hES : r.estaciones = (calcularCpm l).estaciones := by rw [hreq]
  obtain ⟨hs1, hs2, hfair⟩ := asignar_spec_main hposC hndC hneC hE
  intro a ha e he hae
  rw [hA] at ha
  rw [hES] at he
  rw [hES]
  exact hfair a ha e he hae

theorem C6_fairness_witness :
    procesarEstacionesData [⟨"A", some 1, ""⟩, ⟨"B", some 2, "A"⟩] =
      Except.ok [⟨"A", 1, "", 0, 0, 0, 0, 0, false⟩, ⟨"B", 2, "A", 0, 0, 0, 0, 0, false⟩] ∧
    runPipeline [⟨"A", some 1, ""⟩, ⟨"B", some 2, "A"⟩] 1 2 = Except.ok
      ⟨[⟨"A", 1, "", 0, 1, 0, 1, 0, true⟩, ⟨"B", 2, "A", 1, 3, 1, 3, 0, true⟩], 3,
        ["A", "B"], "B", 2, 3, 3, 75, 75, [⟨"A", 1⟩, ⟨"B", 1⟩]⟩ ∧
    (2 : ℕ) ≠ 0 ∧
    |(((⟨"A", 1⟩ : Asignacion)).empleados : ℚ) -
      ((⟨"A", 1, "", 0, 1, 0, 1, 0, true⟩ : Estacion)).tiempo /
        ((([⟨"A", 1, "", 0, 1, 0, 1, 0, true⟩,
          ⟨"B", 2, "A", 1, 3, 1, 3, 0, true⟩] : List Estacion).map fun x => x.tiempo).sum) *
        ((2 : ℕ) : ℚ)| < 1 := by
  have h1 : procesarEstacionesData [⟨"A", some 1, ""⟩, ⟨"B", some 2, "A"⟩] =
      Except.ok [⟨"A", 1, "", 0, 0, 0, 0, 0, false⟩, ⟨"B", 2, "A", 0, 0, 0, 0, 0, false⟩] := by
    norm_num +decide [runPipeline, procesarEstacionesData, procesarLoop, mkEstacion, checkPredecesoras,
      lookupEst, List.find?_cons, List.find?_nil, calcularCpm, forwardPhase, forwardPass,
      forwardUpdate, backwardPhase, backwardPass, backwardUpdate, nuevoEs, nuevoLf,
      sucesoresDe, marcarHolgura, listMaxQ, listMinQ, primeroMayor, List.range_succ,
      Function.iterate_succ_apply, Function.iterate_zero, epsilonCritica, List.filter_cons,
      List.filter_nil, calcularMetricasProduccion, asignarEmpleados, pyTrunc, dictBase,
      origenIdx, ajusteLoop, incAt, decAt, List.mergeSort, List.merge, pyLower, pyLowerChar]
  have h2 : runPipeline [⟨"A", some 1, ""⟩, ⟨"B", some 2, "A"⟩] 1 2 = Except.ok
      ⟨[⟨"A", 1, "", 0, 1, 0, 1, 0, true⟩, ⟨"B", 2, "A", 1, 3, 1, 3, 0, true⟩], 3,
        ["A", "B"], "B", 2, 3, 3, 75, 75, [⟨"A", 1⟩, ⟨"B", 1⟩]⟩ := by
    norm_num +decide [runPipeline, procesarEstacionesData, procesarLoop, mkEstacion, checkPredecesoras,
      lookupEst, List.find?_cons, List.find?_nil, calcularCpm, forwardPhase, forwardPass,
      forwardUpdate, backwardPhase, backwardPass, backwardUpdate, nuevoEs, nuevoLf,
      sucesoresDe, marcarHolgura, listMaxQ, listMinQ, primeroMayor, List.range_succ,
      Function.iterate_succ_apply, Function.iterate_zero, epsilonCritica, List.filter_cons,
      List.filter_nil, calcularMetricasProduccion, asignarEmpleados, pyTrunc, dictBase,
      origenIdx, ajusteLoop, incAt, decAt, List.mergeSort, List.merge, pyLower, pyLowerChar]
  have hE : (2 : ℕ) ≠ 0 := by norm_num
  exact ⟨h1, h2, hE, C6_fairness h1 h2 hE ⟨"A", 1⟩ (by decide)
    ⟨"A", 1, "", 0, 1, 0, 1, 0, true⟩ (by decide) rfl⟩

/-- C4: with no stations or no employees every allocation is zero, but
when the total duration is zero (and stations and employees exist) the
code does not assign zero everywhere: it splits the employees evenly over
the stations of non-negative duration, contrary to the spec. -/
theorem C4_degenerate {lista : List Estacion} {numEmp : ℕ}
    (h : lista = [] ∨ numEmp = 0 ∨ (lista.map fun e => e.tiempo).sum = 0) :
    asignarEmpleados lista numEmp =
      if lista.isEmpty ∨ numEmp = 0 then lista.map (fun e => ⟨e.nombre, 0⟩)
      else lista.enum.map (fun p =>
        ⟨p.2.nombre,
          if 0 ≤ p.2.tiempo then
            ((if 0 < (lista.filter fun e => 0 ≤ e.tiempo).length then
                numEmp / (lista.filter fun e => 0 ≤ e.tiempo).length else 0 : ℕ) : ℤ) +
              (if p.1 < (if 0 < (lista.filter fun e => 0 ≤ e.tiempo).length then
                  numEmp % (lista.filter fun e => 0 ≤ e.tiempo).length else numEmp)
                then 1 else 0)
          else 0⟩) := by
  by_cases hz : lista.isEmpty ∨ numEmp = 0
  · rw [if_pos hz]
    refine asignar_zero ?_
    rcases hz with hz | hz
    · exact Or.inl (List.isEmpty_iff.mp hz)
    · exact Or.inr hz
  · rw [if_neg hz]
    have htot : (lista.map fun e => e.tiempo).sum = 0 := by
      rcases h with h1 | h1 | h1
      · exact absurd (Or.inl (List.isEmpty_iff.mpr h1)) hz
      · exact absurd (Or.inr h1) hz
      · exact h1
    simp only [asignarEmpleados]
    rw [if_neg hz, if_pos htot]

theorem C4_counterexample :
    asignarEmpleados [⟨"A", 0, "", 0, 0, 0, 0, 0, false⟩] 3 = [⟨"A", 3⟩] ∧
    (([⟨"A", 3⟩] : List Asignacion) ≠
      ([⟨"A", 0, "", 0, 0, 0, 0, 0, false⟩] : List Estacion).map fun e => ⟨e.nombre, 0⟩) := by
  constructor
  · norm_num +decide [asignarEmpleados, List.filter_cons, List.filter_nil, List.enum,
      List.enumFrom]
  · decide

theorem C4_degenerate_witness :
    (([⟨"A", 0, "", 0, 0, 0, 0, 0, false⟩] : List Estacion) = [] ∨ (3 : ℕ) = 0 ∨
      ((([⟨"A", 0, "", 0, 0, 0, 0, 0, false⟩] : List Estacion).map fun e => e.tiempo).sum = 0)) ∧
    asignarEmpleados [⟨"A", 0, "", 0, 0, 0, 0, 0, false⟩] 3 =
      (if ([⟨"A", 0, "", 0, 0, 0, 0, 0, false⟩] : List Estacion).isEmpty ∨ (3 : ℕ) = 0
        then ([⟨"A", 0, "", 0, 0, 0, 0, 0, false⟩] : List Estacion).map (fun e => ⟨e.nombre, 0⟩)
        else ([⟨"A", 0, "", 0, 0, 0, 0, 0, false⟩] : List Estacion).enum.map (fun p =>
          ⟨p.2.nombre,
            if 0 ≤ p.2.tiempo then
              ((if 0 < (([⟨"A", 0, "", 0, 0, 0, 0, 0, false⟩] : List Estacion).filter fun e => 0 ≤ e.tiempo).length then
                  3 / (([⟨"A", 0, "", 0, 0, 0, 0, 0, false⟩] : List Estacion).filter fun e => 0 ≤ e.tiempo).length
                else 0 : ℕ) : ℤ) +
                (if p.1 < (if 0 < (([⟨"A", 0, "", 0, 0, 0, 0, 0, false⟩] : List Estacion).filter fun e => 0 ≤ e.tiempo).length
                    then 3 % (([⟨"A", 0, "", 0, 0, 0, 0, 0, false⟩] : List Estacion).filter fun e => 0 ≤ e.tiempo).length
                    else 3)
                  then 1 else 0)
            else 0⟩)) := by
  have h1 : ([⟨"A", 0, "", 0, 0, 0, 0, 0, false⟩] : List Estacion) = [] ∨ (3 : ℕ) = 0 ∨
      ((([⟨"A", 0, "", 0, 0, 0, 0, 0, false⟩] : List Estacion).map fun e => e.tiempo).sum = 0) := by
    refine Or.inr (Or.inr ?_)
    norm_num
  exact ⟨h1, C4_degenerate h1⟩

/-- C7: on a validly built, acyclic line every station's slack is at least
minus epsilon, some station has absolute slack below epsilon, and the
critical-name list is non-empty; the acyclicity hypothesis is necessary —
the spec omits it and fails on cyclic inputs, which construction accepts. -/
theorem C7_slack {datas : List EstacionData} {l : List Estacion} {u emp : ℕ}
    {r : LineaResultados} (h : procesarEstacionesData datas = Except.ok l)
    (hacy : Acyclic l) (hr : runPipeline datas u emp = Except.ok r) :
    (∀ est ∈ r.estaciones, -epsilonCritica ≤ est.holgura) ∧
    (∃ est ∈ r.estaciones, |est.holgura| < epsilonCritica) ∧
    r.camino_critico_nombres ≠ [] := by
  obtain ⟨rank, hR⟩ := hacy
  obtain ⟨hne, hpos, hnm, hnd⟩ := procesar_ok_derived h
  obtain ⟨hge, hex⟩ := cpm_slack_core hR hpos hnm hnd hne
  have hro := @runPipeline_ok datas u emp l h
  rw [hr] at hro
  injection hro with hreq
  have hES : r.estaciones = (calcularCpm l).estaciones := by rw [hreq]
  have hCam : r.camino_critico_nombres = (calcularCpm l).camino_critico_nombres := by
    rw [hreq]
  have heps : (0 : ℚ) < epsilonCritica := by norm_num [epsilonCritica]
  refine ⟨?_, ?_, ?_⟩
  · intro est hest
    rw [hES] at hest
    have := hge est hest
    linarith
  · obtain ⟨est, hest, hz⟩ := hex
    refine ⟨est, by rw [hES]; exact hest, ?_⟩
    rw [hz]
    simpa using heps
  · obtain ⟨est, hest, hz⟩ := hex
    have hcrit : est.es_critica = true := by
      have hmh : est ∈ marcarHolgura (backwardPhase
          (listMaxQ ((forwardPhase l).map fun e => e.ef)) (forwardPhase l)) := by
        rw [← calcularCpm_estaciones hne]
        exact hest
      obtain ⟨x, hx, hhol, hcr⟩ := marcarHolgura_holgura hmh
      have hx0 : x.ls - x.es = 0 := by rw [← hhol]; exact hz
      rw [hcr, hx0]
      norm_num [epsilonCritica]
    rw [hCam, calcularCpm_camino hne]
    exact List.ne_nil_of_mem (List.mem_map_of_mem (fun e => e.nombre)
      (List.mem_filter.mpr ⟨hest, hcrit⟩))

theorem C7_counterexample :
    runPipeline [⟨"A", some 1, "A"⟩] 1 1 = Except.ok
      ⟨[⟨"A", 1, "A", 1, 2, 0, 1, -1, false⟩], 2, [], "A", 1, 2, 2, 100, 100,
        [⟨"A", 1⟩]⟩ ∧
    ((-1 : ℚ) < -epsilonCritica) := by
  constructor
  · norm_num +decide [runPipeline, procesarEstacionesData, procesarLoop, mkEstacion, checkPredecesoras,
      lookupEst, List.find?_cons, List.find?_nil, calcularCpm, forwardPhase, forwardPass,
      forwardUpdate, backwardPhase, backwardPass, backwardUpdate, nuevoEs, nuevoLf,
      sucesoresDe, marcarHolgura, listMaxQ, listMinQ, primeroMayor, List.range_succ,
      Function.iterate_succ_apply, Function.iterate_zero, epsilonCritica, List.filter_cons,
      List.filter_nil, calcularMetricasProduccion, asignarEmpleados, pyTrunc, dictBase,
      origenIdx, ajusteLoop, incAt, decAt, List.mergeSort, List.merge, pyLower, pyLowerChar]
  · norm_num [epsilonCritica]

theorem C7_slack_witness :
    procesarEstacionesData [⟨"A", some 2, ""⟩, ⟨"B", some 3, "A"⟩] =
      Except.ok [⟨"A", 2, "", 0, 0, 0, 0, 0, false⟩, ⟨"B", 3, "A", 0, 0, 0, 0, 0, false⟩] ∧
    Acyclic ([⟨"A", 2, "", 0, 0, 0, 0, 0, false⟩,
      ⟨"B", 3, "A", 0, 0, 0, 0, 0, false⟩] : List Estacion) ∧
    runPipeline [⟨"A", some 2, ""⟩, ⟨"B", some 3, "A"⟩] 1 1 = Except.ok
      ⟨[⟨"A", 2, "", 0, 2, 0, 2, 0, true⟩, ⟨"B", 3, "A", 2, 5, 2, 5, 0, true⟩], 5,
        ["A", "B"], "B", 3, 5, 5, 100, 100, [⟨"A", 0⟩, ⟨"B", 1⟩]⟩ ∧
    ((∀ est ∈ ([⟨"A", 2, "", 0, 2, 0, 2, 0, true⟩,
        ⟨"B", 3, "A", 2, 5, 2, 5, 0, true⟩] : List Estacion),
        -epsilonCritica ≤ est.holgura) ∧
      (∃ est ∈ ([⟨"A", 2, "", 0, 2, 0, 2, 0, true⟩,
        ⟨"B", 3, "A", 2, 5, 2, 5, 0, true⟩] : List Estacion),
        |est.holgura| < epsilonCritica) ∧
      (["A", "B"] : List String) ≠ []) := by
  have h1 : procesarEstacionesData [⟨"A", some 2, ""⟩, ⟨"B", some 3, "A"⟩] =
      Except.ok [⟨"A", 2, "", 0, 0, 0, 0, 0, false⟩, ⟨"B", 3, "A", 0, 0, 0, 0, 0, false⟩] := by
    norm_num +decide [runPipeline, procesarEstacionesData, procesarLoop, mkEstacion, checkPredecesoras,
      lookupEst, List.find?_cons, List.find?_nil, calcularCpm, forwardPhase, forwardPass,
      forwardUpdate, backwardPhase, backwardPass, backwardUpdate, nuevoEs, nuevoLf,
      sucesoresDe, marcarHolgura, listMaxQ, listMinQ, primeroMayor, List.range_succ,
      Function.iterate_succ_apply, Function.iterate_zero, epsilonCritica, List.filter_cons,
      List.filter_nil, calcularMetricasProduccion, asignarEmpleados, pyTrunc, dictBase,
      origenIdx, ajusteLoop, incAt, decAt, List.mergeSort, List.merge, pyLower, pyLowerChar]
  have hacy : Acyclic ([⟨"A", 2, "", 0, 0, 0, 0, 0, false⟩,
      ⟨"B", 3, "A", 0, 0, 0, 0, 0, false⟩] : List Estacion) := by
    refine ⟨fun nm => if nm = "B" then 1 else 0, ?_⟩
    unfold RankOk
    decide
  have h2 : runPipeline [⟨"A", some 2, ""⟩, ⟨"B", some 3, "A"⟩] 1 1 = Except.ok
      ⟨[⟨"A", 2, "", 0, 2, 0, 2, 0, true⟩, ⟨"B", 3, "A", 2, 5, 2, 5, 0, true⟩], 5,
        ["A", "B"], "B", 3, 5, 5, 100, 100, [⟨"A", 0⟩, ⟨"B", 1⟩]⟩ := by
    norm_num +decide [runPipeline, procesarEstacionesData, procesarLoop, mkEstacion, checkPredecesoras,
      lookupEst, List.find?_cons, List.find?_nil, calcularCpm, forwardPhase, forwardPass,
      forwardUpdate, backwardPhase, backwardPass, backwardUpdate, nuevoEs, nuevoLf,
      sucesoresDe, marcarHolgura, listMaxQ, listMinQ, primeroMayor, List.range_succ,
      Function.iterate_succ_apply, Function.iterate_zero, epsilonCritica, List.filter_cons,
      List.filter_nil, calcularMetricasProduccion, asignarEmpleados, pyTrunc, dictBase,
      origenIdx, ajusteLoop, incAt, decAt, List.mergeSort, List.merge, pyLower, pyLowerChar]
  exact ⟨h1, hacy, h2, C7_slack h1 hacy h2⟩
